import Mathlib

/-!
# Indexed binary min-heap (`minheap.c`)

A shallow embedding of the array-based indexed min-heap of `src/minheap.c`
and a verification of its contract.

Modelling conventions.

* A C `int` has 32 bits.  `newHeap` computes `capacity + 1` in `int`: the
  embedding returns no heap (`none`) where that sum exceeds `INT_MAX`.  The
  other arithmetic of the code is `2 * i`, `2 * i + 1`, `i / 2`, `size + 1`
  and `size - 1` on slot numbers `i` of `[1, size]`, modelled in `Int`;
  priorities and identifiers are only compared and copied.
* The two heap-allocated blocks `arr` and `indexMap` are total maps from
  slot numbers to contents; a write is a pointwise update (`store`), a read
  is an application.  The contents `malloc` hands back are arbitrary, so
  `newHeap` takes them as arguments.
* The heap pointer is never `NULL` (the test `heap != NULL` of
  `isValidIndex` is always true).
* The functions named `...Traced` are the same functions with a trace of
  what they do to the two blocks: every read and write of a slot, in source
  order, and every call of `swap`.  Their first component is the untraced
  function (`bubbleUpTraced_fst`, `insertTraced_fst`, ...).  The blocks have
  `capacity + 1` slots each, so an access is in bounds when its index lies in
  `[0, capacity]` (`Event.InBounds`).
* The two `while` loops are iterated by a step budget.  Running out of budget
  is reported as `none` and is kept apart from every regular result.  The
  budget handed out by `bubbleUp` and `bubbleDown` is enough for every heap
  (`bubbleUp_isSome`, `bubbleDown_isSome`), and a result does not depend on
  the budget (`bubbleUpLoop_fuel_mono`, `bubbleDownLoop_fuel_mono`).
-/

namespace IndexedMinHeap

/-- Modelled from the spec: the record `HeapNode` is declared in `minheap.h`,
which is not among the sources.  A node is a pair (priority, id) of
integers. -/
structure HeapNode where
  priority : Int
  id : Int
deriving DecidableEq, Repr

/-- Modelled from the spec: the record `MinHeap` is declared in `minheap.h`,
which is not among the sources.  The fields are the ones `minheap.c` reads and
writes: `size`, `capacity`, the node array `arr` and the table `indexMap`. -/
structure MinHeap where
  size : Int
  capacity : Int
  arr : Int → HeapNode
  indexMap : Int → Int

/-- The macro `ROOT_INDEX`. -/
def ROOT_INDEX : Int := 1

/-- The macro `NOTHING`. -/
def NOTHING : Int := -1

/-- A write `a[i] = v` into a block `a`. -/
def store {α : Type} (a : Int → α) (i : Int) (v : α) : Int → α :=
  fun j => if j = i then v else a j

/-- The function `isValidIndex`: `maybeIdx` is an occupied slot. -/
def isValidIndex (heap : MinHeap) (maybeIdx : Int) : Bool :=
  if maybeIdx ≥ ROOT_INDEX ∧ maybeIdx ≤ heap.size then true else false

/-- The function `leftIdx`. -/
def leftIdx (heap : MinHeap) (nodeIndex : Int) : Int :=
  if isValidIndex heap nodeIndex = true then
    let leftId := 2 * nodeIndex
    if leftId ≤ heap.size then leftId else NOTHING
  else NOTHING

/-- The function `rightIdx`. -/
def rightIdx (heap : MinHeap) (nodeIndex : Int) : Int :=
  if isValidIndex heap nodeIndex = true then
    let rightId := 2 * nodeIndex + 1
    if rightId ≤ heap.size then rightId else NOTHING
  else NOTHING

/-- The function `parentIdx`.  The C expression `floor(nodeIndex / 2)` divides
two `int`s (truncating) before the conversion to `double`, so `floor` changes
nothing. -/
def parentIdx (heap : MinHeap) (nodeIndex : Int) : Int :=
  if isValidIndex heap nodeIndex = true then
    let parentId := Int.tdiv nodeIndex 2
    if parentId ≥ ROOT_INDEX then parentId else NOTHING
  else NOTHING

/-- The function `swap`: exchanges two occupied slots and the two table
entries of the identifiers they hold; no effect if a slot is not occupied. -/
def swap (heap : MinHeap) (index1 index2 : Int) : MinHeap :=
  if isValidIndex heap index1 = true ∧ isValidIndex heap index2 = true then
    let id1 := (heap.arr index1).id
    let id2 := (heap.arr index2).id
    let temp := heap.arr index1
    let arr1 := store heap.arr index1 (heap.arr index2)
    let arr2 := store arr1 index2 temp
    let map1 := store heap.indexMap id1 index2
    let map2 := store map1 id2 index1
    { heap with arr := arr2, indexMap := map2 }
  else heap

/-- The `while` loop of `bubbleUp`, on the loop variables `nodeIndex` and
`parentId`; `none` when the step budget runs out. -/
def bubbleUpLoop : Nat → MinHeap → Int → Int → Option MinHeap
  | 0, _, _, _ => none
  | fuel + 1, heap, nodeIndex, parentId =>
    if nodeIndex > ROOT_INDEX ∧
        (heap.arr nodeIndex).priority < (heap.arr parentId).priority then
      let heap1 := swap heap nodeIndex parentId
      bubbleUpLoop fuel heap1 parentId (parentIdx heap1 parentId)
    else some heap

/-- The function `bubbleUp`. -/
def bubbleUp (heap : MinHeap) (nodeIndex : Int) : Option MinHeap :=
  if isValidIndex heap nodeIndex = true then
    bubbleUpLoop nodeIndex.toNat heap nodeIndex (parentIdx heap nodeIndex)
  else some heap

/-- The `while` loop of `bubbleDown`, on the loop variable `nodeIndex`;
`none` when the step budget runs out. -/
def bubbleDownLoop : Nat → MinHeap → Int → Option MinHeap
  | 0, _, _ => none
  | fuel + 1, heap, nodeIndex =>
    if isValidIndex heap nodeIndex = true then
      let leftId := leftIdx heap nodeIndex
      let rightId := rightIdx heap nodeIndex
      let minId :=
        if isValidIndex heap leftId = true then
          if isValidIndex heap rightId = true ∧
              (heap.arr rightId).priority < (heap.arr leftId).priority then
            rightId
          else leftId
        else NOTHING
      if minId ≠ NOTHING ∧
          (heap.arr nodeIndex).priority > (heap.arr minId).priority then
        bubbleDownLoop fuel (swap heap nodeIndex minId) minId
      else some heap
    else some heap

/-- The function `bubbleDown`. -/
def bubbleDown (heap : MinHeap) : Option MinHeap :=
  if isValidIndex heap ROOT_INDEX = true then
    bubbleDownLoop heap.size.toNat heap ROOT_INDEX
  else some heap

/-- The function `indexOf`. -/
def indexOf (heap : MinHeap) (id : Int) : Int := heap.indexMap id

/-- The function `getMin`. -/
def getMin (heap : MinHeap) : HeapNode := heap.arr ROOT_INDEX

/-- The function `extractMin`: the returned node and the heap left behind. -/
def extractMin (heap : MinHeap) : Option (HeapNode × MinHeap) :=
  let min := getMin heap
  let h1 : MinHeap := { heap with arr := store heap.arr ROOT_INDEX (heap.arr heap.size) }
  let h2 : MinHeap :=
    { h1 with indexMap := store h1.indexMap (h1.arr ROOT_INDEX).id ROOT_INDEX }
  let h3 : MinHeap := { h2 with indexMap := store h2.indexMap min.id NOTHING }
  let h4 : MinHeap :=
    { h3 with arr := store h3.arr h3.size { h3.arr h3.size with priority := 0 } }
  let h5 : MinHeap :=
    { h4 with arr := store h4.arr h4.size { h4.arr h4.size with id := 0 } }
  let h6 : MinHeap := { h5 with size := h5.size - 1 }
  if h6.size > 0 then (bubbleDown h6).map (fun h => (min, h))
  else some (min, h6)

/-- The function `insert`. -/
def insert (heap : MinHeap) (priority id : Int) : Option MinHeap :=
  if heap.size < heap.capacity then
    let h1 : MinHeap := { heap with size := heap.size + 1 }
    let h2 : MinHeap :=
      { h1 with arr := store h1.arr h1.size { h1.arr h1.size with priority := priority } }
    let h3 : MinHeap :=
      { h2 with arr := store h2.arr h2.size { h2.arr h2.size with id := id } }
    let h4 : MinHeap := { h3 with indexMap := store h3.indexMap id h3.size }
    bubbleUp h4 h4.size
  else some heap

/-- The function `getPriority`. -/
def getPriority (heap : MinHeap) (id : Int) : Int :=
  (heap.arr (heap.indexMap id)).priority

/-- The function `decreasePriority`: the returned flag and the heap left
behind. -/
def decreasePriority (heap : MinHeap) (id newPriority : Int) : Option (Bool × MinHeap) :=
  let index := heap.indexMap id
  if isValidIndex heap index = true ∧ (heap.arr index).priority > newPriority then
    let h1 : MinHeap :=
      { heap with arr := store heap.arr index { heap.arr index with priority := newPriority } }
    (bubbleUp h1 index).map (fun h => (true, h))
  else some (false, heap)

/-- The `for` loop of `newHeap`: sets `indexMap[i] = NOTHING` for
`i = from, from + 1, ..., capacity`, in `count` rounds. -/
def clearIndexMap (indexMap : Int → Int) (i : Int) : Nat → Int → Int
  | 0 => indexMap
  | count + 1 => clearIndexMap (store indexMap i NOTHING) (i + 1) count

/-- The heap record `newHeap` fills in once `capacity + 1` has been computed
and the two blocks have been allocated: `size = 0`, the given capacity, and
the table cleared on `0, ..., capacity`.  `arr0` and `map0` are the contents of
the two freshly allocated blocks. -/
def newHeapState (capacity : Int) (arr0 : Int → HeapNode) (map0 : Int → Int) : MinHeap :=
  { size := 0
    capacity := capacity
    arr := arr0
    indexMap := clearIndexMap map0 0 (capacity + 1).toNat }

/-- Heap property: every occupied slot with a parent has a priority no smaller
than its parent's. -/
def HeapProperty (h : MinHeap) : Prop :=
  ∀ i : Int, 2 ≤ i → i ≤ h.size → (h.arr (i / 2)).priority ≤ (h.arr i).priority

/-- The identifier `id` is stored in an occupied slot. -/
def Present (h : MinHeap) (id : Int) : Prop :=
  ∃ i : Int, 1 ≤ i ∧ i ≤ h.size ∧ (h.arr i).id = id

/-- Index consistency: the table sends the identifier of every occupied slot
to that slot, and every identifier of `[0, capacity)` that is stored nowhere to
`NOTHING`. -/
def IndexConsistent (h : MinHeap) : Prop :=
  (∀ i : Int, 1 ≤ i → i ≤ h.size → h.indexMap (h.arr i).id = i) ∧
  (∀ id : Int, 0 ≤ id → id < h.capacity → ¬ Present h id → h.indexMap id = NOTHING)

/-- Identifier uniqueness: no two occupied slots hold the same identifier. -/
def UniqueIds (h : MinHeap) : Prop :=
  ∀ i j : Int, 1 ≤ i → i ≤ h.size → 1 ≤ j → j ≤ h.size →
    (h.arr i).id = (h.arr j).id → i = j

/-- Bounds: `0 ≤ size ≤ capacity` and every stored identifier lies in
`[0, capacity)`. -/
def Bounds (h : MinHeap) : Prop :=
  0 ≤ h.size ∧ h.size ≤ h.capacity ∧
  ∀ i : Int, 1 ≤ i → i ≤ h.size → 0 ≤ (h.arr i).id ∧ (h.arr i).id < h.capacity

/-- The four data-model invariants together. -/
def Invariants (h : MinHeap) : Prop :=
  HeapProperty h ∧ IndexConsistent h ∧ UniqueIds h ∧ Bounds h

/-- The multiset of the nodes stored in the slots `1, ..., size`. -/
def nodes (h : MinHeap) : Multiset HeapNode :=
  (Finset.Icc 1 h.size).val.map h.arr

/-- The states reached from the heap `newHeap C` returns (`newHeapState C`)
by `insert` (identifier in `[0, C)` and not present), `extractMin` (heap not
empty) and `decreasePriority` (identifier in `[0, C)`).  For `C = INT_MAX`,
where `newHeap` returns no heap, this only adds states.  Each of the three operations returns for every
heap (`insert_isSome`, `extractMin_isSome`, `decreasePriority_isSome`), so no
call sequence is left out. -/
inductive Reachable (C : Int) (arr0 : Int → HeapNode) (map0 : Int → Int) : MinHeap → Prop
  | init : Reachable C arr0 map0 (newHeapState C arr0 map0)
  | insert {h h1 : MinHeap} (priority id : Int) :
      Reachable C arr0 map0 h → 0 ≤ id → id < C → ¬ Present h id →
      insert h priority id = some h1 → Reachable C arr0 map0 h1
  | extractMin {h h1 : MinHeap} {min : HeapNode} :
      Reachable C arr0 map0 h → 1 ≤ h.size →
      extractMin h = some (min, h1) → Reachable C arr0 map0 h1
  | decreasePriority {h h1 : MinHeap} {b : Bool} (id newPriority : Int) :
      Reachable C arr0 map0 h → 0 ≤ id → id < C →
      decreasePriority h id newPriority = some (b, h1) → Reachable C arr0 map0 h1

/-- Inserts the nodes of a list, in list order. -/
def insertAll : List HeapNode → MinHeap → Option MinHeap
  | [], h => some h
  | x :: rest, h => (insert h x.priority x.id).bind (insertAll rest)

/-- Calls `extractMin` `n` times: the nodes returned, in order, and the heap
left behind. -/
def extractN : Nat → MinHeap → Option (List HeapNode × MinHeap)
  | 0, h => some ([], h)
  | n + 1, h =>
    (extractMin h).bind fun r =>
      (extractN n r.2).map fun s => (r.1 :: s.1, s.2)

/-- The heap property holds everywhere except possibly between slot `k` and its
parent, and the children of `k` are no smaller than the parent of `k`: the
loop invariant of `bubbleUp`. -/
def HeapExceptUp (h : MinHeap) (k : Int) : Prop :=
  (∀ i : Int, 2 ≤ i → i ≤ h.size → i ≠ k →
      (h.arr (i / 2)).priority ≤ (h.arr i).priority) ∧
  (∀ i : Int, 2 ≤ i → i ≤ h.size → i / 2 = k → 2 ≤ k →
      (h.arr (k / 2)).priority ≤ (h.arr i).priority)

/-- The heap property holds everywhere except possibly between slot `k` and its
children, and the children of `k` are no smaller than the parent of `k`: the
loop invariant of `bubbleDown`. -/
def HeapExceptDown (h : MinHeap) (k : Int) : Prop :=
  (∀ i : Int, 2 ≤ i → i ≤ h.size → i / 2 ≠ k →
      (h.arr (i / 2)).priority ≤ (h.arr i).priority) ∧
  (∀ i : Int, 2 ≤ i → i ≤ h.size → i / 2 = k → 2 ≤ k →
      (h.arr (k / 2)).priority ≤ (h.arr i).priority)

/-- The value of the local variable `minId` of `bubbleDown` at a slot `k` that
has a left child: the right child if it exists and is strictly smaller than
the left one, the left child otherwise. -/
def minChild (h : MinHeap) (k : Int) : Int :=
  if 2 * k + 1 ≤ h.size ∧ (h.arr (2 * k + 1)).priority < (h.arr (2 * k)).priority then
    2 * k + 1
  else 2 * k

/-- The heap `x` has the size, capacity and nodes of `h0`. -/
def SameNodes (h0 x : MinHeap) : Prop :=
  x.size = h0.size ∧ x.capacity = h0.capacity ∧ nodes x = nodes h0

/-- The heap `x` stores what `h0` stores, under a consistent table: the same
size, capacity and nodes, the same identifiers, every stored identifier
looked up to the same node, and the table entries of the identifiers that are
not stored untouched. -/
def SameContent (h0 x : MinHeap) : Prop :=
  SameNodes h0 x ∧ IndexConsistent x ∧
  (∀ j : Int, Present x j ↔ Present h0 j) ∧
  (∀ j : Int, Present h0 j → x.arr (x.indexMap j) = h0.arr (h0.indexMap j)) ∧
  (∀ j : Int, ¬ Present h0 j → x.indexMap j = h0.indexMap j)

/-- The heap `insert` hands to `bubbleUp`: the node is written to slot
`size + 1` and recorded in the table. -/
def appended (h : MinHeap) (priority id : Int) : MinHeap :=
  { size := h.size + 1
    capacity := h.capacity
    arr := store h.arr (h.size + 1) ⟨priority, id⟩
    indexMap := store h.indexMap id (h.size + 1) }

/-- The heap `extractMin` hands to `bubbleDown`: the last node is copied to the
root, the table is updated, the vacated slot is zeroed and the size is
decremented. -/
def movedLast (h : MinHeap) : MinHeap :=
  { size := h.size - 1
    capacity := h.capacity
    arr := store (store h.arr 1 (h.arr h.size)) h.size ⟨0, 0⟩
    indexMap := store (store h.indexMap (h.arr h.size).id 1) (h.arr 1).id NOTHING }

/-- The heap `decreasePriority` hands to `bubbleUp`: the priority stored in
slot `index` is overwritten. -/
def lowered (h : MinHeap) (index newPriority : Int) : MinHeap :=
  { h with arr := store h.arr index ⟨newPriority, (h.arr index).id⟩ }

/-! ## Deciding the invariants on a concrete heap -/

instance (h : MinHeap) : Decidable (HeapProperty h) := by
  unfold HeapProperty; infer_instance

instance (h : MinHeap) (id : Int) : Decidable (Present h id) :=
  decidable_of_iff (¬ ∀ i : Int, 1 ≤ i → i ≤ h.size → ¬ (h.arr i).id = id) (by
    unfold Present
    push_neg
    constructor
    · rintro ⟨i, h1, h2, h3⟩; exact ⟨i, h1, h2, h3⟩
    · rintro ⟨i, h1, h2, h3⟩; exact ⟨i, h1, h2, h3⟩)

instance (h : MinHeap) : Decidable (IndexConsistent h) := by
  unfold IndexConsistent; infer_instance

instance (h : MinHeap) : Decidable (UniqueIds h) :=
  decidable_of_iff (∀ i : Int, 1 ≤ i → i ≤ h.size → ∀ j : Int, 1 ≤ j → j ≤ h.size →
      (h.arr i).id = (h.arr j).id → i = j) (by
    unfold UniqueIds
    constructor
    · intro hu i j hi1 hi2 hj1 hj2 he; exact hu i hi1 hi2 j hj1 hj2 he
    · intro hu i hi1 hi2 j hj1 hj2 he; exact hu i j hi1 hi2 hj1 hj2 he)

instance (h : MinHeap) : Decidable (Bounds h) := by
  unfold Bounds; infer_instance

instance (h : MinHeap) : Decidable (Invariants h) := by
  unfold Invariants; infer_instance

/-! ## Concrete heaps -/

/-- A heap of capacity 4 holding the nodes (3, 1) and (5, 0). -/
def heapTwo : MinHeap :=
  { size := 2
    capacity := 4
    arr := fun i => if i = 1 then ⟨3, 1⟩ else if i = 2 then ⟨5, 0⟩ else ⟨0, 0⟩
    indexMap := fun j => if j = 0 then 2 else if j = 1 then 1 else NOTHING }

/-- A full heap: capacity 2, holding the nodes (3, 1) and (5, 0). -/
def heapFull : MinHeap := { heapTwo with capacity := 2 }

/-- The contents of a freshly allocated node block in the examples. -/
def arrInit : Int → HeapNode := fun _ => ⟨0, 0⟩

/-- The contents of a freshly allocated table block in the examples. -/
def mapInit : Int → Int := fun _ => 0

/-- The state after `insert 5 0` on a new heap of capacity 4. -/
def run1 : MinHeap :=
  (insert (newHeapState 4 arrInit mapInit) 5 0).getD (newHeapState 4 arrInit mapInit)

/-- The state after a further `insert 3 1`. -/
def run2 : MinHeap := (insert run1 3 1).getD run1

/-- The state after a further `decreasePriority 0 2`. -/
def run3 : MinHeap := ((decreasePriority run2 0 2).map Prod.snd).getD run2

/-- The state after a further `extractMin`. -/
def run4 : MinHeap := ((extractMin run3).map Prod.snd).getD run3

/-- The state after inserting (5,0), (3,1), (8,2), (1,3) into a new heap of
capacity 4. -/
def heapFour : MinHeap :=
  (insertAll [⟨5, 0⟩, ⟨3, 1⟩, ⟨8, 2⟩, ⟨1, 3⟩] (newHeapState 4 arrInit mapInit)).getD
    (newHeapState 4 arrInit mapInit)

/-- The swap-and-shrink variant of extraction that `extractMin` is compared
with, written from the words of the specification (in the source it is only
the commented-out call `swap(heap, ROOT_INDEX, heap->size)`): capture the
root, call `swap(heap, ROOT_INDEX, size)`, set `indexMap[min.id] = NOTHING`,
decrement `size`, and bubble down if the heap is not empty. -/
def extractMinSwapShrink (heap : MinHeap) : Option (HeapNode × MinHeap) :=
  let min := getMin heap
  let h1 : MinHeap := swap heap ROOT_INDEX heap.size
  let h2 : MinHeap := { h1 with indexMap := store h1.indexMap min.id NOTHING }
  let h3 : MinHeap := { h2 with size := h2.size - 1 }
  if h3.size > 0 then (bubbleDown h3).map (fun h => (min, h))
  else some (min, h3)

/-- Two heaps agree in size, capacity, table and every slot of `arr` other
than slot `s`. -/
def AgreeExcept (s : Int) (x y : MinHeap) : Prop :=
  x.size = y.size ∧ x.capacity = y.capacity ∧ x.indexMap = y.indexMap ∧
  ∀ j : Int, j ≠ s → x.arr j = y.arr j

/-! ## Executions with their accesses and calls of `swap` made visible -/

/-- An observable step of an execution: a read or a write of a slot of `arr`
or of an entry of `indexMap`, or a call of `swap`. -/
inductive Event where
  | readArr (i : Int)
  | writeArr (i : Int)
  | readMap (i : Int)
  | writeMap (i : Int)
  | swapCall (index1 index2 : Int)
deriving DecidableEq, Repr

/-- The calls of `swap` in a trace, in order, with their two arguments. -/
def swapCalls : List Event → List (Int × Int)
  | [] => []
  | Event.swapCall a b :: rest => (a, b) :: swapCalls rest
  | _ :: rest => swapCalls rest

/-- The number of calls of `swap` in a trace. -/
def swapCount (t : List Event) : Nat := (swapCalls t).length

/-- The step touches only occupied slots of `arr` (slots of `[1, n]`) and only
table entries of `[0, c)`. -/
def Event.Within (n c : Int) : Event → Prop
  | Event.readArr i => 1 ≤ i ∧ i ≤ n
  | Event.writeArr i => 1 ≤ i ∧ i ≤ n
  | Event.readMap i => 0 ≤ i ∧ i < c
  | Event.writeMap i => 0 ≤ i ∧ i < c
  | Event.swapCall _ _ => True

/-- The step stays inside the two blocks of `c + 1` slots each (indices
`0, ..., c`). -/
def Event.InBounds (c : Int) : Event → Prop
  | Event.readArr i => 0 ≤ i ∧ i ≤ c
  | Event.writeArr i => 0 ≤ i ∧ i ≤ c
  | Event.readMap i => 0 ≤ i ∧ i ≤ c
  | Event.writeMap i => 0 ≤ i ∧ i ≤ c
  | Event.swapCall _ _ => True

instance (c : Int) (e : Event) : Decidable (Event.InBounds c e) := by
  cases e <;> unfold Event.InBounds <;> infer_instance

/-- The function `swap`, with its trace: the call itself, then the reads and
writes in source order. -/
def swapTraced (heap : MinHeap) (index1 index2 : Int) : MinHeap × List Event :=
  if isValidIndex heap index1 = true ∧ isValidIndex heap index2 = true then
    let id1 := (heap.arr index1).id
    let id2 := (heap.arr index2).id
    let temp := heap.arr index1
    let arr1 := store heap.arr index1 (heap.arr index2)
    let arr2 := store arr1 index2 temp
    let map1 := store heap.indexMap id1 index2
    let map2 := store map1 id2 index1
    ({ heap with arr := arr2, indexMap := map2 },
      [Event.swapCall index1 index2, Event.readArr index1, Event.readArr index2,
        Event.readArr index1, Event.readArr index2, Event.writeArr index1,
        Event.writeArr index2, Event.writeMap id1, Event.writeMap id2])
  else (heap, [Event.swapCall index1 index2])

/-- The `while` loop of `bubbleUp`, with its trace.  The second operand of
`&&` is evaluated, and its two slots read, only when `nodeIndex > ROOT_INDEX`. -/
def bubbleUpLoopTraced : Nat → MinHeap → Int → Int → Option (MinHeap × List Event)
  | 0, _, _, _ => none
  | fuel + 1, heap, nodeIndex, parentId =>
    if nodeIndex > ROOT_INDEX then
      if (heap.arr nodeIndex).priority < (heap.arr parentId).priority then
        let s := swapTraced heap nodeIndex parentId
        (bubbleUpLoopTraced fuel s.1 parentId (parentIdx s.1 parentId)).map
          (fun r => (r.1, [Event.readArr nodeIndex, Event.readArr parentId] ++ s.2 ++ r.2))
      else some (heap, [Event.readArr nodeIndex, Event.readArr parentId])
    else some (heap, [])

/-- The function `bubbleUp`, with its trace. -/
def bubbleUpTraced (heap : MinHeap) (nodeIndex : Int) : Option (MinHeap × List Event) :=
  if isValidIndex heap nodeIndex = true then
    bubbleUpLoopTraced nodeIndex.toNat heap nodeIndex (parentIdx heap nodeIndex)
  else some (heap, [])

/-- The `while` loop of `bubbleDown`, with its trace.  The two children are
read only when both exist, and the node and `minId` only when
`minId != NOTHING`. -/
def bubbleDownLoopTraced : Nat → MinHeap → Int → Option (MinHeap × List Event)
  | 0, _, _ => none
  | fuel + 1, heap, nodeIndex =>
    if isValidIndex heap nodeIndex = true then
      let leftId := leftIdx heap nodeIndex
      let rightId := rightIdx heap nodeIndex
      let reads1 : List Event :=
        if isValidIndex heap leftId = true ∧ isValidIndex heap rightId = true then
          [Event.readArr rightId, Event.readArr leftId]
        else []
      let minId :=
        if isValidIndex heap leftId = true then
          if isValidIndex heap rightId = true ∧
              (heap.arr rightId).priority < (heap.arr leftId).priority then
            rightId
          else leftId
        else NOTHING
      let reads2 : List Event :=
        if minId ≠ NOTHING then [Event.readArr nodeIndex, Event.readArr minId] else []
      if minId ≠ NOTHING ∧
          (heap.arr nodeIndex).priority > (heap.arr minId).priority then
        let s := swapTraced heap nodeIndex minId
        (bubbleDownLoopTraced fuel s.1 minId).map
          (fun r => (r.1, reads1 ++ reads2 ++ s.2 ++ r.2))
      else some (heap, reads1 ++ reads2)
    else some (heap, [])

/-- The function `bubbleDown`, with its trace. -/
def bubbleDownTraced (heap : MinHeap) : Option (MinHeap × List Event) :=
  if isValidIndex heap ROOT_INDEX = true then
    bubbleDownLoopTraced heap.size.toNat heap ROOT_INDEX
  else some (heap, [])

/-- The function `indexOf`, with its trace. -/
def indexOfTraced (heap : MinHeap) (id : Int) : Int × List Event :=
  (heap.indexMap id, [Event.readMap id])

/-- The function `getPriority`, with its trace. -/
def getPriorityTraced (heap : MinHeap) (id : Int) : Int × List Event :=
  ((heap.arr (heap.indexMap id)).priority,
    [Event.readMap id, Event.readArr (heap.indexMap id)])

/-- The function `extractMin`, with its trace. -/
def extractMinTraced (heap : MinHeap) : Option ((HeapNode × MinHeap) × List Event) :=
  let min := getMin heap
  let h1 : MinHeap := { heap with arr := store heap.arr ROOT_INDEX (heap.arr heap.size) }
  let h2 : MinHeap :=
    { h1 with indexMap := store h1.indexMap (h1.arr ROOT_INDEX).id ROOT_INDEX }
  let h3 : MinHeap := { h2 with indexMap := store h2.indexMap min.id NOTHING }
  let h4 : MinHeap :=
    { h3 with arr := store h3.arr h3.size { h3.arr h3.size with priority := 0 } }
  let h5 : MinHeap :=
    { h4 with arr := store h4.arr h4.size { h4.arr h4.size with id := 0 } }
  let h6 : MinHeap := { h5 with size := h5.size - 1 }
  let t : List Event :=
    [Event.readArr ROOT_INDEX, Event.readArr heap.size, Event.writeArr ROOT_INDEX,
      Event.readArr ROOT_INDEX, Event.writeMap (h1.arr ROOT_INDEX).id,
      Event.writeMap min.id, Event.writeArr heap.size, Event.writeArr heap.size]
  if h6.size > 0 then (bubbleDownTraced h6).map (fun r => ((min, r.1), t ++ r.2))
  else some ((min, h6), t)

/-- The function `insert`, with its trace. -/
def insertTraced (heap : MinHeap) (priority id : Int) : Option (MinHeap × List Event) :=
  if heap.size < heap.capacity then
    let h1 : MinHeap := { heap with size := heap.size + 1 }
    let h2 : MinHeap :=
      { h1 with arr := store h1.arr h1.size { h1.arr h1.size with priority := priority } }
    let h3 : MinHeap :=
      { h2 with arr := store h2.arr h2.size { h2.arr h2.size with id := id } }
    let h4 : MinHeap := { h3 with indexMap := store h3.indexMap id h3.size }
    let t : List Event :=
      [Event.writeArr h1.size, Event.writeArr h1.size, Event.writeMap id]
    (bubbleUpTraced h4 h4.size).map (fun r => (r.1, t ++ r.2))
  else some (heap, [])

/-- The function `decreasePriority`, with its trace.  The slot `index` is
read only when `isValidIndex(heap, index)` holds. -/
def decreasePriorityTraced (heap : MinHeap) (id newPriority : Int) :
    Option ((Bool × MinHeap) × List Event) :=
  let index := heap.indexMap id
  if isValidIndex heap index = true then
    if (heap.arr index).priority > newPriority then
      let h1 : MinHeap :=
        { heap with
          arr := store heap.arr index { heap.arr index with priority := newPriority } }
      (bubbleUpTraced h1 index).map
        (fun r => ((true, r.1),
          [Event.readMap id, Event.readArr index, Event.writeArr index] ++ r.2))
    else some ((false, heap), [Event.readMap id, Event.readArr index])
  else some ((false, heap), [Event.readMap id])

/-- A state that does not have the heap property: capacity 4, slots 1, 2, 3
holding (9, 0), (4, 1), (2, 2). -/
def heapThree : MinHeap :=
  { size := 3
    capacity := 4
    arr := fun i => if i = 1 then ⟨9, 0⟩ else if i = 2 then ⟨4, 1⟩
      else if i = 3 then ⟨2, 2⟩ else ⟨0, 0⟩
    indexMap := fun j => if j = 0 then 1 else if j = 1 then 2 else if j = 2 then 3
      else NOTHING }

/-! ## Basic facts -/

theorem store_apply {α : Type} (a : Int → α) (i : Int) (v : α) (j : Int) :
    store a i v j = if j = i then v else a j := rfl

theorem isValidIndex_iff (h : MinHeap) (i : Int) :
    isValidIndex h i = true ↔ 1 ≤ i ∧ i ≤ h.size := by
  simp [isValidIndex, ROOT_INDEX]

theorem parentIdx_of_valid (h : MinHeap) (k : Int) (h1 : 2 ≤ k) (h2 : k ≤ h.size) :
    parentIdx h k = k / 2 := by
  have hv : isValidIndex h k = true := (isValidIndex_iff h k).2 ⟨by omega, h2⟩
  have ht : Int.tdiv k 2 = k / 2 := Int.tdiv_eq_ediv (by omega) (by omega)
  simp only [parentIdx, hv, ht, ROOT_INDEX, if_true]
  rw [if_pos (by omega)]

theorem swap_size (h : MinHeap) (a b : Int) : (swap h a b).size = h.size := by
  unfold swap; split <;> rfl

theorem swap_capacity (h : MinHeap) (a b : Int) : (swap h a b).capacity = h.capacity := by
  unfold swap; split <;> rfl

theorem swap_arr (h : MinHeap) (a b : Int) (ha : 1 ≤ a ∧ a ≤ h.size)
    (hb : 1 ≤ b ∧ b ≤ h.size) (j : Int) :
    (swap h a b).arr j = if j = b then h.arr a else if j = a then h.arr b else h.arr j := by
  have hva := (isValidIndex_iff h a).2 ha
  have hvb := (isValidIndex_iff h b).2 hb
  simp [swap, hva, hvb, store_apply]

theorem swap_indexMap (h : MinHeap) (a b : Int) (ha : 1 ≤ a ∧ a ≤ h.size)
    (hb : 1 ≤ b ∧ b ≤ h.size) (j : Int) :
    (swap h a b).indexMap j =
      if j = (h.arr b).id then a else if j = (h.arr a).id then b else h.indexMap j := by
  have hva := (isValidIndex_iff h a).2 ha
  have hvb := (isValidIndex_iff h b).2 hb
  simp [swap, hva, hvb, store_apply]

theorem swap_of_not_valid (h : MinHeap) (a b : Int)
    (hn : ¬ ((1 ≤ a ∧ a ≤ h.size) ∧ (1 ≤ b ∧ b ≤ h.size))) : swap h a b = h := by
  unfold swap
  rw [if_neg]
  simpa [isValidIndex_iff] using hn

/-! ## `bubbleUp` -/

theorem heapExceptUp_swap (h : MinHeap) (k : Int) (h1 : 2 ≤ k) (h2 : k ≤ h.size)
    (hex : HeapExceptUp h k)
    (hlt : (h.arr k).priority < (h.arr (k / 2)).priority) :
    HeapExceptUp (swap h k (k / 2)) (k / 2) := by
  have hk : 1 ≤ k ∧ k ≤ h.size := ⟨by omega, h2⟩
  have hp : 1 ≤ k / 2 ∧ k / 2 ≤ h.size := ⟨by omega, by omega⟩
  obtain ⟨hA, hB⟩ := hex
  refine ⟨?_, ?_⟩
  · intro i hi2 hisz hne
    rw [swap_size] at hisz
    rw [swap_arr h k (k / 2) hk hp, swap_arr h k (k / 2) hk hp]
    by_cases hik : i = k
    · subst hik
      rw [if_pos rfl, if_neg (by omega), if_pos rfl]
      omega
    · rw [if_neg hne, if_neg hik]
      by_cases hpar : i / 2 = k / 2
      · rw [if_pos hpar]
        have := hA i hi2 hisz hik
        rw [hpar] at this
        omega
      · rw [if_neg hpar]
        by_cases hpk : i / 2 = k
        · rw [if_pos hpk]
          exact hB i hi2 hisz hpk h1
        · rw [if_neg hpk]
          exact hA i hi2 hisz hik
  · intro i hi2 hisz hpar hp2
    rw [swap_size] at hisz
    rw [swap_arr h k (k / 2) hk hp, swap_arr h k (k / 2) hk hp]
    rw [if_neg (by omega), if_neg (by omega), if_neg (by omega)]
    have hgp := hA (k / 2) hp2 (by omega) (by omega)
    by_cases hik : i = k
    · rw [if_pos hik]
      exact hgp
    · rw [if_neg hik]
      have := hA i hi2 hisz hik
      rw [hpar] at this
      omega

theorem heapProperty_of_heapExceptUp (h : MinHeap) (k : Int)
    (hex : HeapExceptUp h k)
    (hstop : ¬ (k > 1 ∧ (h.arr k).priority < (h.arr (k / 2)).priority)) :
    HeapProperty h := by
  intro i hi2 hisz
  by_cases hik : i = k
  · subst hik
    have : ¬ (h.arr i).priority < (h.arr (i / 2)).priority := fun hlt => hstop ⟨by omega, hlt⟩
    omega
  · exact hex.1 i hi2 hisz hik

theorem bubbleUpLoop_heapProperty :
    ∀ (fuel : Nat) (h : MinHeap) (k : Int) (h1 : MinHeap), 1 ≤ k → k ≤ h.size →
      HeapExceptUp h k → bubbleUpLoop fuel h k (parentIdx h k) = some h1 →
      HeapProperty h1 := by
  intro fuel
  induction fuel with
  | zero => intro h k h1 _ _ _ hrun; simp [bubbleUpLoop] at hrun
  | succ n ih =>
    intro h k h1 hk1 hk2 hex hrun
    rw [bubbleUpLoop] at hrun
    by_cases hk : 2 ≤ k
    · rw [parentIdx_of_valid h k hk hk2] at hrun
      split at hrun
      · rename_i hc
        have hsz : k / 2 ≤ (swap h k (k / 2)).size := by rw [swap_size]; omega
        exact ih (swap h k (k / 2)) (k / 2) h1 (by omega) hsz
          (heapExceptUp_swap h k hk hk2 hex hc.2) hrun
      · rename_i hc
        simp only [Option.some.injEq] at hrun
        subst hrun
        exact heapProperty_of_heapExceptUp h k hex
          (fun hh => hc ⟨by simpa [ROOT_INDEX] using hh.1, hh.2⟩)
    · rw [if_neg (by simp only [ROOT_INDEX]; omega)] at hrun
      simp only [Option.some.injEq] at hrun
      subst hrun
      exact heapProperty_of_heapExceptUp h k hex (fun hh => by omega)

/-- The `while` loop of `bubbleUp` finishes within a budget of `k` steps when
started at an occupied slot `k`. -/
theorem bubbleUpLoop_isSome :
    ∀ (fuel : Nat) (h : MinHeap) (k : Int), 1 ≤ k → k ≤ h.size → k ≤ fuel →
      ∃ h1, bubbleUpLoop fuel h k (parentIdx h k) = some h1 := by
  intro fuel
  induction fuel with
  | zero => intro h k hk1 _ hf; simp at hf; omega
  | succ n ih =>
    intro h k hk1 hk2 hf
    rw [bubbleUpLoop]
    by_cases hk : 2 ≤ k
    · rw [parentIdx_of_valid h k hk hk2]
      split
      · have hsz : k / 2 ≤ (swap h k (k / 2)).size := by rw [swap_size]; omega
        exact ih (swap h k (k / 2)) (k / 2) (by omega) hsz (by push_cast at hf; omega)
      · exact ⟨h, rfl⟩
    · rw [if_neg (by simp only [ROOT_INDEX]; omega)]
      exact ⟨h, rfl⟩

/-- The function `bubbleUp` returns for every heap and every slot number. -/
theorem bubbleUp_isSome (h : MinHeap) (k : Int) : ∃ h1, bubbleUp h k = some h1 := by
  unfold bubbleUp
  split
  · rename_i hv
    have hk := (isValidIndex_iff h k).1 hv
    exact bubbleUpLoop_isSome k.toNat h k hk.1 hk.2 (by rw [Int.toNat_of_nonneg (by omega)])
  · exact ⟨h, rfl⟩

/-- A result of the loop of `bubbleUp` does not depend on the budget: a larger
budget gives the same heap. -/
theorem bubbleUpLoop_fuel_mono :
    ∀ (n m : Nat) (h : MinHeap) (k par : Int) (r : MinHeap),
      bubbleUpLoop n h k par = some r → bubbleUpLoop (n + m) h k par = some r := by
  intro n
  induction n with
  | zero => intro m h k par r hrun; simp [bubbleUpLoop] at hrun
  | succ n ih =>
    intro m h k par r hrun
    rw [Nat.add_right_comm, bubbleUpLoop]
    rw [bubbleUpLoop] at hrun
    split
    · rename_i hc
      rw [if_pos hc] at hrun
      exact ih m _ _ _ r hrun
    · rename_i hc
      rw [if_neg hc] at hrun
      exact hrun

/-- Whatever every `swap` preserves, the loop of `bubbleUp` preserves. -/
theorem bubbleUpLoop_preserves (P : MinHeap → Prop)
    (hP : ∀ (h : MinHeap) (a b : Int), P h → P (swap h a b)) :
    ∀ (fuel : Nat) (h : MinHeap) (k par : Int) (h1 : MinHeap),
      bubbleUpLoop fuel h k par = some h1 → P h → P h1 := by
  intro fuel
  induction fuel with
  | zero => intro h k par h1 hrun; simp [bubbleUpLoop] at hrun
  | succ n ih =>
    intro h k par h1 hrun hPh
    rw [bubbleUpLoop] at hrun
    split at hrun
    · exact ih _ _ _ h1 hrun (hP h k par hPh)
    · simp only [Option.some.injEq] at hrun
      subst hrun
      exact hPh

theorem bubbleUp_preserves (P : MinHeap → Prop)
    (hP : ∀ (h : MinHeap) (a b : Int), P h → P (swap h a b))
    (h : MinHeap) (k : Int) (h1 : MinHeap) (hrun : bubbleUp h k = some h1) (hPh : P h) :
    P h1 := by
  unfold bubbleUp at hrun
  split at hrun
  · exact bubbleUpLoop_preserves P hP _ _ _ _ h1 hrun hPh
  · simp only [Option.some.injEq] at hrun
    subst hrun
    exact hPh

theorem bubbleUp_heapProperty (h : MinHeap) (k : Int) (h1 : MinHeap)
    (hk1 : 1 ≤ k) (hk2 : k ≤ h.size) (hex : HeapExceptUp h k)
    (hrun : bubbleUp h k = some h1) : HeapProperty h1 := by
  unfold bubbleUp at hrun
  rw [if_pos ((isValidIndex_iff h k).2 ⟨hk1, hk2⟩)] at hrun
  exact bubbleUpLoop_heapProperty _ h k h1 hk1 hk2 hex hrun

/-! ## `bubbleDown` -/

theorem leftIdx_of_valid (h : MinHeap) (k : Int) (hk1 : 1 ≤ k) (hk2 : k ≤ h.size) :
    leftIdx h k = if 2 * k ≤ h.size then 2 * k else NOTHING := by
  simp [leftIdx, (isValidIndex_iff h k).2 ⟨hk1, hk2⟩]

theorem rightIdx_of_valid (h : MinHeap) (k : Int) (hk1 : 1 ≤ k) (hk2 : k ≤ h.size) :
    rightIdx h k = if 2 * k + 1 ≤ h.size then 2 * k + 1 else NOTHING := by
  simp [rightIdx, (isValidIndex_iff h k).2 ⟨hk1, hk2⟩]

theorem not_isValidIndex_NOTHING (h : MinHeap) : isValidIndex h NOTHING = false := by
  simp [isValidIndex, NOTHING, ROOT_INDEX]

/-- One round of the loop of `bubbleDown` at an occupied slot. -/
theorem bubbleDownLoop_succ (n : Nat) (h : MinHeap) (k : Int) (hk1 : 1 ≤ k)
    (hk2 : k ≤ h.size) :
    bubbleDownLoop (n + 1) h k =
      if 2 * k ≤ h.size ∧ (h.arr k).priority > (h.arr (minChild h k)).priority then
        bubbleDownLoop n (swap h k (minChild h k)) (minChild h k)
      else some h := by
  rw [bubbleDownLoop, if_pos ((isValidIndex_iff h k).2 ⟨hk1, hk2⟩),
    leftIdx_of_valid h k hk1 hk2, rightIdx_of_valid h k hk1 hk2]
  by_cases hl : 2 * k ≤ h.size
  · have hvl : isValidIndex h (2 * k) = true := (isValidIndex_iff h _).2 ⟨by omega, hl⟩
    simp only [if_pos hl, hvl, if_true]
    by_cases hr : 2 * k + 1 ≤ h.size
    · have hvr : isValidIndex h (2 * k + 1) = true :=
        (isValidIndex_iff h _).2 ⟨by omega, hr⟩
      simp only [if_pos hr, hvr, true_and, minChild]
      by_cases hc : (h.arr (2 * k + 1)).priority < (h.arr (2 * k)).priority
      · simp only [if_pos hc]
        have hne : 2 * k + 1 ≠ NOTHING := by simp only [NOTHING]; omega
        simp [hne, hl, hr, hc]
      · simp only [if_neg hc]
        have hne : 2 * k ≠ NOTHING := by simp only [NOTHING]; omega
        simp [hne, hl, hc]
    · have hm : minChild h k = 2 * k := by simp [minChild, hr]
      have hne : 2 * k ≠ NOTHING := by simp only [NOTHING]; omega
      simp [if_neg hr, not_isValidIndex_NOTHING, hm, hne, hl]
  · simp [if_neg hl, not_isValidIndex_NOTHING, hl]

theorem minChild_spec (h : MinHeap) (k : Int) (_hk1 : 1 ≤ k) (hl : 2 * k ≤ h.size) :
    (minChild h k = 2 * k ∨ minChild h k = 2 * k + 1) ∧ minChild h k ≤ h.size ∧
    ∀ i : Int, 2 ≤ i → i ≤ h.size → i / 2 = k →
      (h.arr (minChild h k)).priority ≤ (h.arr i).priority := by
  unfold minChild
  split
  · rename_i hc
    refine ⟨Or.inr rfl, hc.1, ?_⟩
    intro i _ _ hpar
    have : i = 2 * k ∨ i = 2 * k + 1 := by omega
    rcases this with rfl | rfl
    · omega
    · exact le_refl _
  · rename_i hc
    refine ⟨Or.inl rfl, hl, ?_⟩
    intro i _ hisz hpar
    have : i = 2 * k ∨ i = 2 * k + 1 := by omega
    rcases this with rfl | rfl
    · exact le_refl _
    · have : ¬ (h.arr (2 * k + 1)).priority < (h.arr (2 * k)).priority :=
        fun hlt => hc ⟨hisz, hlt⟩
      omega

theorem heapExceptDown_swap (h : MinHeap) (k : Int) (hk1 : 1 ≤ k) (hl : 2 * k ≤ h.size)
    (hex : HeapExceptDown h k)
    (hgt : (h.arr k).priority > (h.arr (minChild h k)).priority) :
    HeapExceptDown (swap h k (minChild h k)) (minChild h k) := by
  obtain ⟨hm, hmsz, hmin⟩ := minChild_spec h k hk1 hl
  generalize minChild h k = m at hm hmsz hmin hgt ⊢
  have hk : 1 ≤ k ∧ k ≤ h.size := ⟨hk1, by omega⟩
  have hmv : 1 ≤ m ∧ m ≤ h.size := ⟨by omega, hmsz⟩
  have hmk : m / 2 = k := by omega
  obtain ⟨hA, hB⟩ := hex
  refine ⟨?_, ?_⟩
  · intro i hi2 hisz hne
    rw [swap_size] at hisz
    rw [swap_arr h k m hk hmv, swap_arr h k m hk hmv]
    rw [if_neg hne]
    by_cases him : i = m
    · rw [if_pos him, if_pos (by omega)]
      omega
    · rw [if_neg him]
      by_cases hik : i = k
      · rw [if_pos hik, if_neg (by omega)]
        have := hB m (by omega) hmsz hmk (by omega)
        rw [hik]
        exact this
      · rw [if_neg hik]
        by_cases hpk : i / 2 = k
        · rw [if_pos hpk]
          exact hmin i hi2 hisz hpk
        · rw [if_neg hpk]
          exact hA i hi2 hisz hpk
  · intro i hi2 hisz hpar _
    rw [swap_size] at hisz
    rw [swap_arr h k m hk hmv, swap_arr h k m hk hmv]
    rw [if_neg (by omega), if_pos hmk, if_neg (by omega), if_neg (by omega)]
    have := hA i hi2 hisz (by omega)
    rw [hpar] at this
    exact this

theorem heapProperty_of_heapExceptDown (h : MinHeap) (k : Int) (hk1 : 1 ≤ k)
    (hex : HeapExceptDown h k)
    (hstop : ¬ (2 * k ≤ h.size ∧ (h.arr k).priority > (h.arr (minChild h k)).priority)) :
    HeapProperty h := by
  intro i hi2 hisz
  by_cases hpk : i / 2 = k
  · have hl : 2 * k ≤ h.size := by omega
    obtain ⟨_, _, hmin⟩ := minChild_spec h k hk1 hl
    have h1 := hmin i hi2 hisz hpk
    have h2 : ¬ (h.arr k).priority > (h.arr (minChild h k)).priority :=
      fun hgt => hstop ⟨hl, hgt⟩
    rw [hpk]
    omega
  · exact hex.1 i hi2 hisz hpk

theorem bubbleDownLoop_heapProperty :
    ∀ (fuel : Nat) (h : MinHeap) (k : Int) (h1 : MinHeap), 1 ≤ k → k ≤ h.size →
      HeapExceptDown h k → bubbleDownLoop fuel h k = some h1 → HeapProperty h1 := by
  intro fuel
  induction fuel with
  | zero => intro h k h1 _ _ _ hrun; simp [bubbleDownLoop] at hrun
  | succ n ih =>
    intro h k h1 hk1 hk2 hex hrun
    rw [bubbleDownLoop_succ n h k hk1 hk2] at hrun
    split at hrun
    · rename_i hc
      obtain ⟨hm, hmsz, _⟩ := minChild_spec h k hk1 hc.1
      have hsz : minChild h k ≤ (swap h k (minChild h k)).size := by
        rw [swap_size]; exact hmsz
      exact ih _ _ h1 (by omega) hsz (heapExceptDown_swap h k hk1 hc.1 hex hc.2) hrun
    · rename_i hc
      simp only [Option.some.injEq] at hrun
      subst hrun
      exact heapProperty_of_heapExceptDown h k hk1 hex hc

/-- The `while` loop of `bubbleDown` finishes within a budget of
`size - k + 1` steps when started at an occupied slot `k`. -/
theorem bubbleDownLoop_isSome :
    ∀ (fuel : Nat) (h : MinHeap) (k : Int), 1 ≤ k → k ≤ h.size → h.size - k < fuel →
      ∃ h1, bubbleDownLoop fuel h k = some h1 := by
  intro fuel
  induction fuel with
  | zero => intro h k _ _ hf; simp at hf; omega
  | succ n ih =>
    intro h k hk1 hk2 hf
    rw [bubbleDownLoop_succ n h k hk1 hk2]
    split
    · rename_i hc
      obtain ⟨hm, hmsz, _⟩ := minChild_spec h k hk1 hc.1
      have hsz : minChild h k ≤ (swap h k (minChild h k)).size := by
        rw [swap_size]; exact hmsz
      refine ih _ _ (by omega) hsz ?_
      rw [swap_size]
      push_cast at hf
      omega
    · exact ⟨h, rfl⟩

/-- The function `bubbleDown` returns for every heap. -/
theorem bubbleDown_isSome (h : MinHeap) : ∃ h1, bubbleDown h = some h1 := by
  unfold bubbleDown
  split
  · rename_i hv
    have hk := (isValidIndex_iff h ROOT_INDEX).1 hv
    simp only [ROOT_INDEX] at hk ⊢
    refine bubbleDownLoop_isSome _ h 1 (by omega) hk.2 ?_
    rw [Int.toNat_of_nonneg (by omega)]
    omega
  · exact ⟨h, rfl⟩

/-- A result of the loop of `bubbleDown` does not depend on the budget: a
larger budget gives the same heap. -/
theorem bubbleDownLoop_fuel_mono :
    ∀ (n m : Nat) (h : MinHeap) (k : Int) (r : MinHeap),
      bubbleDownLoop n h k = some r → bubbleDownLoop (n + m) h k = some r := by
  intro n
  induction n with
  | zero => intro m h k r hrun; simp [bubbleDownLoop] at hrun
  | succ n ih =>
    intro m h k r hrun
    rw [Nat.add_right_comm, bubbleDownLoop]
    rw [bubbleDownLoop] at hrun
    by_cases hv : isValidIndex h k = true
    · rw [if_pos hv] at hrun ⊢
      dsimp only at hrun ⊢
      generalize (if isValidIndex h (leftIdx h k) = true then _ else NOTHING) = c at hrun ⊢
      split
      · rename_i hc
        rw [if_pos hc] at hrun
        exact ih m _ _ r hrun
      · rename_i hc
        rw [if_neg hc] at hrun
        exact hrun
    · rw [if_neg hv] at hrun ⊢
      exact hrun

/-- Whatever every `swap` preserves, the loop of `bubbleDown` preserves. -/
theorem bubbleDownLoop_preserves (P : MinHeap → Prop)
    (hP : ∀ (h : MinHeap) (a b : Int), P h → P (swap h a b)) :
    ∀ (fuel : Nat) (h : MinHeap) (k : Int) (h1 : MinHeap),
      bubbleDownLoop fuel h k = some h1 → P h → P h1 := by
  intro fuel
  induction fuel with
  | zero => intro h k h1 hrun; simp [bubbleDownLoop] at hrun
  | succ n ih =>
    intro h k h1 hrun hPh
    rw [bubbleDownLoop] at hrun
    by_cases hv : isValidIndex h k = true
    · rw [if_pos hv] at hrun
      dsimp only at hrun
      generalize (if isValidIndex h (leftIdx h k) = true then _ else NOTHING) = m at hrun
      split at hrun
      · exact ih _ _ h1 hrun (hP h _ _ hPh)
      · simp only [Option.some.injEq] at hrun
        subst hrun
        exact hPh
    · rw [if_neg hv] at hrun
      simp only [Option.some.injEq] at hrun
      subst hrun
      exact hPh

theorem bubbleDown_preserves (P : MinHeap → Prop)
    (hP : ∀ (h : MinHeap) (a b : Int), P h → P (swap h a b))
    (h h1 : MinHeap) (hrun : bubbleDown h = some h1) (hPh : P h) : P h1 := by
  unfold bubbleDown at hrun
  split at hrun
  · exact bubbleDownLoop_preserves P hP _ _ _ h1 hrun hPh
  · simp only [Option.some.injEq] at hrun
    subst hrun
    exact hPh

theorem bubbleDown_heapProperty (h h1 : MinHeap) (hsz : 1 ≤ h.size)
    (hex : HeapExceptDown h 1) (hrun : bubbleDown h = some h1) : HeapProperty h1 := by
  unfold bubbleDown at hrun
  rw [if_pos ((isValidIndex_iff h ROOT_INDEX).2 ⟨by simp [ROOT_INDEX], by simpa [ROOT_INDEX]⟩)]
    at hrun
  exact bubbleDownLoop_heapProperty _ h 1 h1 (by omega) hsz hex hrun

/-! ## What `swap` preserves -/

theorem map_swap_Icc {α : Type} (f : Int → α) (n a b : Int) (ha : 1 ≤ a ∧ a ≤ n)
    (hb : 1 ≤ b ∧ b ≤ n) :
    (Finset.Icc 1 n).val.map (fun j => if j = b then f a else if j = a then f b else f j) =
      (Finset.Icc 1 n).val.map f := by
  have hfun : (fun j => if j = b then f a else if j = a then f b else f j) =
      f ∘ (Equiv.swap a b) := by
    funext j
    simp only [Function.comp, Equiv.swap_apply_def]
    split_ifs <;> simp_all
  have hperm : (Finset.Icc 1 n).map (Equiv.swap a b).toEmbedding = Finset.Icc 1 n := by
    apply Finset.map_perm
    intro x hx
    simp only [Set.mem_setOf_eq] at hx
    have : x = a ∨ x = b := by
      by_contra hne
      push_neg at hne
      exact hx (Equiv.swap_apply_of_ne_of_ne hne.1 hne.2)
    simp only [Finset.coe_Icc, Set.mem_Icc]
    rcases this with rfl | rfl
    · exact ha
    · exact hb
  rw [hfun, ← Multiset.map_map]
  have := congrArg Finset.val hperm
  rw [Finset.map_val] at this
  simp only [Equiv.coe_toEmbedding] at this
  rw [this]

theorem nodes_swap (h : MinHeap) (a b : Int) : nodes (swap h a b) = nodes h := by
  by_cases hv : (1 ≤ a ∧ a ≤ h.size) ∧ (1 ≤ b ∧ b ≤ h.size)
  · unfold nodes
    rw [swap_size]
    have : (swap h a b).arr = fun j => if j = b then h.arr a else if j = a then h.arr b else h.arr j := by
      funext j; exact swap_arr h a b hv.1 hv.2 j
    rw [this]
    exact map_swap_Icc h.arr h.size a b hv.1 hv.2
  · rw [swap_of_not_valid h a b hv]

theorem Icc_succ (n : Int) (hn : 0 ≤ n) :
    Finset.Icc 1 (n + 1) = Finset.cons (n + 1) (Finset.Icc 1 n) (by simp) := by
  ext x
  simp only [Finset.mem_Icc, Finset.mem_cons]
  omega

theorem uniqueIds_of_indexConsistent (h : MinHeap) (hic : IndexConsistent h) : UniqueIds h := by
  intro i j hi1 hi2 hj1 hj2 hid
  have h1 := hic.1 i hi1 hi2
  have h2 := hic.1 j hj1 hj2
  rw [hid] at h1
  omega

theorem present_swap (h : MinHeap) (a b : Int) (j : Int) :
    Present (swap h a b) j ↔ Present h j := by
  by_cases hv : (1 ≤ a ∧ a ≤ h.size) ∧ (1 ≤ b ∧ b ≤ h.size)
  · obtain ⟨ha, hb⟩ := hv
    unfold Present
    rw [swap_size]
    constructor
    · rintro ⟨i, hi1, hi2, hid⟩
      rw [swap_arr h a b ha hb] at hid
      split_ifs at hid
      · exact ⟨a, ha.1, ha.2, hid⟩
      · exact ⟨b, hb.1, hb.2, hid⟩
      · exact ⟨i, hi1, hi2, hid⟩
    · rintro ⟨i, hi1, hi2, hid⟩
      by_cases hia : i = a
      · refine ⟨b, hb.1, hb.2, ?_⟩
        rw [swap_arr h a b ha hb, if_pos rfl, ← hia]
        exact hid
      · by_cases hib : i = b
        · refine ⟨a, ha.1, ha.2, ?_⟩
          rw [swap_arr h a b ha hb, if_neg (by omega), if_pos rfl, ← hib]
          exact hid
        · refine ⟨i, hi1, hi2, ?_⟩
          rw [swap_arr h a b ha hb, if_neg hib, if_neg hia]
          exact hid
  · rw [swap_of_not_valid h a b hv]

theorem indexConsistent_swap (h : MinHeap) (a b : Int) (hic : IndexConsistent h) :
    IndexConsistent (swap h a b) := by
  by_cases hv : (1 ≤ a ∧ a ≤ h.size) ∧ (1 ≤ b ∧ b ≤ h.size)
  · obtain ⟨ha, hb⟩ := hv
    have huniq := uniqueIds_of_indexConsistent h hic
    refine ⟨?_, ?_⟩
    · intro i hi1 hi2
      rw [swap_size] at hi2
      rw [swap_indexMap h a b ha hb, swap_arr h a b ha hb]
      by_cases hib : i = b
      · rw [if_pos hib]
        by_cases hid : (h.arr a).id = (h.arr b).id
        · rw [if_pos hid]
          have := huniq a b ha.1 ha.2 hb.1 hb.2 hid
          omega
        · rw [if_neg hid, if_pos rfl]
          exact hib.symm
      · rw [if_neg hib]
        by_cases hia : i = a
        · rw [if_pos hia, if_pos rfl]
          exact hia.symm
        · rw [if_neg hia]
          have h1 : (h.arr i).id ≠ (h.arr b).id :=
            fun he => hib (huniq i b hi1 hi2 hb.1 hb.2 he)
          have h2 : (h.arr i).id ≠ (h.arr a).id :=
            fun he => hia (huniq i a hi1 hi2 ha.1 ha.2 he)
          rw [if_neg h1, if_neg h2]
          exact hic.1 i hi1 hi2
    · intro id hid0 hidc hnp
      rw [swap_capacity] at hidc
      rw [present_swap] at hnp
      rw [swap_indexMap h a b ha hb]
      have h1 : id ≠ (h.arr b).id := fun he => hnp ⟨b, hb.1, hb.2, he.symm⟩
      have h2 : id ≠ (h.arr a).id := fun he => hnp ⟨a, ha.1, ha.2, he.symm⟩
      rw [if_neg h1, if_neg h2]
      exact hic.2 id hid0 hidc hnp
  · rw [swap_of_not_valid h a b hv]
    exact hic

/-- A `swap` keeps the node every stored identifier is looked up to. -/
theorem lookup_swap (h : MinHeap) (a b : Int) (hic : IndexConsistent h) (j : Int)
    (hj : Present h j) :
    (swap h a b).arr ((swap h a b).indexMap j) = h.arr (h.indexMap j) := by
  by_cases hv : (1 ≤ a ∧ a ≤ h.size) ∧ (1 ≤ b ∧ b ≤ h.size)
  · obtain ⟨ha, hb⟩ := hv
    obtain ⟨q, hq1, hq2, hqid⟩ := hj
    have hq := hic.1 q hq1 hq2
    rw [hqid] at hq
    have huniq := uniqueIds_of_indexConsistent h hic
    rw [swap_indexMap h a b ha hb, swap_arr h a b ha hb, hq]
    by_cases h1 : j = (h.arr b).id
    · have hqb : q = b := huniq q b hq1 hq2 hb.1 hb.2 (by rw [hqid, h1])
      rw [if_pos h1]
      by_cases hab : a = b
      · rw [if_pos hab, hqb, hab]
      · rw [if_neg hab, if_pos rfl, hqb]
    · rw [if_neg h1]
      by_cases h2 : j = (h.arr a).id
      · have hqa : q = a := huniq q a hq1 hq2 ha.1 ha.2 (by rw [hqid, h2])
        rw [if_pos h2, if_pos rfl, hqa]
      · rw [if_neg h2]
        have hqb : q ≠ b := fun he => h1 (by rw [← hqid, he])
        have hqa : q ≠ a := fun he => h2 (by rw [← hqid, he])
        rw [if_neg hqb, if_neg hqa]
  · rw [swap_of_not_valid h a b hv]

/-- A `swap` leaves the table entry of every identifier that is not stored. -/
theorem indexMap_swap_of_not_present (h : MinHeap) (a b : Int) (j : Int)
    (hj : ¬ Present h j) : (swap h a b).indexMap j = h.indexMap j := by
  by_cases hv : (1 ≤ a ∧ a ≤ h.size) ∧ (1 ≤ b ∧ b ≤ h.size)
  · obtain ⟨ha, hb⟩ := hv
    rw [swap_indexMap h a b ha hb]
    have h1 : j ≠ (h.arr b).id := fun he => hj ⟨b, hb.1, hb.2, he.symm⟩
    have h2 : j ≠ (h.arr a).id := fun he => hj ⟨a, ha.1, ha.2, he.symm⟩
    rw [if_neg h1, if_neg h2]
  · rw [swap_of_not_valid h a b hv]

theorem sameNodes_swap (h0 x : MinHeap) (a b : Int) (hx : SameNodes h0 x) :
    SameNodes h0 (swap x a b) := by
  obtain ⟨h1, h2, h3⟩ := hx
  exact ⟨by rw [swap_size, h1], by rw [swap_capacity, h2], by rw [nodes_swap, h3]⟩

theorem sameContent_refl (h : MinHeap) (hic : IndexConsistent h) : SameContent h h :=
  ⟨⟨rfl, rfl, rfl⟩, hic, fun _ => Iff.rfl, fun _ _ => rfl, fun _ _ => rfl⟩

theorem sameContent_swap (h0 x : MinHeap) (a b : Int) (hx : SameContent h0 x) :
    SameContent h0 (swap x a b) := by
  obtain ⟨hn, hic, hp, hl, ha⟩ := hx
  refine ⟨sameNodes_swap h0 x a b hn, indexConsistent_swap x a b hic, ?_, ?_, ?_⟩
  · intro j
    rw [present_swap]
    exact hp j
  · intro j hj
    rw [lookup_swap x a b hic j ((hp j).2 hj)]
    exact hl j hj
  · intro j hj
    rw [indexMap_swap_of_not_present x a b j (fun hh => hj ((hp j).1 hh))]
    exact ha j hj

theorem bubbleUp_sameNodes (h : MinHeap) (k : Int) (h1 : MinHeap)
    (hrun : bubbleUp h k = some h1) : SameNodes h h1 :=
  bubbleUp_preserves (SameNodes h) (sameNodes_swap h) h k h1 hrun ⟨rfl, rfl, rfl⟩

theorem bubbleDown_sameNodes (h h1 : MinHeap) (hrun : bubbleDown h = some h1) :
    SameNodes h h1 :=
  bubbleDown_preserves (SameNodes h) (sameNodes_swap h) h h1 hrun ⟨rfl, rfl, rfl⟩

theorem bubbleUp_sameContent (h : MinHeap) (k : Int) (h1 : MinHeap)
    (hic : IndexConsistent h) (hrun : bubbleUp h k = some h1) : SameContent h h1 :=
  bubbleUp_preserves (SameContent h) (sameContent_swap h) h k h1 hrun (sameContent_refl h hic)

theorem bubbleDown_sameContent (h h1 : MinHeap) (hic : IndexConsistent h)
    (hrun : bubbleDown h = some h1) : SameContent h h1 :=
  bubbleDown_preserves (SameContent h) (sameContent_swap h) h h1 hrun (sameContent_refl h hic)

/-! ## The root is a minimum -/

theorem root_le_of_heapProperty (h : MinHeap) (hp : HeapProperty h) :
    ∀ (n : Nat) (i : Int), i.toNat = n → 1 ≤ i → i ≤ h.size →
      (h.arr 1).priority ≤ (h.arr i).priority := by
  intro n
  induction n using Nat.strong_induction_on with
  | _ n ih =>
    intro i hin hi1 hi2
    by_cases hi : i = 1
    · subst hi; exact le_refl _
    · have hstep := hp i (by omega) hi2
      have hrec := ih (i / 2).toNat (by omega) (i / 2) rfl (by omega) (by omega)
      omega

theorem getMin_le (h : MinHeap) (hp : HeapProperty h) (i : Int) (hi1 : 1 ≤ i)
    (hi2 : i ≤ h.size) : (getMin h).priority ≤ (h.arr i).priority :=
  root_le_of_heapProperty h hp i.toNat i rfl hi1 hi2

theorem mem_nodes (h : MinHeap) (x : HeapNode) :
    x ∈ nodes h ↔ ∃ i : Int, 1 ≤ i ∧ i ≤ h.size ∧ h.arr i = x := by
  simp only [nodes, Multiset.mem_map, Finset.mem_val, Finset.mem_Icc]
  constructor
  · rintro ⟨i, ⟨h1, h2⟩, h3⟩; exact ⟨i, h1, h2, h3⟩
  · rintro ⟨i, h1, h2, h3⟩; exact ⟨i, ⟨h1, h2⟩, h3⟩

theorem present_iff_mem_nodes (h : MinHeap) (j : Int) :
    Present h j ↔ ∃ x ∈ nodes h, x.id = j := by
  constructor
  · rintro ⟨i, h1, h2, h3⟩
    exact ⟨h.arr i, (mem_nodes h _).2 ⟨i, h1, h2, rfl⟩, h3⟩
  · rintro ⟨x, hx, hid⟩
    obtain ⟨i, h1, h2, h3⟩ := (mem_nodes h x).1 hx
    exact ⟨i, h1, h2, by rw [h3]; exact hid⟩

/-! ## The heap handed to `bubbleUp` by `insert` -/

theorem nodes_appended (h : MinHeap) (p id : Int) (hsz : 0 ≤ h.size) :
    nodes (appended h p id) = ⟨p, id⟩ ::ₘ nodes h := by
  unfold nodes
  simp only [appended]
  rw [Icc_succ h.size hsz, Finset.cons_val, Multiset.map_cons]
  congr 1
  · simp [store_apply]
  · apply Multiset.map_congr rfl
    intro x hx
    simp only [Finset.mem_val, Finset.mem_Icc] at hx
    rw [store_apply, if_neg (by omega)]

theorem heapExceptUp_appended (h : MinHeap) (p id : Int) (hp : HeapProperty h) :
    HeapExceptUp (appended h p id) (h.size + 1) := by
  refine ⟨?_, ?_⟩
  · intro i hi2 hisz hne
    simp only [appended] at hisz ⊢
    rw [store_apply, store_apply, if_neg (by omega), if_neg hne]
    exact hp i hi2 (by omega)
  · intro i hi2 hisz hpar _
    simp only [appended] at hisz
    omega

theorem present_appended (h : MinHeap) (p id : Int) (hsz : 0 ≤ h.size) (j : Int) :
    Present (appended h p id) j ↔ Present h j ∨ j = id := by
  constructor
  · rintro ⟨i, hi1, hi2, hid⟩
    simp only [appended, store_apply] at hi2 hid
    by_cases hi : i = h.size + 1
    · rw [if_pos hi] at hid
      exact Or.inr hid.symm
    · rw [if_neg hi] at hid
      exact Or.inl ⟨i, hi1, by omega, hid⟩
  · rintro (⟨i, hi1, hi2, hid⟩ | hj)
    · refine ⟨i, hi1, by simp only [appended]; omega, ?_⟩
      simp only [appended, store_apply]
      rw [if_neg (by omega)]
      exact hid
    · refine ⟨h.size + 1, by omega, by simp only [appended]; omega, ?_⟩
      simp only [appended, store_apply, if_true]
      exact hj.symm

theorem indexConsistent_appended (h : MinHeap) (p id : Int) (hsz : 0 ≤ h.size)
    (hic : IndexConsistent h) (hnp : ¬ Present h id) :
    IndexConsistent (appended h p id) := by
  refine ⟨?_, ?_⟩
  · intro i hi1 hi2
    simp only [appended, store_apply] at hi2 ⊢
    by_cases hi : i = h.size + 1
    · rw [if_pos hi, if_pos rfl]
      exact hi.symm
    · rw [if_neg hi]
      have hne : (h.arr i).id ≠ id := fun he => hnp ⟨i, hi1, by omega, he⟩
      rw [if_neg hne]
      exact hic.1 i hi1 (by omega)
  · intro j hj0 hjc hnpj
    rw [present_appended h p id hsz j] at hnpj
    push_neg at hnpj
    simp only [appended, store_apply] at hjc ⊢
    rw [if_neg hnpj.2]
    exact hic.2 j hj0 hjc hnpj.1

theorem lookup_appended_new (h : MinHeap) (p id : Int) :
    (appended h p id).indexMap id = h.size + 1 ∧
    (appended h p id).arr ((appended h p id).indexMap id) = ⟨p, id⟩ := by
  simp [appended, store_apply]

theorem lookup_appended_old (h : MinHeap) (p id : Int) (hic : IndexConsistent h)
    (hnp : ¬ Present h id) (j : Int) (hj : Present h j) :
    (appended h p id).arr ((appended h p id).indexMap j) = h.arr (h.indexMap j) := by
  obtain ⟨q, hq1, hq2, hqid⟩ := hj
  have hq := hic.1 q hq1 hq2
  rw [hqid] at hq
  have hne : j ≠ id := fun he => hnp ⟨q, hq1, hq2, by rw [hqid, he]⟩
  simp only [appended, store_apply]
  rw [if_neg hne, hq, if_neg (by omega)]

/-! ## The heap handed to `bubbleDown` by `extractMin` -/

theorem Icc_one_eq_cons (m : Int) (hm : 1 ≤ m) :
    Finset.Icc 1 m = Finset.cons 1 (Finset.Icc 2 m) (by simp) := by
  ext x
  simp only [Finset.mem_Icc, Finset.mem_cons]
  omega

theorem nodes_movedLast (h : MinHeap) (hsz : 1 ≤ h.size) :
    nodes h = h.arr 1 ::ₘ nodes (movedLast h) := by
  unfold nodes
  simp only [movedLast]
  have hn : h.size = (h.size - 1) + 1 := by omega
  conv_lhs => rw [hn, Icc_succ (h.size - 1) (by omega), Finset.cons_val, Multiset.map_cons]
  rw [← hn]
  by_cases h1 : h.size = 1
  · have he : Finset.Icc (1 : Int) (h.size - 1) = ∅ := by
      apply Finset.Icc_eq_empty; omega
    rw [he, h1]
    simp
  · rw [Icc_one_eq_cons (h.size - 1) (by omega), Finset.cons_val, Multiset.map_cons,
      Multiset.map_cons, Multiset.cons_swap]
    congr 1
    congr 1
    · simp only [store_apply]
      rw [if_neg (by omega)]
      simp
    · apply Multiset.map_congr rfl
      intro x hx
      simp only [Finset.mem_val, Finset.mem_Icc] at hx
      simp only [store_apply]
      rw [if_neg (by omega), if_neg (by omega)]

theorem movedLast_arr (h : MinHeap) (i : Int) (hi : i ≤ h.size - 1) :
    (movedLast h).arr i = if i = 1 then h.arr h.size else h.arr i := by
  simp only [movedLast, store_apply]
  rw [if_neg (by omega)]

theorem movedLast_indexMap (h : MinHeap) (j : Int) :
    (movedLast h).indexMap j =
      if j = (h.arr 1).id then NOTHING else if j = (h.arr h.size).id then 1
      else h.indexMap j := by
  simp only [movedLast, store_apply]

theorem heapExceptDown_movedLast (h : MinHeap) (hp : HeapProperty h) :
    HeapExceptDown (movedLast h) 1 := by
  refine ⟨?_, ?_⟩
  · intro i hi2 hisz hne
    have hsz : i ≤ h.size - 1 := hisz
    rw [movedLast_arr h i hsz, movedLast_arr h (i / 2) (by omega), if_neg hne,
      if_neg (by omega)]
    exact hp i hi2 (by omega)
  · intro i _ _ _ h2
    omega

theorem heapProperty_movedLast_of_size_le (h : MinHeap) (hsz : ¬ h.size - 1 > 0) :
    HeapProperty (movedLast h) := by
  intro i hi2 hisz
  have : i ≤ h.size - 1 := hisz
  omega

theorem present_movedLast (h : MinHeap) (hic : IndexConsistent h) (j : Int) :
    Present (movedLast h) j ↔ Present h j ∧ (1 ≤ h.size → j ≠ (h.arr 1).id) := by
  have huniq := uniqueIds_of_indexConsistent h hic
  constructor
  · rintro ⟨i, hi1, hi2, hid⟩
    have hsz : i ≤ h.size - 1 := hi2
    rw [movedLast_arr h i hsz] at hid
    by_cases hi : i = 1
    · rw [if_pos hi] at hid
      refine ⟨⟨h.size, by omega, le_refl _, hid⟩, ?_⟩
      intro _ he
      have := huniq h.size 1 (by omega) (le_refl _) (le_refl _) (by omega) (by rw [hid, he])
      omega
    · rw [if_neg hi] at hid
      refine ⟨⟨i, hi1, by omega, hid⟩, ?_⟩
      intro _ he
      have := huniq i 1 hi1 (by omega) (le_refl _) (by omega) (by rw [hid, he])
      omega
  · rintro ⟨⟨i, hi1, hi2, hid⟩, hne⟩
    have hi : i ≠ 1 := fun he => hne (by omega) (by rw [← hid, he])
    by_cases hil : i = h.size
    · refine ⟨1, le_refl _, ?_, ?_⟩
      · show 1 ≤ h.size - 1
        omega
      · rw [movedLast_arr h 1 (by omega), if_pos rfl, ← hil]
        exact hid
    · refine ⟨i, hi1, ?_, ?_⟩
      · show i ≤ h.size - 1
        omega
      · rw [movedLast_arr h i (by omega), if_neg hi]
        exact hid

theorem indexConsistent_movedLast (h : MinHeap) (hsz : 1 ≤ h.size)
    (hic : IndexConsistent h) : IndexConsistent (movedLast h) := by
  have huniq := uniqueIds_of_indexConsistent h hic
  refine ⟨?_, ?_⟩
  · intro i hi1 hi2
    have hsz' : i ≤ h.size - 1 := hi2
    rw [movedLast_arr h i hsz', movedLast_indexMap]
    by_cases hi : i = 1
    · rw [if_pos hi]
      have hne : (h.arr h.size).id ≠ (h.arr 1).id := fun he => by
        have := huniq h.size 1 (by omega) (le_refl _) (le_refl _) (by omega) he
        omega
      rw [if_neg hne, if_pos rfl]
      exact hi.symm
    · rw [if_neg hi]
      have hne1 : (h.arr i).id ≠ (h.arr 1).id := fun he => by
        have := huniq i 1 hi1 (by omega) (le_refl _) (by omega) he
        omega
      have hne2 : (h.arr i).id ≠ (h.arr h.size).id := fun he => by
        have := huniq i h.size hi1 (by omega) (by omega) (le_refl _) he
        omega
      rw [if_neg hne1, if_neg hne2]
      exact hic.1 i hi1 (by omega)
  · intro j hj0 hjc hnp
    rw [movedLast_indexMap]
    by_cases hj1 : j = (h.arr 1).id
    · rw [if_pos hj1]
    · rw [if_neg hj1]
      have hnp' : ¬ Present h j := fun hpj =>
        hnp ((present_movedLast h hic j).2 ⟨hpj, fun _ => hj1⟩)
      have hne : j ≠ (h.arr h.size).id := fun he =>
        hnp' ⟨h.size, by omega, le_refl _, he.symm⟩
      rw [if_neg hne]
      exact hic.2 j hj0 hjc hnp'

/-! ## The heap handed to `bubbleUp` by `decreasePriority` -/

theorem lowered_id (h : MinHeap) (q np : Int) (i : Int) :
    ((lowered h q np).arr i).id = (h.arr i).id := by
  simp only [lowered, store_apply]
  split
  · rename_i hi; rw [hi]
  · rfl

theorem present_lowered (h : MinHeap) (q np : Int) (j : Int) :
    Present (lowered h q np) j ↔ Present h j := by
  unfold Present
  simp only [lowered_id]
  rfl

theorem indexConsistent_lowered (h : MinHeap) (q np : Int) (hic : IndexConsistent h) :
    IndexConsistent (lowered h q np) := by
  refine ⟨?_, ?_⟩
  · intro i hi1 hi2
    rw [lowered_id]
    exact hic.1 i hi1 hi2
  · intro j hj0 hjc hnp
    rw [present_lowered] at hnp
    exact hic.2 j hj0 hjc hnp

theorem heapExceptUp_lowered (h : MinHeap) (q np : Int) (hp : HeapProperty h)
    (hq2 : q ≤ h.size) (hlt : np ≤ (h.arr q).priority) :
    HeapExceptUp (lowered h q np) q := by
  refine ⟨?_, ?_⟩
  · intro i hi2 hisz hne
    have hi := hp i hi2 hisz
    simp only [lowered, store_apply]
    rw [if_neg hne]
    split
    · rename_i hpar
      rw [hpar] at hi
      simp only
      omega
    · exact hi
  · intro i hi2 hisz hpar hq
    have hi := hp i hi2 hisz
    have hqq := hp q hq hq2
    rw [hpar] at hi
    simp only [lowered, store_apply]
    rw [if_neg (by omega), if_neg (by omega)]
    omega

/-! ## The three operations, in terms of the heap handed to the bubbling -/

theorem insert_eq (h : MinHeap) (priority id : Int) (hlt : h.size < h.capacity) :
    insert h priority id = bubbleUp (appended h priority id) (h.size + 1) := by
  have harr : store (store h.arr (h.size + 1) { h.arr (h.size + 1) with priority := priority })
      (h.size + 1)
      { store h.arr (h.size + 1) { h.arr (h.size + 1) with priority := priority } (h.size + 1)
          with id := id } = store h.arr (h.size + 1) ⟨priority, id⟩ := by
    funext j
    simp only [store_apply]
    split <;> simp
  simp only [insert, if_pos hlt, appended, harr]

theorem insert_full (h : MinHeap) (priority id : Int) (hge : ¬ h.size < h.capacity) :
    insert h priority id = some h := by
  simp only [insert, if_neg hge]

theorem extractMin_eq (h : MinHeap) :
    extractMin h =
      if h.size - 1 > 0 then (bubbleDown (movedLast h)).map (fun x => (h.arr 1, x))
      else some (h.arr 1, movedLast h) := by
  have harr : store (store (store h.arr 1 (h.arr h.size)) h.size
        { priority := 0, id := (store h.arr 1 (h.arr h.size) h.size).id }) h.size
        { priority := (store (store h.arr 1 (h.arr h.size)) h.size
            { priority := 0, id := (store h.arr 1 (h.arr h.size) h.size).id } h.size).priority,
          id := 0 } = store (store h.arr 1 (h.arr h.size)) h.size ⟨0, 0⟩ := by
    funext j
    simp only [store_apply]
    split <;> simp
  have hmap : (store h.arr 1 (h.arr h.size) 1).id = (h.arr h.size).id := by
    simp [store_apply]
  simp only [extractMin, getMin, movedLast, ROOT_INDEX, harr, hmap]

theorem decreasePriority_eq (h : MinHeap) (id newPriority : Int) :
    decreasePriority h id newPriority =
      if (1 ≤ h.indexMap id ∧ h.indexMap id ≤ h.size) ∧
          (h.arr (h.indexMap id)).priority > newPriority then
        (bubbleUp (lowered h (h.indexMap id) newPriority) (h.indexMap id)).map
          (fun x => (true, x))
      else some (false, h) := by
  simp only [decreasePriority, isValidIndex_iff, lowered]

/-! ## `newHeap` -/

theorem clearIndexMap_apply :
    ∀ (count : Nat) (m : Int → Int) (i j : Int),
      clearIndexMap m i count j = if i ≤ j ∧ j < i + count then NOTHING else m j := by
  intro count
  induction count with
  | zero =>
    intro m i j
    simp only [clearIndexMap]
    rw [if_neg (by push_cast; omega)]
  | succ n ih =>
    intro m i j
    simp only [clearIndexMap]
    rw [ih, store_apply]
    push_cast
    by_cases h1 : i + 1 ≤ j ∧ j < i + 1 + n
    · rw [if_pos h1, if_pos (by omega)]
    · rw [if_neg h1]
      by_cases h2 : j = i
      · rw [if_pos h2, if_pos (by omega)]
      · rw [if_neg h2, if_neg (by omega)]

theorem newHeap_indexMap (C : Int) (arr0 : Int → HeapNode) (map0 : Int → Int) (j : Int)
    (hj0 : 0 ≤ j) (hjc : j ≤ C) : (newHeapState C arr0 map0).indexMap j = NOTHING := by
  simp only [newHeapState]
  rw [clearIndexMap_apply, if_pos]
  refine ⟨by omega, ?_⟩
  rw [Int.toNat_of_nonneg (by omega)]
  omega

theorem heapProperty_newHeap (C : Int) (arr0 : Int → HeapNode) (map0 : Int → Int) :
    HeapProperty (newHeapState C arr0 map0) := by
  intro i hi2 hisz
  have : i ≤ 0 := hisz
  omega

theorem indexConsistent_newHeap (C : Int) (arr0 : Int → HeapNode) (map0 : Int → Int) :
    IndexConsistent (newHeapState C arr0 map0) := by
  refine ⟨?_, ?_⟩
  · intro i hi1 hi2
    have : i ≤ 0 := hi2
    omega
  · intro j hj0 hjc _
    have : j < C := hjc
    exact newHeap_indexMap C arr0 map0 j hj0 (by omega)

/-! ## `insert` -/

theorem insert_isSome (h : MinHeap) (p id : Int) : ∃ h1, insert h p id = some h1 := by
  by_cases hlt : h.size < h.capacity
  · rw [insert_eq h p id hlt]
    exact bubbleUp_isSome _ _
  · exact ⟨h, insert_full h p id hlt⟩

theorem insert_heapProperty (h h1 : MinHeap) (p id : Int) (hsz : 0 ≤ h.size)
    (hp : HeapProperty h) (hrun : insert h p id = some h1) : HeapProperty h1 := by
  by_cases hlt : h.size < h.capacity
  · rw [insert_eq h p id hlt] at hrun
    exact bubbleUp_heapProperty (appended h p id) (h.size + 1) h1 (by omega) (le_refl _)
      (heapExceptUp_appended h p id hp) hrun
  · rw [insert_full h p id hlt] at hrun
    simp only [Option.some.injEq] at hrun
    subst hrun
    exact hp

theorem insert_sameContent (h h1 : MinHeap) (p id : Int) (hsz : 0 ≤ h.size)
    (hlt : h.size < h.capacity) (hic : IndexConsistent h) (hnp : ¬ Present h id)
    (hrun : insert h p id = some h1) : SameContent (appended h p id) h1 := by
  rw [insert_eq h p id hlt] at hrun
  exact bubbleUp_sameContent _ _ h1 (indexConsistent_appended h p id hsz hic hnp) hrun

theorem insert_indexConsistent (h h1 : MinHeap) (p id : Int) (hsz : 0 ≤ h.size)
    (hic : IndexConsistent h) (hnp : ¬ Present h id) (hrun : insert h p id = some h1) :
    IndexConsistent h1 := by
  by_cases hlt : h.size < h.capacity
  · exact (insert_sameContent h h1 p id hsz hlt hic hnp hrun).2.1
  · rw [insert_full h p id hlt] at hrun
    simp only [Option.some.injEq] at hrun
    subst hrun
    exact hic

theorem insert_size_capacity (h h1 : MinHeap) (p id : Int)
    (hrun : insert h p id = some h1) :
    h.size ≤ h1.size ∧ h1.capacity = h.capacity := by
  by_cases hlt : h.size < h.capacity
  · rw [insert_eq h p id hlt] at hrun
    obtain ⟨h1s, h1c, _⟩ := bubbleUp_sameNodes _ _ h1 hrun
    refine ⟨?_, h1c⟩
    rw [h1s]
    simp only [appended]
    omega
  · rw [insert_full h p id hlt] at hrun
    simp only [Option.some.injEq] at hrun
    subst hrun
    exact ⟨le_refl _, rfl⟩

/-! ## `extractMin` -/

theorem extractMin_isSome (h : MinHeap) : ∃ h1, extractMin h = some (getMin h, h1) := by
  rw [extractMin_eq]
  split
  · obtain ⟨h1, hrun⟩ := bubbleDown_isSome (movedLast h)
    exact ⟨h1, by rw [hrun]; rfl⟩
  · exact ⟨movedLast h, rfl⟩

theorem extractMin_fst (h h1 : MinHeap) (min : HeapNode)
    (hrun : extractMin h = some (min, h1)) : min = getMin h := by
  obtain ⟨h2, hrun2⟩ := extractMin_isSome h
  rw [hrun2] at hrun
  simp only [Option.some.injEq, Prod.mk.injEq] at hrun
  exact hrun.1.symm

/-- The heap left by `extractMin` is what `bubbleDown` makes of `movedLast`, or
`movedLast` itself when that is empty. -/
theorem extractMin_snd (h h1 : MinHeap) (min : HeapNode)
    (hrun : extractMin h = some (min, h1)) :
    (h.size - 1 > 0 ∧ bubbleDown (movedLast h) = some h1) ∨
    (¬ h.size - 1 > 0 ∧ h1 = movedLast h) := by
  rw [extractMin_eq] at hrun
  split at hrun
  · rename_i hc
    left
    refine ⟨hc, ?_⟩
    cases hb : bubbleDown (movedLast h) with
    | none => rw [hb] at hrun; simp at hrun
    | some x =>
      rw [hb] at hrun
      simp only [Option.map_some', Option.some.injEq, Prod.mk.injEq] at hrun
      rw [hrun.2]
  · rename_i hc
    right
    simp only [Option.some.injEq, Prod.mk.injEq] at hrun
    exact ⟨hc, hrun.2.symm⟩

theorem extractMin_heapProperty (h h1 : MinHeap) (min : HeapNode)
    (hp : HeapProperty h) (hrun : extractMin h = some (min, h1)) : HeapProperty h1 := by
  rcases extractMin_snd h h1 min hrun with ⟨hc, hb⟩ | ⟨hc, he⟩
  · exact bubbleDown_heapProperty (movedLast h) h1 (by simp only [movedLast]; omega)
      (heapExceptDown_movedLast h hp) hb
  · rw [he]
    exact heapProperty_movedLast_of_size_le h hc

theorem extractMin_sameNodes (h h1 : MinHeap) (min : HeapNode)
    (hrun : extractMin h = some (min, h1)) : SameNodes (movedLast h) h1 := by
  rcases extractMin_snd h h1 min hrun with ⟨_, hb⟩ | ⟨_, he⟩
  · exact bubbleDown_sameNodes _ h1 hb
  · rw [he]; exact ⟨rfl, rfl, rfl⟩

theorem extractMin_sameContent (h h1 : MinHeap) (min : HeapNode) (hsz : 1 ≤ h.size)
    (hic : IndexConsistent h) (hrun : extractMin h = some (min, h1)) :
    SameContent (movedLast h) h1 := by
  have hicm := indexConsistent_movedLast h hsz hic
  rcases extractMin_snd h h1 min hrun with ⟨_, hb⟩ | ⟨_, he⟩
  · exact bubbleDown_sameContent _ h1 hicm hb
  · rw [he]; exact sameContent_refl _ hicm

/-! ## `decreasePriority` -/

theorem decreasePriority_isSome (h : MinHeap) (id np : Int) :
    ∃ b h1, decreasePriority h id np = some (b, h1) := by
  rw [decreasePriority_eq]
  split
  · obtain ⟨h1, hrun⟩ := bubbleUp_isSome (lowered h (h.indexMap id) np) (h.indexMap id)
    exact ⟨true, h1, by rw [hrun]; rfl⟩
  · exact ⟨false, h, rfl⟩

/-- A call of `decreasePriority` is either accepted, and the heap left is what
`bubbleUp` makes of `lowered`, or rejected, and the heap is untouched. -/
theorem decreasePriority_cases (h h1 : MinHeap) (id np : Int) (b : Bool)
    (hrun : decreasePriority h id np = some (b, h1)) :
    (((1 ≤ h.indexMap id ∧ h.indexMap id ≤ h.size) ∧
        (h.arr (h.indexMap id)).priority > np) ∧ b = true ∧
      bubbleUp (lowered h (h.indexMap id) np) (h.indexMap id) = some h1) ∨
    (¬ ((1 ≤ h.indexMap id ∧ h.indexMap id ≤ h.size) ∧
        (h.arr (h.indexMap id)).priority > np) ∧ b = false ∧ h1 = h) := by
  rw [decreasePriority_eq] at hrun
  split at hrun
  · rename_i hc
    left
    refine ⟨hc, ?_⟩
    cases hb : bubbleUp (lowered h (h.indexMap id) np) (h.indexMap id) with
    | none => rw [hb] at hrun; simp at hrun
    | some x =>
      rw [hb] at hrun
      simp only [Option.map_some', Option.some.injEq, Prod.mk.injEq] at hrun
      exact ⟨hrun.1.symm, by rw [hrun.2]⟩
  · rename_i hc
    right
    simp only [Option.some.injEq, Prod.mk.injEq] at hrun
    exact ⟨hc, hrun.1.symm, hrun.2.symm⟩

theorem decreasePriority_heapProperty (h h1 : MinHeap) (id np : Int) (b : Bool)
    (hp : HeapProperty h) (hrun : decreasePriority h id np = some (b, h1)) :
    HeapProperty h1 := by
  rcases decreasePriority_cases h h1 id np b hrun with ⟨hc, _, hb⟩ | ⟨_, _, he⟩
  · exact bubbleUp_heapProperty (lowered h (h.indexMap id) np) _ h1 hc.1.1 hc.1.2
      (heapExceptUp_lowered h _ np hp hc.1.2 (by omega)) hb
  · rw [he]; exact hp

theorem decreasePriority_indexConsistent (h h1 : MinHeap) (id np : Int) (b : Bool)
    (hic : IndexConsistent h) (hrun : decreasePriority h id np = some (b, h1)) :
    IndexConsistent h1 := by
  rcases decreasePriority_cases h h1 id np b hrun with ⟨_, _, hb⟩ | ⟨_, _, he⟩
  · exact (bubbleUp_sameContent _ _ h1 (indexConsistent_lowered h _ np hic) hb).2.1
  · rw [he]; exact hic

theorem decreasePriority_size_capacity (h h1 : MinHeap) (id np : Int) (b : Bool)
    (hrun : decreasePriority h id np = some (b, h1)) :
    h1.size = h.size ∧ h1.capacity = h.capacity := by
  rcases decreasePriority_cases h h1 id np b hrun with ⟨_, _, hb⟩ | ⟨_, _, he⟩
  · obtain ⟨h1s, h1c, _⟩ := bubbleUp_sameNodes _ _ h1 hb
    exact ⟨h1s, h1c⟩
  · rw [he]; exact ⟨rfl, rfl⟩

/-! ## Reachable states -/

/-- Every reachable state has the heap property and a consistent table, a
size that is not negative and the capacity it was created with. -/
theorem reachable_invariant (C : Int) (arr0 : Int → HeapNode) (map0 : Int → Int)
    (h : MinHeap) (hr : Reachable C arr0 map0 h) :
    HeapProperty h ∧ IndexConsistent h ∧ 0 ≤ h.size ∧ h.capacity = C := by
  induction hr with
  | init =>
    exact ⟨heapProperty_newHeap C arr0 map0, indexConsistent_newHeap C arr0 map0,
      le_refl _, rfl⟩
  | insert p id _ _ _ hnp hrun ih =>
    obtain ⟨hp, hic, hsz, hcap⟩ := ih
    obtain ⟨h1, h2⟩ := insert_size_capacity _ _ p id hrun
    exact ⟨insert_heapProperty _ _ p id hsz hp hrun,
      insert_indexConsistent _ _ p id hsz hic hnp hrun, by omega, by rw [h2, hcap]⟩
  | extractMin _ hsz1 hrun ih =>
    obtain ⟨hp, hic, hsz, hcap⟩ := ih
    obtain ⟨⟨h1, h2, _⟩, hic1, _⟩ := extractMin_sameContent _ _ _ hsz1 hic hrun
    refine ⟨extractMin_heapProperty _ _ _ hp hrun, hic1, ?_, ?_⟩
    · rw [h1]; simp only [movedLast]; omega
    · rw [h2]; simp only [movedLast]; exact hcap
  | decreasePriority id np _ _ _ hrun ih =>
    obtain ⟨hp, hic, hsz, hcap⟩ := ih
    obtain ⟨h1, h2⟩ := decreasePriority_size_capacity _ _ id np _ hrun
    exact ⟨decreasePriority_heapProperty _ _ id np _ hp hrun,
      decreasePriority_indexConsistent _ _ id np _ hic hrun, by omega, by rw [h2, hcap]⟩

theorem present_iff_valid_indexMap (h : MinHeap) (hic : IndexConsistent h) (id : Int)
    (hid0 : 0 ≤ id) (hidc : id < h.capacity) :
    Present h id ↔ (1 ≤ h.indexMap id ∧ h.indexMap id ≤ h.size) := by
  constructor
  · rintro ⟨q, hq1, hq2, hqid⟩
    have := hic.1 q hq1 hq2
    rw [hqid] at this
    omega
  · intro hv
    by_contra hnp
    have := hic.2 id hid0 hidc hnp
    simp only [NOTHING] at this
    omega

/-! ## Sorted extraction -/

theorem insert_present (h h1 : MinHeap) (p id : Int) (hsz : 0 ≤ h.size)
    (hlt : h.size < h.capacity) (hic : IndexConsistent h) (hnp : ¬ Present h id)
    (hrun : insert h p id = some h1) (j : Int) :
    Present h1 j ↔ Present h j ∨ j = id := by
  obtain ⟨_, _, hpres, _, _⟩ := insert_sameContent h h1 p id hsz hlt hic hnp hrun
  rw [hpres j, present_appended h p id hsz j]

theorem insertAll_spec :
    ∀ (l : List HeapNode) (h : MinHeap), HeapProperty h → IndexConsistent h →
      0 ≤ h.size → h.size + (l.length : Int) ≤ h.capacity →
      (∀ x ∈ l, ¬ Present h x.id) → (l.map HeapNode.id).Nodup →
      ∃ h1 : MinHeap, insertAll l h = some h1 ∧ HeapProperty h1 ∧
        h1.size = h.size + (l.length : Int) ∧ nodes h1 = nodes h + (l : Multiset HeapNode) := by
  intro l
  induction l with
  | nil =>
    intro h hp _ _ _ _ _
    exact ⟨h, rfl, hp, by simp, by simp⟩
  | cons x rest ih =>
    intro h hp hic hsz hcap hnp hnd
    simp only [List.length_cons, Nat.cast_add, Nat.cast_one] at hcap
    have hlt : h.size < h.capacity := by omega
    have hnpx : ¬ Present h x.id := hnp x (List.mem_cons_self _ _)
    obtain ⟨h', hrun⟩ := insert_isSome h x.priority x.id
    obtain ⟨⟨hs, hc, hn⟩, hic', _⟩ :=
      insert_sameContent h h' x.priority x.id hsz hlt hic hnpx hrun
    have hs' : h'.size = h.size + 1 := by rw [hs]; rfl
    have hc' : h'.capacity = h.capacity := by rw [hc]; rfl
    simp only [List.map_cons, List.nodup_cons] at hnd
    have hnp' : ∀ y ∈ rest, ¬ Present h' y.id := by
      intro y hy hpy
      rcases (insert_present h h' x.priority x.id hsz hlt hic hnpx hrun y.id).1 hpy with h1 | h1
      · exact hnp y (List.mem_cons_of_mem _ hy) h1
      · exact hnd.1 (by rw [← h1]; exact List.mem_map_of_mem _ hy)
    obtain ⟨h1, hrun1, hp1, hs1, hn1⟩ :=
      ih h' (insert_heapProperty h h' x.priority x.id hsz hp hrun) hic' (by omega)
        (by omega) hnp' hnd.2
    refine ⟨h1, ?_, hp1, ?_, ?_⟩
    · simp only [insertAll, hrun, Option.some_bind]
      exact hrun1
    · rw [hs1, hs']
      simp only [List.length_cons, Nat.cast_add, Nat.cast_one]
      omega
    · rw [hn1, hn, nodes_appended h x.priority x.id hsz]
      rw [← Multiset.cons_coe, Multiset.cons_add, Multiset.add_cons]

theorem nodes_eq_zero (h : MinHeap) (hsz : h.size = 0) : nodes h = 0 := by
  unfold nodes
  rw [hsz]
  rfl

theorem extractN_spec :
    ∀ (n : Nat) (h : MinHeap), HeapProperty h → h.size = (n : Int) →
      ∃ (out : List HeapNode) (h2 : MinHeap), extractN n h = some (out, h2) ∧
        out.Pairwise (fun a b => a.priority ≤ b.priority) ∧
        (out : Multiset HeapNode) = nodes h ∧ h2.size = 0 := by
  intro n
  induction n with
  | zero =>
    intro h _ hsz
    exact ⟨[], h, rfl, List.Pairwise.nil, by rw [nodes_eq_zero h (by simpa using hsz)]; rfl,
      by simpa using hsz⟩
  | succ n ih =>
    intro h hp hsz
    push_cast at hsz
    obtain ⟨h', hrun⟩ := extractMin_isSome h
    obtain ⟨hs, _, hn⟩ := extractMin_sameNodes h h' _ hrun
    have hs' : h'.size = (n : Int) := by rw [hs]; simp only [movedLast]; omega
    obtain ⟨out, h2, hrun2, hsorted, hperm, hz⟩ :=
      ih h' (extractMin_heapProperty h h' _ hp hrun) hs'
    have hnodes : nodes h = getMin h ::ₘ nodes h' := by
      rw [hn]; exact nodes_movedLast h (by omega)
    refine ⟨getMin h :: out, h2, ?_, ?_, ?_, hz⟩
    · simp only [extractN, hrun, Option.some_bind, hrun2, Option.map_some']
    · refine List.Pairwise.cons ?_ hsorted
      intro y hy
      have hy' : y ∈ nodes h := by
        rw [hnodes, ← hperm]
        exact Multiset.mem_cons_of_mem (Multiset.mem_coe.2 hy)
      obtain ⟨i, hi1, hi2, hiy⟩ := (mem_nodes h y).1 hy'
      rw [← hiy]
      exact getMin_le h hp i hi1 hi2
    · rw [hnodes, ← hperm]
      rfl

/-- The example of the specification, whatever the two fresh blocks hold:
inserting (5,0), (3,1), (8,2), (1,3) and extracting four times yields
(1,3), (3,1), (5,0), (8,2). -/
theorem sorted_extraction_example (arr0 : Int → HeapNode) (map0 : Int → Int) :
    ((insertAll [⟨5, 0⟩, ⟨3, 1⟩, ⟨8, 2⟩, ⟨1, 3⟩] (newHeapState 4 arr0 map0)).bind
        (extractN 4)).map Prod.fst = some [⟨1, 3⟩, ⟨3, 1⟩, ⟨5, 0⟩, ⟨8, 2⟩] := by
  have hnp : ∀ x ∈ ([⟨5, 0⟩, ⟨3, 1⟩, ⟨8, 2⟩, ⟨1, 3⟩] : List HeapNode),
      ¬ Present (newHeapState 4 arr0 map0) x.id := by
    rintro x _ ⟨i, hi1, hi2, _⟩
    have : i ≤ 0 := hi2
    omega
  obtain ⟨h1, hrun1, hp1, hs1, hn1⟩ :=
    insertAll_spec [⟨5, 0⟩, ⟨3, 1⟩, ⟨8, 2⟩, ⟨1, 3⟩] (newHeapState 4 arr0 map0)
      (heapProperty_newHeap 4 arr0 map0) (indexConsistent_newHeap 4 arr0 map0) (le_refl _)
      (by show (0 : Int) + _ ≤ 4; norm_num) hnp (by decide)
  have hs1' : h1.size = ((4 : Nat) : Int) := by
    rw [hs1]; show (0 : Int) + _ = _; norm_num
  obtain ⟨out, h2, hrun2, hsorted, hperm, _⟩ := extractN_spec 4 h1 hp1 hs1'
  rw [hn1, nodes_eq_zero _ rfl, zero_add] at hperm
  have hp : out.Perm [⟨5, 0⟩, ⟨3, 1⟩, ⟨8, 2⟩, ⟨1, 3⟩] := Multiset.coe_eq_coe.1 hperm
  have hprio : out.map HeapNode.priority = [1, 3, 5, 8] := by
    refine List.eq_of_perm_of_sorted ((hp.map HeapNode.priority).trans (by decide))
      (?_ : List.Sorted (· ≤ ·) _) (by decide : List.Sorted (· ≤ ·) [(1 : Int), 3, 5, 8])
    exact (List.pairwise_map.2 hsorted)
  have hout : out = [⟨1, 3⟩, ⟨3, 1⟩, ⟨5, 0⟩, ⟨8, 2⟩] := by
    rcases out with _ | ⟨a, _ | ⟨b, _ | ⟨c, _ | ⟨d, _ | ⟨e, t⟩⟩⟩⟩⟩
    · simp at hprio
    · simp at hprio
    · simp at hprio
    · simp at hprio
    · simp only [List.map_cons, List.map_nil, List.cons.injEq, and_true] at hprio
      obtain ⟨ha, hb, hc, hd⟩ := hprio
      have hma := hp.subset (List.mem_cons_self a _)
      have hmb := hp.subset (List.mem_cons_of_mem a (List.mem_cons_self b _))
      have hmc := hp.subset
        (List.mem_cons_of_mem a (List.mem_cons_of_mem b (List.mem_cons_self c _)))
      have hmd := hp.subset (List.mem_cons_of_mem a
        (List.mem_cons_of_mem b (List.mem_cons_of_mem c (List.mem_cons_self d _))))
      simp only [List.mem_cons, List.mem_singleton, List.not_mem_nil, or_false] at hma hmb hmc hmd
      have ea : a = ⟨1, 3⟩ := by
        rcases hma with h | h | h | h <;> rw [h] at ha ⊢ <;> simp_all
      have eb : b = ⟨3, 1⟩ := by
        rcases hmb with h | h | h | h <;> rw [h] at hb ⊢ <;> simp_all
      have ec : c = ⟨5, 0⟩ := by
        rcases hmc with h | h | h | h <;> rw [h] at hc ⊢ <;> simp_all
      have ed : d = ⟨8, 2⟩ := by
        rcases hmd with h | h | h | h <;> rw [h] at hd ⊢ <;> simp_all
      rw [ea, eb, ec, ed]
    · simp at hprio
  rw [hrun1, Option.some_bind, hrun2, hout]
  rfl

/-! ## A reachable state -/

theorem reachable_run3 : Reachable 4 arrInit mapInit run3 := by
  have h0 : Reachable 4 arrInit mapInit (newHeapState 4 arrInit mapInit) := Reachable.init
  have h1 : Reachable 4 arrInit mapInit run1 :=
    Reachable.insert 5 0 h0 (by decide) (by decide) (by decide) rfl
  have h2 : Reachable 4 arrInit mapInit run2 :=
    Reachable.insert 3 1 h1 (by decide) (by decide) (by decide) rfl
  exact @Reachable.decreasePriority 4 arrInit mapInit run2 run3 true 0 2 h2 (by decide)
    (by decide) rfl

theorem reachable_run4 : Reachable 4 arrInit mapInit run4 :=
  @Reachable.extractMin 4 arrInit mapInit run3 run4 ⟨2, 0⟩ reachable_run3 (by decide) rfl

/-! ## The contract -/

/-- C1. Heap property is an invariant: in every state reached from
`newHeap C`, `C ≥ 0`, by `insert` (identifier in `[0, C)` and not present),
`extractMin` (size at least 1) and `decreasePriority` (identifier in
`[0, C)`), every slot `i` with `2 ≤ i ≤ size` has
`arr[i/2].priority ≤ arr[i].priority`. -/
theorem heapProperty_of_reachable (C : Int) (_hC : 0 ≤ C) (arr0 : Int → HeapNode)
    (map0 : Int → Int) (h : MinHeap) (hr : Reachable C arr0 map0 h) :
    ∀ i : Int, 2 ≤ i → i ≤ h.size → (h.arr (i / 2)).priority ≤ (h.arr i).priority :=
  (reachable_invariant C arr0 map0 h hr).1

theorem heapProperty_of_reachable_witness :
    (run3.size = 2 ∧ run3.arr 1 = ⟨2, 0⟩ ∧ run3.arr 2 = ⟨3, 1⟩) ∧
    ∀ i : Int, 2 ≤ i → i ≤ run3.size →
      (run3.arr (i / 2)).priority ≤ (run3.arr i).priority :=
  ⟨by decide,
    heapProperty_of_reachable 4 (by decide) arrInit mapInit run3 reachable_run3⟩

/-- C2. Index consistency is an invariant: in every state reached from
`newHeap C` by the three operations under their preconditions,
`indexMap[arr[i].id] = i` for every slot `i` of `[1, size]`, `indexMap[id]`
is `NOTHING` for every identifier of `[0, C)` stored in no slot of
`[1, size]`, and no two occupied slots hold the same identifier. -/
theorem indexConsistent_of_reachable (C : Int) (_hC : 0 ≤ C) (arr0 : Int → HeapNode)
    (map0 : Int → Int) (h : MinHeap) (hr : Reachable C arr0 map0 h) :
    (∀ i : Int, 1 ≤ i → i ≤ h.size → h.indexMap (h.arr i).id = i) ∧
    (∀ id : Int, 0 ≤ id → id < C →
      (∀ i : Int, 1 ≤ i → i ≤ h.size → (h.arr i).id ≠ id) → h.indexMap id = NOTHING) ∧
    (∀ i j : Int, 1 ≤ i → i ≤ h.size → 1 ≤ j → j ≤ h.size →
      (h.arr i).id = (h.arr j).id → i = j) := by
  obtain ⟨_, hic, _, hcap⟩ := reachable_invariant C arr0 map0 h hr
  refine ⟨hic.1, ?_, uniqueIds_of_indexConsistent h hic⟩
  intro id hid0 hidc habs
  refine hic.2 id hid0 (by rw [hcap]; exact hidc) ?_
  rintro ⟨i, hi1, hi2, hid⟩
  exact habs i hi1 hi2 hid

theorem indexConsistent_of_reachable_witness :
    run4.indexMap 1 = 1 ∧ run4.indexMap 0 = NOTHING ∧
    ((∀ i : Int, 1 ≤ i → i ≤ run4.size → run4.indexMap (run4.arr i).id = i) ∧
    (∀ id : Int, 0 ≤ id → id < 4 →
      (∀ i : Int, 1 ≤ i → i ≤ run4.size → (run4.arr i).id ≠ id) →
      run4.indexMap id = NOTHING) ∧
    (∀ i j : Int, 1 ≤ i → i ≤ run4.size → 1 ≤ j → j ≤ run4.size →
      (run4.arr i).id = (run4.arr j).id → i = j)) :=
  ⟨by decide, by decide,
    indexConsistent_of_reachable 4 (by decide) arrInit mapInit run4 reachable_run4⟩

/-- C3. `extractMin` returns a minimum: on a heap with `size ≥ 1` that has the
heap property, `extractMin` returns the node `getMin` returns, which is stored
in a slot of `[1, size]` and whose priority is at most the priority of every
node stored in `[1, size]`. -/
theorem extractMin_returns_minimum (h : MinHeap) (hsz : 1 ≤ h.size) (hp : HeapProperty h) :
    ∃ h1 : MinHeap, extractMin h = some (getMin h, h1) ∧
      (∃ i : Int, 1 ≤ i ∧ i ≤ h.size ∧ h.arr i = getMin h) ∧
      ∀ i : Int, 1 ≤ i → i ≤ h.size → (getMin h).priority ≤ (h.arr i).priority := by
  obtain ⟨h1, hrun⟩ := extractMin_isSome h
  exact ⟨h1, hrun, ⟨1, le_refl _, hsz, rfl⟩, fun i hi1 hi2 => getMin_le h hp i hi1 hi2⟩

theorem extractMin_returns_minimum_witness :
    (extractMin heapTwo).map Prod.fst = some ⟨3, 1⟩ ∧
    ∃ h1 : MinHeap, extractMin heapTwo = some (getMin heapTwo, h1) ∧
      (∃ i : Int, 1 ≤ i ∧ i ≤ heapTwo.size ∧ heapTwo.arr i = getMin heapTwo) ∧
      ∀ i : Int, 1 ≤ i → i ≤ heapTwo.size →
        (getMin heapTwo).priority ≤ (heapTwo.arr i).priority :=
  ⟨by decide, extractMin_returns_minimum heapTwo (by decide) (by decide)⟩

/-- C4. `extractMin` removes exactly the node it returns: on a heap with
`size ≥ 1` that has the heap property and a consistent table, the size drops
by exactly one, the multiset of the nodes in `[1, size]` is the old one with
one occurrence of the returned node removed, and the table entry of the
returned identifier is `NOTHING`. -/
theorem extractMin_removes_returned_node (h : MinHeap) (hsz : 1 ≤ h.size)
    (_hp : HeapProperty h) (hic : IndexConsistent h) :
    ∃ (min : HeapNode) (h1 : MinHeap), extractMin h = some (min, h1) ∧
      h1.size = h.size - 1 ∧ nodes h1 = (nodes h).erase min ∧
      h1.indexMap min.id = NOTHING := by
  obtain ⟨h1, hrun⟩ := extractMin_isSome h
  obtain ⟨⟨hs, _, hn⟩, _, _, _, habs⟩ := extractMin_sameContent h h1 _ hsz hic hrun
  refine ⟨getMin h, h1, hrun, ?_, ?_, ?_⟩
  · rw [hs]; rfl
  · rw [hn, nodes_movedLast h hsz]
    simp only [getMin, ROOT_INDEX, Multiset.erase_cons_head]
  · have hnp : ¬ Present (movedLast h) (getMin h).id := fun hpres =>
      ((present_movedLast h hic _).1 hpres).2 hsz rfl
    rw [habs _ hnp, movedLast_indexMap]
    simp only [getMin, ROOT_INDEX, if_true]

theorem extractMin_removes_returned_node_witness :
    (extractMin heapTwo).map (fun r => (r.1, r.2.size, r.2.arr 1)) =
      some (⟨3, 1⟩, 1, ⟨5, 0⟩) ∧
    ∃ (min : HeapNode) (h1 : MinHeap), extractMin heapTwo = some (min, h1) ∧
      h1.size = heapTwo.size - 1 ∧ nodes h1 = (nodes heapTwo).erase min ∧
      h1.indexMap min.id = NOTHING :=
  ⟨by decide, extractMin_removes_returned_node heapTwo (by decide) (by decide) (by decide)⟩

/-- C6. `insert` postcondition: on a heap satisfying the invariants with
`size < capacity`, for an identifier of `[0, capacity)` that is not present,
`insert` raises the size by exactly one, adds the single node
(priority, id) to the multiset of stored nodes, leaves `indexOf id` a slot
of `[1, size]`, and `getPriority id` is the inserted priority. -/
theorem insert_postcondition (h : MinHeap) (hinv : Invariants h)
    (hlt : h.size < h.capacity) (priority id : Int) (_hid0 : 0 ≤ id)
    (_hidc : id < h.capacity) (hnp : ¬ Present h id) :
    ∃ h1 : MinHeap, insert h priority id = some h1 ∧
      h1.size = h.size + 1 ∧ nodes h1 = ⟨priority, id⟩ ::ₘ nodes h ∧
      (1 ≤ indexOf h1 id ∧ indexOf h1 id ≤ h1.size) ∧ getPriority h1 id = priority := by
  obtain ⟨_, hic, _, hsz, _⟩ := hinv
  obtain ⟨h1, hrun⟩ := insert_isSome h priority id
  obtain ⟨⟨hs, _, hn⟩, hic1, hpres, hlook, _⟩ :=
    insert_sameContent h h1 priority id hsz hlt hic hnp hrun
  have hpa : Present (appended h priority id) id :=
    (present_appended h priority id hsz id).2 (Or.inr rfl)
  have hl := hlook id hpa
  rw [(lookup_appended_new h priority id).2] at hl
  refine ⟨h1, hrun, by rw [hs]; rfl, by rw [hn, nodes_appended h priority id hsz], ?_, ?_⟩
  · obtain ⟨q, hq1, hq2, hqid⟩ := (hpres id).2 hpa
    have := hic1.1 q hq1 hq2
    rw [hqid] at this
    simp only [indexOf]
    omega
  · simp only [getPriority]
    rw [hl]

theorem insert_postcondition_witness :
    (insert heapTwo 1 3).map (fun h1 => (h1.size, h1.arr 1, indexOf h1 3)) =
      some (3, ⟨1, 3⟩, 1) ∧
    ∃ h1 : MinHeap, insert heapTwo 1 3 = some h1 ∧
      h1.size = heapTwo.size + 1 ∧ nodes h1 = ⟨1, 3⟩ ::ₘ nodes heapTwo ∧
      (1 ≤ indexOf h1 3 ∧ indexOf h1 3 ≤ h1.size) ∧ getPriority h1 3 = 1 :=
  ⟨by decide,
    insert_postcondition heapTwo (by decide) (by decide) 1 3 (by decide) (by decide)
      (by decide)⟩

/-- C7. `insert` on a full heap is a no-op: when `size = capacity`, `insert`
leaves the size, the capacity, every slot of `arr` and every entry of
`indexMap` as they were, so the size stays equal to the capacity. -/
theorem insert_full_noop (h : MinHeap) (hfull : h.size = h.capacity) (priority id : Int) :
    ∃ h1 : MinHeap, insert h priority id = some h1 ∧ h1.size = h.size ∧
      h1.capacity = h.capacity ∧ h1.arr = h.arr ∧ h1.indexMap = h.indexMap ∧
      h1.size = h1.capacity :=
  ⟨h, insert_full h priority id (by omega), rfl, rfl, rfl, rfl, hfull⟩

theorem insert_full_noop_witness :
    heapFull.size = 2 ∧
    ∃ h1 : MinHeap, insert heapFull 1 7 = some h1 ∧ h1.size = heapFull.size ∧
      h1.capacity = heapFull.capacity ∧ h1.arr = heapFull.arr ∧
      h1.indexMap = heapFull.indexMap ∧ h1.size = h1.capacity :=
  ⟨by decide, insert_full_noop heapFull (by decide) 1 7⟩

/-- C8. `decreasePriority` succeeds exactly when applicable: on a heap with a
consistent table, for an identifier of `[0, capacity)`, the call returns true
if and only if the identifier is present (its table entry is a slot of
`[1, size]`) and the priority stored for it is strictly greater than
`newPriority`. -/
theorem decreasePriority_true_iff (h : MinHeap) (hic : IndexConsistent h) (id : Int)
    (hid0 : 0 ≤ id) (hidc : id < h.capacity) (newPriority : Int) :
    ∃ (b : Bool) (h1 : MinHeap), decreasePriority h id newPriority = some (b, h1) ∧
      (b = true ↔ (Present h id ∧ getPriority h id > newPriority)) ∧
      (Present h id ↔ (1 ≤ h.indexMap id ∧ h.indexMap id ≤ h.size)) := by
  obtain ⟨b, h1, hrun⟩ := decreasePriority_isSome h id newPriority
  have hpv := present_iff_valid_indexMap h hic id hid0 hidc
  refine ⟨b, h1, hrun, ?_, hpv⟩
  rw [hpv]
  simp only [getPriority]
  rcases decreasePriority_cases h h1 id newPriority b hrun with ⟨hc, hb, _⟩ | ⟨hc, hb, _⟩
  · simp only [hb, true_iff]
    exact hc
  · simp only [hb, Bool.false_eq_true, false_iff]
    exact hc

theorem decreasePriority_true_iff_witness :
    (decreasePriority heapTwo 0 4).map Prod.fst = some true ∧
    ∃ (b : Bool) (h1 : MinHeap), decreasePriority heapTwo 0 4 = some (b, h1) ∧
      (b = true ↔ (Present heapTwo 0 ∧ getPriority heapTwo 0 > 4)) ∧
      (Present heapTwo 0 ↔ (1 ≤ heapTwo.indexMap 0 ∧ heapTwo.indexMap 0 ≤ heapTwo.size)) :=
  ⟨by decide, decreasePriority_true_iff heapTwo (by decide) 0 (by decide) (by decide) 4⟩

/-- C9. A rejected `decreasePriority` does not mutate: on a heap with a
consistent table, for an identifier of `[0, capacity)` that is absent or whose
stored priority is at most `newPriority`, the call returns false and leaves
the heap state as it was, so every later run of `extractMin` calls returns the
same nodes as without the call. -/
theorem decreasePriority_rejected_unchanged (h : MinHeap) (hic : IndexConsistent h)
    (id : Int) (hid0 : 0 ≤ id) (hidc : id < h.capacity) (newPriority : Int)
    (hrej : ¬ Present h id ∨ newPriority ≥ getPriority h id) :
    decreasePriority h id newPriority = some (false, h) ∧
    ∀ n : Nat,
      (decreasePriority h id newPriority).bind (fun r => extractN n r.2) = extractN n h := by
  have hrun : decreasePriority h id newPriority = some (false, h) := by
    rw [decreasePriority_eq, if_neg]
    rintro ⟨hv, hgt⟩
    rcases hrej with hnp | hge
    · exact hnp ((present_iff_valid_indexMap h hic id hid0 hidc).2 hv)
    · simp only [getPriority] at hge
      omega
  refine ⟨hrun, ?_⟩
  intro n
  rw [hrun]
  rfl

theorem decreasePriority_rejected_unchanged_witness :
    (¬ Present heapTwo 2 ∨ (9 : Int) ≥ getPriority heapTwo 2) ∧
    (decreasePriority heapTwo 2 9 = some (false, heapTwo) ∧
    ∀ n : Nat,
      (decreasePriority heapTwo 2 9).bind (fun r => extractN n r.2) = extractN n heapTwo) :=
  ⟨by decide,
    decreasePriority_rejected_unchanged heapTwo (by decide) 2 (by decide) (by decide) 9
      (by decide)⟩

/-- C10. Effect of a successful `decreasePriority`: on a heap satisfying the
invariants, for a present identifier whose stored priority is strictly
greater than `newPriority`, the call returns true, `getPriority id` becomes
`newPriority`, the size and the set of present identifiers are unchanged, and
`getPriority` is unchanged for every other present identifier; so no
priority is increased. -/
theorem decreasePriority_accepted_effect (h : MinHeap) (hinv : Invariants h)
    (id newPriority : Int) (hpres : Present h id)
    (hgt : getPriority h id > newPriority) :
    ∃ h1 : MinHeap, decreasePriority h id newPriority = some (true, h1) ∧
      getPriority h1 id = newPriority ∧ h1.size = h.size ∧
      (∀ j : Int, Present h1 j ↔ Present h j) ∧
      (∀ j : Int, Present h j → j ≠ id → getPriority h1 j = getPriority h j) ∧
      (∀ j : Int, Present h j → getPriority h1 j ≤ getPriority h j) := by
  obtain ⟨_, hic, _, _⟩ := hinv
  have huniq := uniqueIds_of_indexConsistent h hic
  obtain ⟨q, hq1, hq2, hqid⟩ := hpres
  have hq : h.indexMap id = q := by
    have := hic.1 q hq1 hq2
    rw [hqid] at this
    exact this
  obtain ⟨b, h1, hrun⟩ := decreasePriority_isSome h id newPriority
  have hbub : b = true ∧ bubbleUp (lowered h q newPriority) q = some h1 := by
    rcases decreasePriority_cases h h1 id newPriority b hrun with ⟨_, hb, hbu⟩ | ⟨hc, _, _⟩
    · rw [hq] at hbu
      exact ⟨hb, hbu⟩
    · exfalso
      apply hc
      simp only [getPriority] at hgt
      rw [hq] at hgt ⊢
      exact ⟨⟨hq1, hq2⟩, hgt⟩
  obtain ⟨hb, hbu⟩ := hbub
  subst hb
  obtain ⟨⟨hs, _, _⟩, _, hp1, hlook, _⟩ :=
    bubbleUp_sameContent _ _ h1 (indexConsistent_lowered h q newPriority hic) hbu
  have hget : ∀ j : Int, Present h j →
      getPriority h1 j =
        if h.indexMap j = q then newPriority else getPriority h j := by
    intro j hj
    simp only [getPriority]
    rw [hlook j ((present_lowered h q newPriority j).2 hj)]
    simp only [lowered, store_apply]
    split <;> rfl
  have hother : ∀ j : Int, Present h j → j ≠ id → h.indexMap j ≠ q := by
    rintro j ⟨r, hr1, hr2, hrid⟩ hne he
    have hr := hic.1 r hr1 hr2
    rw [hrid, he] at hr
    apply hne
    rw [← hrid, ← hr, hqid]
  refine ⟨h1, hrun, ?_, hs, ?_, ?_, ?_⟩
  · rw [hget id ⟨q, hq1, hq2, hqid⟩, if_pos hq]
  · intro j
    rw [hp1 j, present_lowered]
  · intro j hj hne
    rw [hget j hj, if_neg (hother j hj hne)]
  · intro j hj
    rw [hget j hj]
    by_cases hjid : j = id
    · subst hjid
      rw [if_pos hq]
      omega
    · rw [if_neg (hother j hj hjid)]

theorem decreasePriority_accepted_effect_witness :
    (decreasePriority heapTwo 0 2).map (fun r => (r.1, getPriority r.2 0, r.2.arr 1)) =
      some (true, 2, ⟨2, 0⟩) ∧
    ∃ h1 : MinHeap, decreasePriority heapTwo 0 2 = some (true, h1) ∧
      getPriority h1 0 = 2 ∧ h1.size = heapTwo.size ∧
      (∀ j : Int, Present h1 j ↔ Present heapTwo j) ∧
      (∀ j : Int, Present heapTwo j → j ≠ 0 → getPriority h1 j = getPriority heapTwo j) ∧
      (∀ j : Int, Present heapTwo j → getPriority h1 j ≤ getPriority heapTwo j) :=
  ⟨by decide,
    decreasePriority_accepted_effect heapTwo (by decide) 0 2 (by decide) (by decide)⟩

/-! ## Lowering below every stored priority -/

theorem decreasePriority_accept (h : MinHeap) (hic : IndexConsistent h) (id np : Int)
    (q : Int) (hq1 : 1 ≤ q) (hq2 : q ≤ h.size) (hqid : (h.arr q).id = id)
    (hgt : (h.arr q).priority > np) :
    h.indexMap id = q ∧
    ∃ h1 : MinHeap, bubbleUp (lowered h q np) q = some h1 ∧
      decreasePriority h id np = some (true, h1) := by
  have hq : h.indexMap id = q := by
    have := hic.1 q hq1 hq2
    rw [hqid] at this
    exact this
  obtain ⟨h1, hbu⟩ := bubbleUp_isSome (lowered h q np) q
  refine ⟨hq, h1, hbu, ?_⟩
  rw [decreasePriority_eq, hq, if_pos ⟨⟨hq1, hq2⟩, hgt⟩, hbu]
  rfl

theorem getMin_after_lowering (h h1 : MinHeap) (np q : Int) (hp : HeapProperty h)
    (hq1 : 1 ≤ q) (hq2 : q ≤ h.size)
    (hlt : ∀ i : Int, 1 ≤ i → i ≤ h.size → np < (h.arr i).priority)
    (hbu : bubbleUp (lowered h q np) q = some h1) :
    getMin h1 = ⟨np, (h.arr q).id⟩ := by
  have hp1 : HeapProperty h1 :=
    bubbleUp_heapProperty (lowered h q np) q h1 hq1 hq2
      (heapExceptUp_lowered h q np hp hq2 (le_of_lt (hlt q hq1 hq2))) hbu
  obtain ⟨hs, _, hn⟩ := bubbleUp_sameNodes _ _ h1 hbu
  have hs' : h1.size = h.size := hs
  have hlow : (lowered h q np).arr q = ⟨np, (h.arr q).id⟩ := by
    simp [lowered, store_apply]
  have hmem : (⟨np, (h.arr q).id⟩ : HeapNode) ∈ nodes h1 := by
    rw [hn, mem_nodes]
    exact ⟨q, hq1, hq2, hlow⟩
  obtain ⟨j, hj1, hj2, hj⟩ := (mem_nodes h1 _).1 hmem
  have hle := getMin_le h1 hp1 j hj1 hj2
  rw [hj] at hle
  have hroot : getMin h1 ∈ nodes h1 :=
    (mem_nodes h1 _).2 ⟨1, le_refl _, by omega, rfl⟩
  rw [hn] at hroot
  obtain ⟨i, hi1, hi2, hi⟩ := (mem_nodes _ _).1 hroot
  by_cases hiq : i = q
  · rw [← hi, hiq, hlow]
  · exfalso
    have harr : (lowered h q np).arr i = h.arr i := by
      simp only [lowered, store_apply]
      rw [if_neg hiq]
    rw [harr] at hi
    have := hlt i hi1 hi2
    rw [hi] at this
    simp only at hle
    omega

/-- C11. Decrease-priority reordering: on a heap satisfying the invariants,
for a present identifier and a `newPriority` strictly below the priority of
every stored node, `decreasePriority` returns true and the `extractMin` that
follows returns exactly the node (newPriority, id). -/
theorem decreasePriority_then_extractMin (h : MinHeap) (hinv : Invariants h)
    (id newPriority : Int) (hpres : Present h id)
    (hlt : ∀ i : Int, 1 ≤ i → i ≤ h.size → newPriority < (h.arr i).priority) :
    ∃ h1 h2 : MinHeap, decreasePriority h id newPriority = some (true, h1) ∧
      extractMin h1 = some (⟨newPriority, id⟩, h2) := by
  obtain ⟨hp, hic, _, _⟩ := hinv
  obtain ⟨q, hq1, hq2, hqid⟩ := hpres
  obtain ⟨_, h1, hbu, hrun⟩ :=
    decreasePriority_accept h hic id newPriority q hq1 hq2 hqid (hlt q hq1 hq2)
  obtain ⟨h2, hex⟩ := extractMin_isSome h1
  refine ⟨h1, h2, hrun, ?_⟩
  rw [hex, getMin_after_lowering h h1 newPriority q hp hq1 hq2 hlt hbu, hqid]

theorem decreasePriority_then_extractMin_witness :
    ((decreasePriority heapFour 2 0).bind (fun r => extractN 4 r.2)).map Prod.fst =
      some [⟨0, 2⟩, ⟨1, 3⟩, ⟨3, 1⟩, ⟨5, 0⟩] ∧
    ∃ h1 h2 : MinHeap, decreasePriority heapFour 2 0 = some (true, h1) ∧
      extractMin h1 = some (⟨0, 2⟩, h2) :=
  ⟨by decide,
    decreasePriority_then_extractMin heapFour (by decide) 2 0 (by decide) (by decide)⟩

/-! ## A bubbling that moves nothing -/

theorem bounds_newHeap (C : Int) (hC : 0 ≤ C) (arr0 : Int → HeapNode) (map0 : Int → Int) :
    Bounds (newHeapState C arr0 map0) := by
  refine ⟨le_refl _, hC, ?_⟩
  intro i hi1 hi2
  have : i ≤ 0 := hi2
  omega

theorem bounds_iff_nodes (h : MinHeap) :
    Bounds h ↔ 0 ≤ h.size ∧ h.size ≤ h.capacity ∧
      ∀ x ∈ nodes h, 0 ≤ x.id ∧ x.id < h.capacity := by
  unfold Bounds
  constructor
  · rintro ⟨h1, h2, h3⟩
    refine ⟨h1, h2, ?_⟩
    intro x hx
    obtain ⟨i, hi1, hi2, hi⟩ := (mem_nodes h x).1 hx
    rw [← hi]
    exact h3 i hi1 hi2
  · rintro ⟨h1, h2, h3⟩
    exact ⟨h1, h2, fun i hi1 hi2 => h3 _ ((mem_nodes h _).2 ⟨i, hi1, hi2, rfl⟩)⟩

theorem insert_bounds (h h1 : MinHeap) (p id : Int) (hb : Bounds h) (hid0 : 0 ≤ id)
    (hidc : id < h.capacity) (hrun : insert h p id = some h1) : Bounds h1 := by
  by_cases hlt : h.size < h.capacity
  · rw [insert_eq h p id hlt] at hrun
    obtain ⟨hs, hc, hn⟩ := bubbleUp_sameNodes _ _ h1 hrun
    have hs' : h1.size = h.size + 1 := hs
    have hc' : h1.capacity = h.capacity := hc
    obtain ⟨hb1, hb2, hb3⟩ := (bounds_iff_nodes h).1 hb
    rw [bounds_iff_nodes]
    refine ⟨by omega, by omega, ?_⟩
    intro x hx
    rw [hn, nodes_appended h p id hb1, Multiset.mem_cons] at hx
    rw [hc']
    rcases hx with hx | hx
    · rw [hx]; exact ⟨hid0, hidc⟩
    · exact hb3 x hx
  · rw [insert_full h p id hlt] at hrun
    simp only [Option.some.injEq] at hrun
    subst hrun
    exact hb

theorem extractMin_bounds (h h1 : MinHeap) (min : HeapNode) (hb : Bounds h)
    (hsz : 1 ≤ h.size) (hrun : extractMin h = some (min, h1)) : Bounds h1 := by
  obtain ⟨hs, hc, hn⟩ := extractMin_sameNodes h h1 min hrun
  have hs' : h1.size = h.size - 1 := hs
  have hc' : h1.capacity = h.capacity := hc
  obtain ⟨hb1, hb2, hb3⟩ := (bounds_iff_nodes h).1 hb
  rw [bounds_iff_nodes]
  refine ⟨by omega, by omega, ?_⟩
  intro x hx
  rw [hc']
  apply hb3
  rw [nodes_movedLast h hsz, ← hn]
  exact Multiset.mem_cons_of_mem hx

theorem bounds_lowered (h : MinHeap) (q np : Int) (hb : Bounds h) :
    Bounds (lowered h q np) := by
  obtain ⟨hb1, hb2, hb3⟩ := hb
  refine ⟨hb1, hb2, ?_⟩
  intro i hi1 hi2
  rw [lowered_id]
  exact hb3 i hi1 hi2

theorem bounds_of_sameNodes (h0 x : MinHeap) (hx : SameNodes h0 x) (hb : Bounds h0) :
    Bounds x := by
  obtain ⟨hs, hc, hn⟩ := hx
  obtain ⟨hb1, hb2, hb3⟩ := (bounds_iff_nodes h0).1 hb
  rw [bounds_iff_nodes, hs, hc, hn]
  exact ⟨hb1, hb2, hb3⟩

theorem decreasePriority_bounds (h h1 : MinHeap) (id np : Int) (b : Bool) (hb : Bounds h)
    (hrun : decreasePriority h id np = some (b, h1)) : Bounds h1 := by
  rcases decreasePriority_cases h h1 id np b hrun with ⟨_, _, hbu⟩ | ⟨_, _, he⟩
  · exact bounds_of_sameNodes _ h1 (bubbleUp_sameNodes _ _ h1 hbu) (bounds_lowered h _ np hb)
  · rw [he]; exact hb

theorem reachable_bounds (C : Int) (hC : 0 ≤ C) (arr0 : Int → HeapNode) (map0 : Int → Int)
    (h : MinHeap) (hr : Reachable C arr0 map0 h) : Bounds h ∧ h.capacity = C := by
  induction hr with
  | init => exact ⟨bounds_newHeap C hC arr0 map0, rfl⟩
  | insert p id _ hid0 hidc _ hrun ih =>
    obtain ⟨hb, hcap⟩ := ih
    exact ⟨insert_bounds _ _ p id hb hid0 (by rw [hcap]; exact hidc) hrun,
      by rw [(insert_size_capacity _ _ p id hrun).2, hcap]⟩
  | extractMin _ hsz1 hrun ih =>
    obtain ⟨hb, hcap⟩ := ih
    refine ⟨extractMin_bounds _ _ _ hb hsz1 hrun, ?_⟩
    rw [(extractMin_sameNodes _ _ _ hrun).2.1]
    exact hcap
  | decreasePriority id np _ _ _ hrun ih =>
    obtain ⟨hb, hcap⟩ := ih
    exact ⟨decreasePriority_bounds _ _ id np _ hb hrun,
      by rw [(decreasePriority_size_capacity _ _ id np _ hrun).2, hcap]⟩

/-- C14. Bounds are an invariant: in every state reached from `newHeap C`,
`C ≥ 0`, by `insert` (identifier in `[0, C)` and not present, the heap full
or not), `extractMin` (size at least 1) and `decreasePriority` (identifier in
`[0, C)`), `0 ≤ size ≤ capacity = C` and every identifier stored in a slot of
`[1, size]` lies in `[0, C)`. -/
theorem bounds_of_reachable (C : Int) (hC : 0 ≤ C) (arr0 : Int → HeapNode)
    (map0 : Int → Int) (h : MinHeap) (hr : Reachable C arr0 map0 h) :
    0 ≤ h.size ∧ h.size ≤ h.capacity ∧ h.capacity = C ∧
    ∀ i : Int, 1 ≤ i → i ≤ h.size → 0 ≤ (h.arr i).id ∧ (h.arr i).id < C := by
  obtain ⟨⟨hb1, hb2, hb3⟩, hcap⟩ := reachable_bounds C hC arr0 map0 h hr
  refine ⟨hb1, hb2, hcap, ?_⟩
  intro i hi1 hi2
  have := hb3 i hi1 hi2
  rw [hcap] at this
  exact this

theorem bounds_of_reachable_witness :
    (run4.arr 1).id = 1 ∧
    (0 ≤ run4.size ∧ run4.size ≤ run4.capacity ∧ run4.capacity = 4 ∧
    ∀ i : Int, 1 ≤ i → i ≤ run4.size → 0 ≤ (run4.arr i).id ∧ (run4.arr i).id < 4) :=
  ⟨by decide, bounds_of_reachable 4 (by decide) arrInit mapInit run4 reachable_run4⟩

/-! ## The traced functions compute what the untraced ones compute -/

theorem swapTraced_fst (h : MinHeap) (a b : Int) : (swapTraced h a b).1 = swap h a b := by
  unfold swapTraced swap
  split <;> rfl

theorem bubbleUpLoopTraced_fst :
    ∀ (fuel : Nat) (h : MinHeap) (k par : Int),
      (bubbleUpLoopTraced fuel h k par).map Prod.fst = bubbleUpLoop fuel h k par := by
  intro fuel
  induction fuel with
  | zero => intro h k par; rfl
  | succ n ih =>
    intro h k par
    rw [bubbleUpLoopTraced, bubbleUpLoop]
    by_cases h1 : k > ROOT_INDEX
    · rw [if_pos h1]
      by_cases h2 : (h.arr k).priority < (h.arr par).priority
      · rw [if_pos h2, if_pos ⟨h1, h2⟩]
        simp only [swapTraced_fst, Option.map_map]
        rw [← ih]
        rfl
      · rw [if_neg h2, if_neg (fun hc => h2 hc.2)]
        rfl
    · rw [if_neg h1, if_neg (fun hc => h1 hc.1)]
      rfl

theorem bubbleUpTraced_fst (h : MinHeap) (k : Int) :
    (bubbleUpTraced h k).map Prod.fst = bubbleUp h k := by
  unfold bubbleUpTraced bubbleUp
  split
  · exact bubbleUpLoopTraced_fst _ _ _ _
  · rfl

theorem bubbleDownLoopTraced_fst :
    ∀ (fuel : Nat) (h : MinHeap) (k : Int),
      (bubbleDownLoopTraced fuel h k).map Prod.fst = bubbleDownLoop fuel h k := by
  intro fuel
  induction fuel with
  | zero => intro h k; rfl
  | succ n ih =>
    intro h k
    rw [bubbleDownLoopTraced, bubbleDownLoop]
    by_cases hv : isValidIndex h k = true
    · rw [if_pos hv, if_pos hv]
      dsimp only
      generalize (if isValidIndex h (leftIdx h k) = true then _ else NOTHING) = m
      split
      · simp only [swapTraced_fst, Option.map_map]
        rw [← ih]
        rfl
      · rfl
    · rw [if_neg hv, if_neg hv]
      rfl

theorem bubbleDownTraced_fst (h : MinHeap) :
    (bubbleDownTraced h).map Prod.fst = bubbleDown h := by
  unfold bubbleDownTraced bubbleDown
  split
  · exact bubbleDownLoopTraced_fst _ _ _
  · rfl

theorem insertTraced_fst (h : MinHeap) (p id : Int) :
    (insertTraced h p id).map Prod.fst = insert h p id := by
  unfold insertTraced insert
  split
  · simp only [Option.map_map]
    rw [← bubbleUpTraced_fst]
    rfl
  · rfl

theorem extractMinTraced_fst (h : MinHeap) :
    (extractMinTraced h).map Prod.fst = extractMin h := by
  unfold extractMinTraced extractMin
  dsimp only
  split
  · simp only [Option.map_map]
    rw [← bubbleDownTraced_fst]
    simp only [Option.map_map]
    rfl
  · rfl

theorem decreasePriorityTraced_fst (h : MinHeap) (id np : Int) :
    (decreasePriorityTraced h id np).map Prod.fst = decreasePriority h id np := by
  unfold decreasePriorityTraced decreasePriority
  dsimp only
  by_cases h1 : isValidIndex h (h.indexMap id) = true
  · rw [if_pos h1]
    by_cases h2 : (h.arr (h.indexMap id)).priority > np
    · rw [if_pos h2, if_pos ⟨h1, h2⟩]
      simp only [Option.map_map]
      rw [← bubbleUpTraced_fst]
      simp only [Option.map_map]
      rfl
    · rw [if_neg h2, if_neg (fun hc => h2 hc.2)]
      rfl
  · rw [if_neg h1, if_neg (fun hc => h1 hc.1)]
    rfl

theorem getPriorityTraced_fst (h : MinHeap) (id : Int) :
    (getPriorityTraced h id).1 = getPriority h id := rfl

theorem indexOfTraced_fst (h : MinHeap) (id : Int) :
    (indexOfTraced h id).1 = indexOf h id := rfl

/-! ## Calls of `swap` in a trace -/

theorem swapCalls_append (s t : List Event) :
    swapCalls (s ++ t) = swapCalls s ++ swapCalls t := by
  induction s with
  | nil => rfl
  | cons e s ih =>
    cases e <;> simp [swapCalls, ih]

theorem swapCount_append (s t : List Event) :
    swapCount (s ++ t) = swapCount s + swapCount t := by
  simp [swapCount, swapCalls_append]

theorem swapCalls_swapTraced (h : MinHeap) (a b : Int) :
    swapCalls (swapTraced h a b).2 = [(a, b)] := by
  unfold swapTraced
  split <;> rfl

theorem traced_of_fst {α β : Type} (o : Option (α × β)) (a : α)
    (h : o.map Prod.fst = some a) : ∃ t : β, o = some (a, t) := by
  cases o with
  | none => simp at h
  | some r =>
    simp only [Option.map_some', Option.some.injEq] at h
    exact ⟨r.2, by rw [← h]⟩

/-- One round of the traced loop of `bubbleUp` at an occupied slot. -/
theorem bubbleUpLoopTraced_succ (n : Nat) (h : MinHeap) (k : Int) (hk1 : 1 ≤ k)
    (hk2 : k ≤ h.size) :
    bubbleUpLoopTraced (n + 1) h k (parentIdx h k) =
      if 2 ≤ k then
        if (h.arr k).priority < (h.arr (k / 2)).priority then
          (bubbleUpLoopTraced n (swap h k (k / 2)) (k / 2)
              (parentIdx (swap h k (k / 2)) (k / 2))).map
            (fun r => (r.1, [Event.readArr k, Event.readArr (k / 2)] ++
              (swapTraced h k (k / 2)).2 ++ r.2))
        else some (h, [Event.readArr k, Event.readArr (k / 2)])
      else some (h, []) := by
  rw [bubbleUpLoopTraced]
  by_cases hk : 2 ≤ k
  · rw [parentIdx_of_valid h k hk hk2, if_pos (by simp only [ROOT_INDEX]; omega), if_pos hk]
    simp only [swapTraced_fst]
  · rw [if_neg (by simp only [ROOT_INDEX]; omega), if_neg hk]

/-- The calls of `swap` made by the loop of `bubbleUp` started at an occupied
slot `k`: each call is `swap(i, i / 2)` for a slot `i` of `[2, k]`, the first
one is at `k`, each call is at the slot the previous one moved to, and `s`
calls need `2 ^ s ≤ k`. -/
theorem bubbleUpLoopTraced_calls :
    ∀ (fuel : Nat) (h : MinHeap) (k : Int) (r : MinHeap × List Event), 1 ≤ k →
      k ≤ h.size → bubbleUpLoopTraced fuel h k (parentIdx h k) = some r →
      (∀ c ∈ swapCalls r.2, 1 ≤ c.2 ∧ c.2 < c.1 ∧ c.1 ≤ k ∧ c.2 = c.1 / 2) ∧
      (∀ c ∈ (swapCalls r.2).head?, c.1 = k) ∧
      (swapCalls r.2).Chain' (fun c d => d.1 = c.2) ∧
      (2 : Int) ^ swapCount r.2 ≤ k := by
  intro fuel
  induction fuel with
  | zero => intro h k r _ _ hrun; simp [bubbleUpLoopTraced] at hrun
  | succ n ih =>
    intro h k r hk1 hk2 hrun
    rw [bubbleUpLoopTraced_succ n h k hk1 hk2] at hrun
    by_cases hk : 2 ≤ k
    · rw [if_pos hk] at hrun
      by_cases hlt : (h.arr k).priority < (h.arr (k / 2)).priority
      · rw [if_pos hlt] at hrun
        simp only [Option.map_eq_some'] at hrun
        obtain ⟨r1, hrec, hr⟩ := hrun
        have hsz : k / 2 ≤ (swap h k (k / 2)).size := by rw [swap_size]; omega
        obtain ⟨h1, h2, h3, h4⟩ := ih _ _ r1 (by omega) hsz hrec
        have hcalls : swapCalls r.2 = (k, k / 2) :: swapCalls r1.2 := by
          rw [← hr]
          simp only [swapCalls_append, swapCalls_swapTraced]
          rfl
        rw [swapCount, hcalls]
        refine ⟨?_, ?_, ?_, ?_⟩
        · intro c hc
          rcases List.mem_cons.1 hc with hc | hc
          · rw [hc]
            exact ⟨by show 1 ≤ k / 2; omega, by show k / 2 < k; omega, le_refl _, rfl⟩
          · obtain ⟨g1, g2, g3, g4⟩ := h1 c hc
            exact ⟨g1, g2, by omega, g4⟩
        · intro c hc
          simp only [List.head?_cons, Option.mem_def, Option.some.injEq] at hc
          rw [← hc]
        · rw [List.chain'_cons']
          exact ⟨fun d hd => h2 d hd, h3⟩
        · rw [List.length_cons, pow_succ]
          have : (2 : Int) ^ (swapCalls r1.2).length ≤ k / 2 := h4
          omega
      · rw [if_neg hlt] at hrun
        simp only [Option.some.injEq] at hrun
        rw [← hrun]
        refine ⟨?_, ?_, ?_, ?_⟩
        · intro c hc; simp [swapCalls] at hc
        · intro c hc; simp [swapCalls] at hc
        · simp [swapCalls]
        · simp only [swapCount, swapCalls, List.length_nil, pow_zero]; omega
    · rw [if_neg hk] at hrun
      simp only [Option.some.injEq] at hrun
      rw [← hrun]
      refine ⟨?_, ?_, ?_, ?_⟩
      · intro c hc; simp [swapCalls] at hc
      · intro c hc; simp [swapCalls] at hc
      · simp [swapCalls]
      · simp only [swapCount, swapCalls, List.length_nil, pow_zero]; omega

theorem bubbleUpTraced_isSome (h : MinHeap) (k : Int) :
    ∃ r : MinHeap × List Event, bubbleUpTraced h k = some r ∧ bubbleUp h k = some r.1 := by
  obtain ⟨h1, hrun⟩ := bubbleUp_isSome h k
  obtain ⟨t, ht⟩ := traced_of_fst _ h1 ((bubbleUpTraced_fst h k).trans hrun)
  exact ⟨(h1, t), ht, hrun⟩

theorem bubbleUpTraced_calls (h : MinHeap) (k : Int) (r : MinHeap × List Event)
    (hrun : bubbleUpTraced h k = some r) :
    (∀ c ∈ swapCalls r.2, 1 ≤ c.2 ∧ c.2 < c.1 ∧ c.1 ≤ k ∧ c.2 = c.1 / 2) ∧
    (swapCalls r.2).Chain' (fun c d => d.1 = c.2) ∧
    ((1 ≤ k ∧ k ≤ h.size) → (2 : Int) ^ swapCount r.2 ≤ k) ∧
    (¬ (1 ≤ k ∧ k ≤ h.size) → r.2 = []) := by
  unfold bubbleUpTraced at hrun
  by_cases hv : 1 ≤ k ∧ k ≤ h.size
  · rw [if_pos ((isValidIndex_iff h k).2 hv)] at hrun
    obtain ⟨h1, _, h3, h4⟩ := bubbleUpLoopTraced_calls _ h k r hv.1 hv.2 hrun
    exact ⟨h1, h3, fun _ => h4, fun hn => absurd hv hn⟩
  · rw [if_neg (by rw [isValidIndex_iff]; exact hv)] at hrun
    simp only [Option.some.injEq] at hrun
    rw [← hrun]
    refine ⟨?_, ?_, fun hh => absurd hh hv, fun _ => rfl⟩
    · intro c hc; simp [swapCalls] at hc
    · simp [swapCalls]

/-- One round of the traced loop of `bubbleDown` at an occupied slot. -/
theorem bubbleDownLoopTraced_succ (n : Nat) (h : MinHeap) (k : Int) (hk1 : 1 ≤ k)
    (hk2 : k ≤ h.size) :
    bubbleDownLoopTraced (n + 1) h k =
      if 2 * k ≤ h.size then
        if (h.arr k).priority > (h.arr (minChild h k)).priority then
          (bubbleDownLoopTraced n (swap h k (minChild h k)) (minChild h k)).map
            (fun r => (r.1,
              (if 2 * k + 1 ≤ h.size then
                  [Event.readArr (2 * k + 1), Event.readArr (2 * k)] else []) ++
                [Event.readArr k, Event.readArr (minChild h k)] ++
                (swapTraced h k (minChild h k)).2 ++ r.2))
        else
          some (h,
            (if 2 * k + 1 ≤ h.size then
                [Event.readArr (2 * k + 1), Event.readArr (2 * k)] else []) ++
              [Event.readArr k, Event.readArr (minChild h k)])
      else some (h, []) := by
  rw [bubbleDownLoopTraced, if_pos ((isValidIndex_iff h k).2 ⟨hk1, hk2⟩),
    leftIdx_of_valid h k hk1 hk2, rightIdx_of_valid h k hk1 hk2]
  by_cases hl : 2 * k ≤ h.size
  · have hvl : isValidIndex h (2 * k) = true := (isValidIndex_iff h _).2 ⟨by omega, hl⟩
    simp only [if_pos hl, hvl, if_true, true_and]
    by_cases hr : 2 * k + 1 ≤ h.size
    · have hvr : isValidIndex h (2 * k + 1) = true :=
        (isValidIndex_iff h _).2 ⟨by omega, hr⟩
      simp only [if_pos hr, hvr, true_and, minChild, if_true]
      by_cases hc : (h.arr (2 * k + 1)).priority < (h.arr (2 * k)).priority
      · have hne : 2 * k + 1 ≠ NOTHING := by simp only [NOTHING]; omega
        simp only [if_pos hc, swapTraced_fst]
        simp [hne, hr, hc]
      · have hne : 2 * k ≠ NOTHING := by simp only [NOTHING]; omega
        simp only [if_neg hc, swapTraced_fst]
        simp [hne, hr, hc]
    · have hm : minChild h k = 2 * k := by simp [minChild, hr]
      have hne : 2 * k ≠ NOTHING := by simp only [NOTHING]; omega
      simp only [if_neg hr, not_isValidIndex_NOTHING, hm, swapTraced_fst]
      simp [hne]
  · simp [if_neg hl, not_isValidIndex_NOTHING]

/-- The calls of `swap` made by the loop of `bubbleDown` started at an occupied
slot `k`: each call is `swap(i, c)` for a slot `i ≥ k` and a child `c` of `i`
that is occupied, the first one is at `k`, each call is at the slot the
previous one moved to, and `s` calls need `k * 2 ^ s ≤ size`. -/
theorem bubbleDownLoopTraced_calls :
    ∀ (fuel : Nat) (h : MinHeap) (k : Int) (r : MinHeap × List Event), 1 ≤ k →
      k ≤ h.size → bubbleDownLoopTraced fuel h k = some r →
      (∀ c ∈ swapCalls r.2, k ≤ c.1 ∧ c.1 < c.2 ∧ c.2 ≤ h.size ∧
        (c.2 = 2 * c.1 ∨ c.2 = 2 * c.1 + 1)) ∧
      (∀ c ∈ (swapCalls r.2).head?, c.1 = k) ∧
      (swapCalls r.2).Chain' (fun c d => d.1 = c.2) ∧
      k * (2 : Int) ^ swapCount r.2 ≤ h.size := by
  intro fuel
  induction fuel with
  | zero => intro h k r _ _ hrun; simp [bubbleDownLoopTraced] at hrun
  | succ n ih =>
    intro h k r hk1 hk2 hrun
    rw [bubbleDownLoopTraced_succ n h k hk1 hk2] at hrun
    have hnone : ∀ t : List Event, swapCalls t = [] → r = (h, t) →
        (∀ c ∈ swapCalls r.2, k ≤ c.1 ∧ c.1 < c.2 ∧ c.2 ≤ h.size ∧
          (c.2 = 2 * c.1 ∨ c.2 = 2 * c.1 + 1)) ∧
        (∀ c ∈ (swapCalls r.2).head?, c.1 = k) ∧
        (swapCalls r.2).Chain' (fun c d => d.1 = c.2) ∧
        k * (2 : Int) ^ swapCount r.2 ≤ h.size := by
      intro t ht hr
      rw [hr]
      simp only [swapCount, ht]
      refine ⟨?_, ?_, ?_, ?_⟩
      · intro c hc; simp at hc
      · intro c hc; simp at hc
      · simp
      · simp only [List.length_nil, pow_zero]; omega
    by_cases hl : 2 * k ≤ h.size
    · rw [if_pos hl] at hrun
      obtain ⟨hm, hmsz, _⟩ := minChild_spec h k hk1 hl
      by_cases hgt : (h.arr k).priority > (h.arr (minChild h k)).priority
      · rw [if_pos hgt] at hrun
        simp only [Option.map_eq_some'] at hrun
        obtain ⟨r1, hrec, hr⟩ := hrun
        have hsz : minChild h k ≤ (swap h k (minChild h k)).size := by
          rw [swap_size]; exact hmsz
        obtain ⟨h1, h2, h3, h4⟩ := ih _ _ r1 (by omega) hsz hrec
        rw [swap_size] at h1 h4
        have hcalls : swapCalls r.2 = (k, minChild h k) :: swapCalls r1.2 := by
          rw [← hr]
          simp only [swapCalls_append, swapCalls_swapTraced]
          split <;> rfl
        rw [swapCount, hcalls]
        refine ⟨?_, ?_, ?_, ?_⟩
        · intro c hc
          rcases List.mem_cons.1 hc with hc | hc
          · rw [hc]
            exact ⟨le_refl _, by show k < minChild h k; omega, hmsz, hm⟩
          · obtain ⟨g1, g2, g3, g4⟩ := h1 c hc
            exact ⟨by omega, g2, g3, g4⟩
        · intro c hc
          simp only [List.head?_cons, Option.mem_def, Option.some.injEq] at hc
          rw [← hc]
        · rw [List.chain'_cons']
          exact ⟨fun d hd => h2 d hd, h3⟩
        · rw [List.length_cons, pow_succ]
          have h4' : minChild h k * (2 : Int) ^ (swapCalls r1.2).length ≤ h.size := h4
          have hpos : (0 : Int) ≤ (2 : Int) ^ (swapCalls r1.2).length := by positivity
          have h2k : 2 * k ≤ minChild h k := by omega
          have := mul_le_mul_of_nonneg_right h2k hpos
          have he : k * ((2 : Int) ^ (swapCalls r1.2).length * 2) =
              2 * k * (2 : Int) ^ (swapCalls r1.2).length := by ring
          rw [he]
          omega
      · rw [if_neg hgt] at hrun
        simp only [Option.some.injEq] at hrun
        refine hnone _ ?_ hrun.symm
        simp only [swapCalls_append]
        split <;> rfl
    · rw [if_neg hl] at hrun
      simp only [Option.some.injEq] at hrun
      exact hnone [] rfl hrun.symm

theorem bubbleDownTraced_isSome (h : MinHeap) :
    ∃ r : MinHeap × List Event, bubbleDownTraced h = some r ∧ bubbleDown h = some r.1 := by
  obtain ⟨h1, hrun⟩ := bubbleDown_isSome h
  obtain ⟨t, ht⟩ := traced_of_fst _ h1 ((bubbleDownTraced_fst h).trans hrun)
  exact ⟨(h1, t), ht, hrun⟩

theorem bubbleDownTraced_calls (h : MinHeap) (r : MinHeap × List Event)
    (hrun : bubbleDownTraced h = some r) :
    (∀ c ∈ swapCalls r.2, 1 ≤ c.1 ∧ c.1 < c.2 ∧ c.2 ≤ h.size ∧
      (c.2 = 2 * c.1 ∨ c.2 = 2 * c.1 + 1)) ∧
    (swapCalls r.2).Chain' (fun c d => d.1 = c.2) ∧
    (1 ≤ h.size → (2 : Int) ^ swapCount r.2 ≤ h.size) ∧
    (¬ 1 ≤ h.size → r.2 = []) := by
  unfold bubbleDownTraced at hrun
  simp only [ROOT_INDEX] at hrun
  by_cases hv : 1 ≤ h.size
  · rw [if_pos ((isValidIndex_iff h 1).2 ⟨le_refl _, hv⟩)] at hrun
    obtain ⟨h1, _, h3, h4⟩ := bubbleDownLoopTraced_calls _ h 1 r (le_refl _) hv hrun
    exact ⟨h1, h3, fun _ => by simpa using h4, fun hn => absurd hv hn⟩
  · rw [if_neg (by rw [isValidIndex_iff]; omega)] at hrun
    simp only [Option.some.injEq] at hrun
    rw [← hrun]
    refine ⟨?_, ?_, fun hh => absurd hh hv, fun _ => rfl⟩
    · intro c hc; simp [swapCalls] at hc
    · simp [swapCalls]

/-- From `2 ^ s ≤ k` to `s ≤ ⌊log₂ k⌋`. -/
theorem le_log_of_two_pow_le (s : Nat) (k : Int) (h : (2 : Int) ^ s ≤ k) :
    s ≤ Nat.log 2 k.toNat := by
  apply Nat.le_log_of_pow_le (by decide)
  have hk : (0 : Int) ≤ k := le_trans (by positivity) h
  have : ((2 ^ s : Nat) : Int) ≤ k := by push_cast; exact h
  omega

/-! ## The three traced operations, in terms of the heap handed to the bubbling -/

theorem insertTraced_eq (h : MinHeap) (priority id : Int) (hlt : h.size < h.capacity) :
    insertTraced h priority id =
      (bubbleUpTraced (appended h priority id) (h.size + 1)).map
        (fun r => (r.1, [Event.writeArr (h.size + 1), Event.writeArr (h.size + 1),
          Event.writeMap id] ++ r.2)) := by
  have harr : store (store h.arr (h.size + 1) { h.arr (h.size + 1) with priority := priority })
      (h.size + 1)
      { store h.arr (h.size + 1) { h.arr (h.size + 1) with priority := priority } (h.size + 1)
          with id := id } = store h.arr (h.size + 1) ⟨priority, id⟩ := by
    funext j
    simp only [store_apply]
    split <;> simp
  simp only [insertTraced, if_pos hlt, appended, harr]

theorem insertTraced_full (h : MinHeap) (priority id : Int) (hge : ¬ h.size < h.capacity) :
    insertTraced h priority id = some (h, []) := by
  simp only [insertTraced, if_neg hge]

theorem extractMinTraced_eq (h : MinHeap) :
    extractMinTraced h =
      if h.size - 1 > 0 then
        (bubbleDownTraced (movedLast h)).map
          (fun r => ((h.arr 1, r.1),
            [Event.readArr 1, Event.readArr h.size, Event.writeArr 1, Event.readArr 1,
              Event.writeMap (h.arr h.size).id, Event.writeMap (h.arr 1).id,
              Event.writeArr h.size, Event.writeArr h.size] ++ r.2))
      else
        some ((h.arr 1, movedLast h),
          [Event.readArr 1, Event.readArr h.size, Event.writeArr 1, Event.readArr 1,
            Event.writeMap (h.arr h.size).id, Event.writeMap (h.arr 1).id,
            Event.writeArr h.size, Event.writeArr h.size]) := by
  have harr : store (store (store h.arr 1 (h.arr h.size)) h.size
        { priority := 0, id := (store h.arr 1 (h.arr h.size) h.size).id }) h.size
        { priority := (store (store h.arr 1 (h.arr h.size)) h.size
            { priority := 0, id := (store h.arr 1 (h.arr h.size) h.size).id } h.size).priority,
          id := 0 } = store (store h.arr 1 (h.arr h.size)) h.size ⟨0, 0⟩ := by
    funext j
    simp only [store_apply]
    split <;> simp
  have hmap : (store h.arr 1 (h.arr h.size) 1).id = (h.arr h.size).id := by
    simp [store_apply]
  simp only [extractMinTraced, getMin, movedLast, ROOT_INDEX, harr, hmap]

theorem decreasePriorityTraced_eq (h : MinHeap) (id newPriority : Int) :
    decreasePriorityTraced h id newPriority =
      if 1 ≤ h.indexMap id ∧ h.indexMap id ≤ h.size then
        if (h.arr (h.indexMap id)).priority > newPriority then
          (bubbleUpTraced (lowered h (h.indexMap id) newPriority) (h.indexMap id)).map
            (fun r => ((true, r.1),
              [Event.readMap id, Event.readArr (h.indexMap id),
                Event.writeArr (h.indexMap id)] ++ r.2))
        else some ((false, h), [Event.readMap id, Event.readArr (h.indexMap id)])
      else some ((false, h), [Event.readMap id]) := by
  simp only [decreasePriorityTraced, isValidIndex_iff, lowered]

theorem insertTraced_isSome (h : MinHeap) (p id : Int) :
    ∃ r : MinHeap × List Event, insertTraced h p id = some r ∧ insert h p id = some r.1 := by
  obtain ⟨h1, hrun⟩ := insert_isSome h p id
  obtain ⟨t, ht⟩ := traced_of_fst _ h1 ((insertTraced_fst h p id).trans hrun)
  exact ⟨(h1, t), ht, hrun⟩

theorem extractMinTraced_isSome (h : MinHeap) :
    ∃ r : (HeapNode × MinHeap) × List Event,
      extractMinTraced h = some r ∧ extractMin h = some r.1 := by
  obtain ⟨h1, hrun⟩ := extractMin_isSome h
  obtain ⟨t, ht⟩ := traced_of_fst _ _ ((extractMinTraced_fst h).trans hrun)
  exact ⟨((getMin h, h1), t), ht, hrun⟩

theorem decreasePriorityTraced_isSome (h : MinHeap) (id np : Int) :
    ∃ r : (Bool × MinHeap) × List Event,
      decreasePriorityTraced h id np = some r ∧ decreasePriority h id np = some r.1 := by
  obtain ⟨b, h1, hrun⟩ := decreasePriority_isSome h id np
  obtain ⟨t, ht⟩ := traced_of_fst _ _ ((decreasePriorityTraced_fst h id np).trans hrun)
  exact ⟨((b, h1), t), ht, hrun⟩

/-! ## Number of calls of `swap` -/

theorem bubbleUpTraced_swapCount (h : MinHeap) (k : Int) (r : MinHeap × List Event)
    (hrun : bubbleUpTraced h k = some r) :
    swapCount r.2 ≤ Nat.log 2 k.toNat ∧ r.1.size = h.size := by
  have hsz : r.1.size = h.size := by
    have hfst := bubbleUpTraced_fst h k
    rw [hrun] at hfst
    exact (bubbleUp_sameNodes h k r.1 hfst.symm).1
  refine ⟨?_, hsz⟩
  obtain ⟨_, _, h3, h4⟩ := bubbleUpTraced_calls h k r hrun
  by_cases hv : 1 ≤ k ∧ k ≤ h.size
  · exact le_log_of_two_pow_le _ _ (h3 hv)
  · rw [h4 hv]
    exact Nat.zero_le _

theorem bubbleDownTraced_swapCount (h : MinHeap) (r : MinHeap × List Event)
    (hrun : bubbleDownTraced h = some r) :
    swapCount r.2 ≤ Nat.log 2 h.size.toNat ∧ r.1.size = h.size := by
  have hsz : r.1.size = h.size := by
    have hfst := bubbleDownTraced_fst h
    rw [hrun] at hfst
    exact (bubbleDown_sameNodes h r.1 hfst.symm).1
  refine ⟨?_, hsz⟩
  obtain ⟨_, _, h3, h4⟩ := bubbleDownTraced_calls h r hrun
  by_cases hv : 1 ≤ h.size
  · exact le_log_of_two_pow_le _ _ (h3 hv)
  · rw [h4 hv]
    exact Nat.zero_le _

theorem swapCount_cons_access (t : List Event) :
    (∀ i, swapCount (Event.readArr i :: t) = swapCount t) ∧
    (∀ i, swapCount (Event.writeArr i :: t) = swapCount t) ∧
    (∀ i, swapCount (Event.readMap i :: t) = swapCount t) ∧
    (∀ i, swapCount (Event.writeMap i :: t) = swapCount t) :=
  ⟨fun _ => rfl, fun _ => rfl, fun _ => rfl, fun _ => rfl⟩

theorem insertTraced_swapCount (h : MinHeap) (p id : Int) (r : MinHeap × List Event)
    (hrun : insertTraced h p id = some r) :
    swapCount r.2 ≤ Nat.log 2 (max r.1.size 1).toNat := by
  by_cases hlt : h.size < h.capacity
  · rw [insertTraced_eq h p id hlt] at hrun
    simp only [Option.map_eq_some'] at hrun
    obtain ⟨r1, hbu, hr⟩ := hrun
    obtain ⟨hc, hs⟩ := bubbleUpTraced_swapCount _ _ r1 hbu
    rw [← hr]
    simp only [List.cons_append, List.nil_append, (swapCount_cons_access _).2.1,
      (swapCount_cons_access _).2.2.2, hs]
    refine le_trans hc (Nat.log_mono_right ?_)
    show (h.size + 1).toNat ≤ (max (h.size + 1) 1).toNat
    omega
  · rw [insertTraced_full h p id hlt] at hrun
    simp only [Option.some.injEq] at hrun
    rw [← hrun]
    exact Nat.zero_le _

theorem extractMinTraced_swapCount (h : MinHeap)
    (r : (HeapNode × MinHeap) × List Event) (hrun : extractMinTraced h = some r) :
    swapCount r.2 ≤ Nat.log 2 (max r.1.2.size 1).toNat := by
  rw [extractMinTraced_eq] at hrun
  split at hrun
  · simp only [Option.map_eq_some'] at hrun
    obtain ⟨r1, hbd, hr⟩ := hrun
    obtain ⟨hc, hs⟩ := bubbleDownTraced_swapCount _ r1 hbd
    rw [← hr]
    simp only [List.cons_append, List.nil_append, (swapCount_cons_access _).1,
      (swapCount_cons_access _).2.1, (swapCount_cons_access _).2.2.2, hs]
    refine le_trans hc (Nat.log_mono_right ?_)
    show (h.size - 1).toNat ≤ (max (h.size - 1) 1).toNat
    omega
  · simp only [Option.some.injEq] at hrun
    rw [← hrun]
    exact Nat.zero_le _

theorem decreasePriorityTraced_swapCount (h : MinHeap) (id np : Int)
    (r : (Bool × MinHeap) × List Event) (hrun : decreasePriorityTraced h id np = some r) :
    swapCount r.2 ≤ Nat.log 2 (max h.size 1).toNat := by
  rw [decreasePriorityTraced_eq] at hrun
  by_cases hv : 1 ≤ h.indexMap id ∧ h.indexMap id ≤ h.size
  · rw [if_pos hv] at hrun
    split at hrun
    · simp only [Option.map_eq_some'] at hrun
      obtain ⟨r1, hbu, hr⟩ := hrun
      obtain ⟨hc, _⟩ := bubbleUpTraced_swapCount _ _ r1 hbu
      rw [← hr]
      simp only [List.cons_append, List.nil_append, (swapCount_cons_access _).1,
        (swapCount_cons_access _).2.1, (swapCount_cons_access _).2.2.1]
      refine le_trans hc (Nat.log_mono_right ?_)
      omega
    · simp only [Option.some.injEq] at hrun
      rw [← hrun]
      exact Nat.zero_le _
  · rw [if_neg hv] at hrun
    simp only [Option.some.injEq] at hrun
    rw [← hrun]
    exact Nat.zero_le _

/-! ## Accesses stay inside the two blocks -/

theorem inBounds_of_within (n c : Int) (hn : n ≤ c) (e : Event) (he : e.Within n c) :
    e.InBounds c := by
  cases e <;> simp only [Event.Within, Event.InBounds] at he ⊢ <;> omega

theorem within_mono (n m c : Int) (hnm : n ≤ m) (e : Event) (he : e.Within n c) :
    e.Within m c := by
  cases e <;> simp only [Event.Within] at he ⊢ <;> omega

theorem not_readArr_NOTHING_of_within (n c : Int) (t : List Event)
    (ht : ∀ e ∈ t, e.Within n c) : Event.readArr NOTHING ∉ t := by
  intro hmem
  have := ht _ hmem
  simp only [Event.Within, NOTHING] at this
  omega

theorem bounds_swap (h : MinHeap) (a b : Int) (hb : Bounds h) : Bounds (swap h a b) :=
  bounds_of_sameNodes h _ (sameNodes_swap h h a b ⟨rfl, rfl, rfl⟩) hb

theorem swapTraced_within (h : MinHeap) (a b : Int) (hb : Bounds h) :
    ∀ e ∈ (swapTraced h a b).2, e.Within h.size h.capacity := by
  obtain ⟨_, _, hids⟩ := hb
  unfold swapTraced
  by_cases hv : isValidIndex h a = true ∧ isValidIndex h b = true
  · rw [if_pos hv]
    have ha := (isValidIndex_iff h a).1 hv.1
    have hb' := (isValidIndex_iff h b).1 hv.2
    have hida := hids a ha.1 ha.2
    have hidb := hids b hb'.1 hb'.2
    intro e he
    simp only [List.mem_cons, List.mem_singleton, List.not_mem_nil, or_false] at he
    rcases he with rfl | rfl | rfl | rfl | rfl | rfl | rfl | rfl | rfl <;>
      simp only [Event.Within] <;> omega
  · rw [if_neg hv]
    intro e he
    simp only [List.mem_singleton] at he
    rw [he]
    trivial

theorem bubbleUpLoopTraced_within :
    ∀ (fuel : Nat) (h : MinHeap) (k : Int) (r : MinHeap × List Event), Bounds h → 1 ≤ k →
      k ≤ h.size → bubbleUpLoopTraced fuel h k (parentIdx h k) = some r →
      ∀ e ∈ r.2, e.Within h.size h.capacity := by
  intro fuel
  induction fuel with
  | zero => intro h k r _ _ _ hrun; simp [bubbleUpLoopTraced] at hrun
  | succ n ih =>
    intro h k r hb hk1 hk2 hrun
    rw [bubbleUpLoopTraced_succ n h k hk1 hk2] at hrun
    have hreads : ∀ e ∈ [Event.readArr k, Event.readArr (k / 2)], 2 ≤ k →
        e.Within h.size h.capacity := by
      intro e he hk
      simp only [List.mem_cons, List.mem_singleton, List.not_mem_nil, or_false] at he
      rcases he with rfl | rfl <;> simp only [Event.Within] <;> omega
    by_cases hk : 2 ≤ k
    · rw [if_pos hk] at hrun
      split at hrun
      · simp only [Option.map_eq_some'] at hrun
        obtain ⟨r1, hrec, hr⟩ := hrun
        have hsz : k / 2 ≤ (swap h k (k / 2)).size := by rw [swap_size]; omega
        have hrest := ih _ _ r1 (bounds_swap h k (k / 2) hb) (by omega) hsz hrec
        rw [swap_size, swap_capacity] at hrest
        rw [← hr]
        intro e he
        simp only [List.mem_append] at he
        rcases he with (he | he) | he
        · exact hreads e he hk
        · exact swapTraced_within h k (k / 2) hb e he
        · exact hrest e he
      · simp only [Option.some.injEq] at hrun
        rw [← hrun]
        exact fun e he => hreads e he hk
    · rw [if_neg hk] at hrun
      simp only [Option.some.injEq] at hrun
      rw [← hrun]
      intro e he
      simp at he

theorem bubbleUpTraced_within (h : MinHeap) (k : Int) (r : MinHeap × List Event)
    (hb : Bounds h) (hrun : bubbleUpTraced h k = some r) :
    ∀ e ∈ r.2, e.Within h.size h.capacity := by
  unfold bubbleUpTraced at hrun
  by_cases hv : isValidIndex h k = true
  · rw [if_pos hv] at hrun
    have hk := (isValidIndex_iff h k).1 hv
    exact bubbleUpLoopTraced_within _ h k r hb hk.1 hk.2 hrun
  · rw [if_neg hv] at hrun
    simp only [Option.some.injEq] at hrun
    rw [← hrun]
    intro e he
    simp at he

theorem bubbleDownLoopTraced_within :
    ∀ (fuel : Nat) (h : MinHeap) (k : Int) (r : MinHeap × List Event), Bounds h → 1 ≤ k →
      k ≤ h.size → bubbleDownLoopTraced fuel h k = some r →
      ∀ e ∈ r.2, e.Within h.size h.capacity := by
  intro fuel
  induction fuel with
  | zero => intro h k r _ _ _ hrun; simp [bubbleDownLoopTraced] at hrun
  | succ n ih =>
    intro h k r hb hk1 hk2 hrun
    rw [bubbleDownLoopTraced_succ n h k hk1 hk2] at hrun
    by_cases hl : 2 * k ≤ h.size
    · rw [if_pos hl] at hrun
      obtain ⟨hm, hmsz, _⟩ := minChild_spec h k hk1 hl
      have hreads : ∀ e ∈ (if 2 * k + 1 ≤ h.size then
            [Event.readArr (2 * k + 1), Event.readArr (2 * k)] else []) ++
          [Event.readArr k, Event.readArr (minChild h k)],
          e.Within h.size h.capacity := by
        intro e he
        simp only [List.mem_append, List.mem_cons, List.mem_singleton, List.not_mem_nil,
          or_false] at he
        rcases he with he | rfl | rfl
        · split at he
          · simp only [List.mem_cons, List.mem_singleton, List.not_mem_nil, or_false] at he
            rcases he with rfl | rfl <;> simp only [Event.Within] <;> omega
          · simp at he
        · simp only [Event.Within]; omega
        · simp only [Event.Within]; omega
      split at hrun
      · simp only [Option.map_eq_some'] at hrun
        obtain ⟨r1, hrec, hr⟩ := hrun
        have hsz : minChild h k ≤ (swap h k (minChild h k)).size := by
          rw [swap_size]; exact hmsz
        have hrest := ih _ _ r1 (bounds_swap h k (minChild h k) hb) (by omega) hsz hrec
        rw [swap_size, swap_capacity] at hrest
        rw [← hr]
        intro e he
        rw [List.mem_append, List.mem_append] at he
        rcases he with (he | he) | he
        · exact hreads e he
        · exact swapTraced_within h k (minChild h k) hb e he
        · exact hrest e he
      · simp only [Option.some.injEq] at hrun
        rw [← hrun]
        exact hreads
    · rw [if_neg hl] at hrun
      simp only [Option.some.injEq] at hrun
      rw [← hrun]
      intro e he
      simp at he

theorem bubbleDownTraced_within (h : MinHeap) (r : MinHeap × List Event)
    (hb : Bounds h) (hrun : bubbleDownTraced h = some r) :
    ∀ e ∈ r.2, e.Within h.size h.capacity := by
  unfold bubbleDownTraced at hrun
  by_cases hv : isValidIndex h ROOT_INDEX = true
  · rw [if_pos hv] at hrun
    have hk := (isValidIndex_iff h ROOT_INDEX).1 hv
    exact bubbleDownLoopTraced_within _ h ROOT_INDEX r hb hk.1 hk.2 hrun
  · rw [if_neg hv] at hrun
    simp only [Option.some.injEq] at hrun
    rw [← hrun]
    intro e he
    simp at he

theorem bounds_appended (h : MinHeap) (p id : Int) (hb : Bounds h)
    (hlt : h.size < h.capacity) (hid0 : 0 ≤ id) (hidc : id < h.capacity) :
    Bounds (appended h p id) := by
  obtain ⟨hb1, hb2, hb3⟩ := (bounds_iff_nodes h).1 hb
  rw [bounds_iff_nodes]
  refine ⟨by show 0 ≤ h.size + 1; omega, by show h.size + 1 ≤ h.capacity; omega, ?_⟩
  intro x hx
  rw [nodes_appended h p id hb1, Multiset.mem_cons] at hx
  show 0 ≤ x.id ∧ x.id < h.capacity
  rcases hx with hx | hx
  · rw [hx]; exact ⟨hid0, hidc⟩
  · exact hb3 x hx

theorem bounds_movedLast (h : MinHeap) (hb : Bounds h) (hsz : 1 ≤ h.size) :
    Bounds (movedLast h) := by
  obtain ⟨hb1, hb2, hb3⟩ := (bounds_iff_nodes h).1 hb
  rw [bounds_iff_nodes]
  refine ⟨by show 0 ≤ h.size - 1; omega, by show h.size - 1 ≤ h.capacity; omega, ?_⟩
  intro x hx
  show 0 ≤ x.id ∧ x.id < h.capacity
  apply hb3
  rw [nodes_movedLast h hsz]
  exact Multiset.mem_cons_of_mem hx

theorem insertTraced_within (h : MinHeap) (p id : Int) (r : MinHeap × List Event)
    (hb : Bounds h) (hid0 : 0 ≤ id) (hidc : id < h.capacity)
    (hrun : insertTraced h p id = some r) :
    ∀ e ∈ r.2, e.Within (h.size + 1) h.capacity := by
  by_cases hlt : h.size < h.capacity
  · rw [insertTraced_eq h p id hlt] at hrun
    simp only [Option.map_eq_some'] at hrun
    obtain ⟨r1, hbu, hr⟩ := hrun
    have hrest := bubbleUpTraced_within _ _ r1 (bounds_appended h p id hb hlt hid0 hidc) hbu
    rw [← hr]
    intro e he
    rw [List.mem_append] at he
    rcases he with he | he
    · have hsz0 : 0 ≤ h.size := hb.1
      simp only [List.mem_cons, List.mem_singleton, List.not_mem_nil, or_false] at he
      rcases he with rfl | rfl | rfl <;> simp only [Event.Within] <;> omega
    · exact hrest e he
  · rw [insertTraced_full h p id hlt] at hrun
    simp only [Option.some.injEq] at hrun
    rw [← hrun]
    intro e he
    simp at he

theorem insertTraced_inBounds (h : MinHeap) (p id : Int) (r : MinHeap × List Event)
    (hb : Bounds h) (hid0 : 0 ≤ id) (hidc : id < h.capacity)
    (hrun : insertTraced h p id = some r) :
    ∀ e ∈ r.2, e.InBounds h.capacity := by
  by_cases hlt : h.size < h.capacity
  · exact fun e he => inBounds_of_within (h.size + 1) h.capacity (by omega) e
      (insertTraced_within h p id r hb hid0 hidc hrun e he)
  · rw [insertTraced_full h p id hlt] at hrun
    simp only [Option.some.injEq] at hrun
    rw [← hrun]
    intro e he
    simp at he

theorem extractMinTraced_within (h : MinHeap) (r : (HeapNode × MinHeap) × List Event)
    (hb : Bounds h) (hsz : 1 ≤ h.size) (hrun : extractMinTraced h = some r) :
    ∀ e ∈ r.2, e.Within h.size h.capacity := by
  have hid1 := hb.2.2 1 (le_refl _) hsz
  have hidn := hb.2.2 h.size hsz (le_refl _)
  have hfirst : ∀ e ∈ [Event.readArr 1, Event.readArr h.size, Event.writeArr 1,
      Event.readArr 1, Event.writeMap (h.arr h.size).id, Event.writeMap (h.arr 1).id,
      Event.writeArr h.size, Event.writeArr h.size], e.Within h.size h.capacity := by
    intro e he
    simp only [List.mem_cons, List.mem_singleton, List.not_mem_nil, or_false] at he
    rcases he with rfl | rfl | rfl | rfl | rfl | rfl | rfl | rfl <;>
      simp only [Event.Within] <;> first | exact hid1 | exact hidn | omega
  rw [extractMinTraced_eq] at hrun
  split at hrun
  · simp only [Option.map_eq_some'] at hrun
    obtain ⟨r1, hbd, hr⟩ := hrun
    have hrest := bubbleDownTraced_within _ r1 (bounds_movedLast h hb hsz) hbd
    rw [← hr]
    intro e he
    rw [List.mem_append] at he
    rcases he with he | he
    · exact hfirst e he
    · exact within_mono (h.size - 1) h.size h.capacity (by omega) e (hrest e he)
  · simp only [Option.some.injEq] at hrun
    rw [← hrun]
    exact hfirst

theorem decreasePriorityTraced_within (h : MinHeap) (id np : Int)
    (r : (Bool × MinHeap) × List Event) (hb : Bounds h) (hid0 : 0 ≤ id)
    (hidc : id < h.capacity) (hrun : decreasePriorityTraced h id np = some r) :
    ∀ e ∈ r.2, e.Within h.size h.capacity := by
  rw [decreasePriorityTraced_eq] at hrun
  by_cases hv : 1 ≤ h.indexMap id ∧ h.indexMap id ≤ h.size
  · rw [if_pos hv] at hrun
    split at hrun
    · simp only [Option.map_eq_some'] at hrun
      obtain ⟨r1, hbu, hr⟩ := hrun
      have hrest := bubbleUpTraced_within _ _ r1 (bounds_lowered h _ np hb) hbu
      rw [← hr]
      intro e he
      rw [List.mem_append] at he
      rcases he with he | he
      · simp only [List.mem_cons, List.mem_singleton, List.not_mem_nil, or_false] at he
        rcases he with rfl | rfl | rfl <;> simp only [Event.Within] <;>
          first | exact ⟨hid0, hidc⟩ | exact hv
      · exact hrest e he
    · simp only [Option.some.injEq] at hrun
      rw [← hrun]
      intro e he
      simp only [List.mem_cons, List.mem_singleton, List.not_mem_nil, or_false] at he
      rcases he with rfl | rfl <;> simp only [Event.Within] <;>
        first | exact ⟨hid0, hidc⟩ | exact hv
  · rw [if_neg hv] at hrun
    simp only [Option.some.injEq] at hrun
    rw [← hrun]
    intro e he
    simp only [List.mem_singleton] at he
    rw [he]
    exact ⟨hid0, hidc⟩

theorem lookups_within (h : MinHeap) (id : Int) (hic : IndexConsistent h) (hb : Bounds h)
    (hpres : Present h id) :
    (∀ e ∈ (getPriorityTraced h id).2, e.Within h.size h.capacity) ∧
    (∀ e ∈ (indexOfTraced h id).2, e.Within h.size h.capacity) := by
  obtain ⟨q, hq1, hq2, hqid⟩ := hpres
  have hidr := hb.2.2 q hq1 hq2
  rw [hqid] at hidr
  have hq := hic.1 q hq1 hq2
  rw [hqid] at hq
  refine ⟨?_, ?_⟩
  · intro e he
    simp only [getPriorityTraced, List.mem_cons, List.mem_singleton, List.not_mem_nil,
      or_false] at he
    rcases he with rfl | rfl <;> simp only [Event.Within]
    · exact hidr
    · rw [hq]; exact ⟨hq1, hq2⟩
  · intro e he
    simp only [indexOfTraced, List.mem_singleton] at he
    rw [he]
    exact hidr

/-- Whatever budget the loop of `bubbleUp` finishes on at an occupied slot,
its result is the one `bubbleUp` returns. -/
theorem bubbleUp_eq_of_loop (h : MinHeap) (k : Int) (hk1 : 1 ≤ k) (hk2 : k ≤ h.size)
    (n : Nat) (r : MinHeap) (hrun : bubbleUpLoop n h k (parentIdx h k) = some r) :
    bubbleUp h k = some r := by
  obtain ⟨r0, h0⟩ := bubbleUp_isSome h k
  have h0' := h0
  unfold bubbleUp at h0'
  rw [if_pos ((isValidIndex_iff h k).2 ⟨hk1, hk2⟩)] at h0'
  have ha := bubbleUpLoop_fuel_mono n k.toNat h k _ r hrun
  have hb := bubbleUpLoop_fuel_mono k.toNat n h k _ r0 h0'
  rw [Nat.add_comm, ha] at hb
  rw [h0, ← hb]

/-- Whatever budget the loop of `bubbleDown` finishes on from the root of a
heap that is not empty, its result is the one `bubbleDown` returns. -/
theorem bubbleDown_eq_of_loop (h : MinHeap) (hsz : 1 ≤ h.size) (n : Nat) (r : MinHeap)
    (hrun : bubbleDownLoop n h ROOT_INDEX = some r) : bubbleDown h = some r := by
  obtain ⟨r0, h0⟩ := bubbleDown_isSome h
  have h0' := h0
  unfold bubbleDown at h0'
  rw [if_pos ((isValidIndex_iff h ROOT_INDEX).2 ⟨le_refl _, hsz⟩)] at h0'
  have ha := bubbleDownLoop_fuel_mono n h.size.toNat h ROOT_INDEX r hrun
  have hb := bubbleDownLoop_fuel_mono h.size.toNat n h ROOT_INDEX r0 h0'
  rw [Nat.add_comm, ha] at hb
  rw [h0, ← hb]

/-- C15. Termination: in every heap state with `0 ≤ size ≤ capacity`, with or
without the heap property, the loop of `bubbleUp` returns for every
`nodeIndex` and the loop of `bubbleDown` returns, and `insert`, `extractMin`
and `decreasePriority` return.  Every call `swap(i, j)` of `bubbleUp` moves the
node index from `i` to a `j` with `ROOT_INDEX ≤ j < i`, every call
`swap(i, j)` of `bubbleDown` moves it from `i` to a `j` with `i < j ≤ size`,
and each call is at the slot the previous one moved to.  The step budget of
the embedding restricts nothing: on whatever budget a loop finishes, its
result is the one `bubbleUp`, respectively `bubbleDown`, returns. -/
theorem operations_terminate (h : MinHeap) (_hsz : 0 ≤ h.size)
    (_hcap : h.size ≤ h.capacity) :
    (∀ nodeIndex : Int, ∃ r : MinHeap × List Event,
      bubbleUpTraced h nodeIndex = some r ∧ bubbleUp h nodeIndex = some r.1 ∧
      (∀ c ∈ swapCalls r.2, ROOT_INDEX ≤ c.2 ∧ c.2 < c.1 ∧ c.1 ≤ nodeIndex) ∧
      (swapCalls r.2).Chain' (fun c d => d.1 = c.2)) ∧
    (∃ r : MinHeap × List Event,
      bubbleDownTraced h = some r ∧ bubbleDown h = some r.1 ∧
      (∀ c ∈ swapCalls r.2, ROOT_INDEX ≤ c.1 ∧ c.1 < c.2 ∧ c.2 ≤ h.size) ∧
      (swapCalls r.2).Chain' (fun c d => d.1 = c.2)) ∧
    (∀ priority id : Int, ∃ h1 : MinHeap, insert h priority id = some h1) ∧
    (∃ (min : HeapNode) (h1 : MinHeap), extractMin h = some (min, h1)) ∧
    (∀ id newPriority : Int, ∃ (b : Bool) (h1 : MinHeap),
      decreasePriority h id newPriority = some (b, h1)) ∧
    (∀ (nodeIndex : Int) (n : Nat) (r : MinHeap), 1 ≤ nodeIndex → nodeIndex ≤ h.size →
      bubbleUpLoop n h nodeIndex (parentIdx h nodeIndex) = some r →
      bubbleUp h nodeIndex = some r) ∧
    (∀ (n : Nat) (r : MinHeap), 1 ≤ h.size →
      bubbleDownLoop n h ROOT_INDEX = some r → bubbleDown h = some r) := by
  refine ⟨?_, ?_, fun p id => insert_isSome h p id, ?_,
    fun id np => decreasePriority_isSome h id np,
    fun k n r hk1 hk2 hrun => bubbleUp_eq_of_loop h k hk1 hk2 n r hrun,
    fun n r hsz hrun => bubbleDown_eq_of_loop h hsz n r hrun⟩
  · intro k
    obtain ⟨r, hrun, hfst⟩ := bubbleUpTraced_isSome h k
    obtain ⟨h1, h2, _, _⟩ := bubbleUpTraced_calls h k r hrun
    refine ⟨r, hrun, hfst, ?_, h2⟩
    intro c hc
    obtain ⟨g1, g2, g3, _⟩ := h1 c hc
    exact ⟨g1, g2, g3⟩
  · obtain ⟨r, hrun, hfst⟩ := bubbleDownTraced_isSome h
    obtain ⟨h1, h2, _, _⟩ := bubbleDownTraced_calls h r hrun
    refine ⟨r, hrun, hfst, ?_, h2⟩
    intro c hc
    obtain ⟨g1, g2, g3, _⟩ := h1 c hc
    exact ⟨g1, g2, g3⟩
  · obtain ⟨h1, hrun⟩ := extractMin_isSome h
    exact ⟨getMin h, h1, hrun⟩

theorem operations_terminate_witness :
    ((bubbleUpTraced heapThree 3).map (fun r => swapCalls r.2) = some [(3, 1)] ∧
      (bubbleDownTraced heapThree).map (fun r => swapCalls r.2) = some [(1, 3)]) ∧
    ((∀ nodeIndex : Int, ∃ r : MinHeap × List Event,
      bubbleUpTraced heapThree nodeIndex = some r ∧
      bubbleUp heapThree nodeIndex = some r.1 ∧
      (∀ c ∈ swapCalls r.2, ROOT_INDEX ≤ c.2 ∧ c.2 < c.1 ∧ c.1 ≤ nodeIndex) ∧
      (swapCalls r.2).Chain' (fun c d => d.1 = c.2)) ∧
    (∃ r : MinHeap × List Event,
      bubbleDownTraced heapThree = some r ∧ bubbleDown heapThree = some r.1 ∧
      (∀ c ∈ swapCalls r.2, ROOT_INDEX ≤ c.1 ∧ c.1 < c.2 ∧ c.2 ≤ heapThree.size) ∧
      (swapCalls r.2).Chain' (fun c d => d.1 = c.2)) ∧
    (∀ priority id : Int, ∃ h1 : MinHeap, insert heapThree priority id = some h1) ∧
    (∃ (min : HeapNode) (h1 : MinHeap), extractMin heapThree = some (min, h1)) ∧
    (∀ id newPriority : Int, ∃ (b : Bool) (h1 : MinHeap),
      decreasePriority heapThree id newPriority = some (b, h1)) ∧
    (∀ (nodeIndex : Int) (n : Nat) (r : MinHeap), 1 ≤ nodeIndex →
      nodeIndex ≤ heapThree.size →
      bubbleUpLoop n heapThree nodeIndex (parentIdx heapThree nodeIndex) = some r →
      bubbleUp heapThree nodeIndex = some r) ∧
    (∀ (n : Nat) (r : MinHeap), 1 ≤ heapThree.size →
      bubbleDownLoop n heapThree ROOT_INDEX = some r → bubbleDown heapThree = some r)) :=
  ⟨by decide, operations_terminate heapThree (by decide) (by decide)⟩

/-- C16. Logarithmic swap count: in every heap state with
`0 ≤ size ≤ capacity`, `bubbleUp` started at an occupied slot `i` calls `swap`
at most `⌊log₂ i⌋` times and `bubbleDown` on a heap of size `n ≥ 1` at most
`⌊log₂ n⌋` times; hence `insert`, `extractMin` and `decreasePriority` each call
`swap` at most `⌊log₂ (max size 1)⌋` times, for the size at the time of the
bubbling (the size `insert` and `extractMin` leave, the unchanged size for
`decreasePriority`). -/
theorem swap_count_logarithmic (h : MinHeap) (_hsz : 0 ≤ h.size)
    (_hcap : h.size ≤ h.capacity) :
    (∀ i : Int, 1 ≤ i → i ≤ h.size → ∃ r : MinHeap × List Event,
      bubbleUpTraced h i = some r ∧ swapCount r.2 ≤ Nat.log 2 i.toNat) ∧
    (1 ≤ h.size → ∃ r : MinHeap × List Event,
      bubbleDownTraced h = some r ∧ swapCount r.2 ≤ Nat.log 2 h.size.toNat) ∧
    (∀ priority id : Int, ∃ r : MinHeap × List Event,
      insertTraced h priority id = some r ∧ insert h priority id = some r.1 ∧
      swapCount r.2 ≤ Nat.log 2 (max r.1.size 1).toNat) ∧
    (∃ r : (HeapNode × MinHeap) × List Event,
      extractMinTraced h = some r ∧ extractMin h = some r.1 ∧
      swapCount r.2 ≤ Nat.log 2 (max r.1.2.size 1).toNat) ∧
    (∀ id newPriority : Int, ∃ r : (Bool × MinHeap) × List Event,
      decreasePriorityTraced h id newPriority = some r ∧
      decreasePriority h id newPriority = some r.1 ∧
      swapCount r.2 ≤ Nat.log 2 (max h.size 1).toNat) := by
  refine ⟨?_, ?_, ?_, ?_, ?_⟩
  · intro i _ _
    obtain ⟨r, hrun, _⟩ := bubbleUpTraced_isSome h i
    exact ⟨r, hrun, (bubbleUpTraced_swapCount h i r hrun).1⟩
  · intro _
    obtain ⟨r, hrun, _⟩ := bubbleDownTraced_isSome h
    exact ⟨r, hrun, (bubbleDownTraced_swapCount h r hrun).1⟩
  · intro p id
    obtain ⟨r, hrun, hfst⟩ := insertTraced_isSome h p id
    exact ⟨r, hrun, hfst, insertTraced_swapCount h p id r hrun⟩
  · obtain ⟨r, hrun, hfst⟩ := extractMinTraced_isSome h
    exact ⟨r, hrun, hfst, extractMinTraced_swapCount h r hrun⟩
  · intro id np
    obtain ⟨r, hrun, hfst⟩ := decreasePriorityTraced_isSome h id np
    exact ⟨r, hrun, hfst, decreasePriorityTraced_swapCount h id np r hrun⟩

theorem swap_count_logarithmic_witness :
    ((bubbleUpTraced heapThree 3).map (fun r => swapCount r.2) = some 1 ∧
      (insertTraced heapThree 1 3).map (fun r => (swapCount r.2, r.1.size)) = some (2, 4)) ∧
    ((∀ i : Int, 1 ≤ i → i ≤ heapThree.size → ∃ r : MinHeap × List Event,
      bubbleUpTraced heapThree i = some r ∧ swapCount r.2 ≤ Nat.log 2 i.toNat) ∧
    (1 ≤ heapThree.size → ∃ r : MinHeap × List Event,
      bubbleDownTraced heapThree = some r ∧
      swapCount r.2 ≤ Nat.log 2 heapThree.size.toNat) ∧
    (∀ priority id : Int, ∃ r : MinHeap × List Event,
      insertTraced heapThree priority id = some r ∧
      insert heapThree priority id = some r.1 ∧
      swapCount r.2 ≤ Nat.log 2 (max r.1.size 1).toNat) ∧
    (∃ r : (HeapNode × MinHeap) × List Event,
      extractMinTraced heapThree = some r ∧ extractMin heapThree = some r.1 ∧
      swapCount r.2 ≤ Nat.log 2 (max r.1.2.size 1).toNat) ∧
    (∀ id newPriority : Int, ∃ r : (Bool × MinHeap) × List Event,
      decreasePriorityTraced heapThree id newPriority = some r ∧
      decreasePriority heapThree id newPriority = some r.1 ∧
      swapCount r.2 ≤ Nat.log 2 (max heapThree.size 1).toNat)) :=
  ⟨by decide, swap_count_logarithmic heapThree (by decide) (by decide)⟩

/-! ## Extraction by move-and-clear and by swap-and-shrink -/

theorem agreeExcept_swap (s : Int) (x y : MinHeap) (a b : Int) (hs : x.size < s)
    (hxy : AgreeExcept s x y) : AgreeExcept s (swap x a b) (swap y a b) := by
  obtain ⟨h1, h2, h3, h4⟩ := hxy
  by_cases hv : (1 ≤ a ∧ a ≤ x.size) ∧ (1 ≤ b ∧ b ≤ x.size)
  · obtain ⟨ha, hb⟩ := hv
    have ha' : 1 ≤ a ∧ a ≤ y.size := by rw [← h1]; exact ha
    have hb' : 1 ≤ b ∧ b ≤ y.size := by rw [← h1]; exact hb
    have haa := h4 a (by omega)
    have hbb := h4 b (by omega)
    refine ⟨by rw [swap_size, swap_size, h1], by rw [swap_capacity, swap_capacity, h2], ?_, ?_⟩
    · funext j
      rw [swap_indexMap x a b ha hb, swap_indexMap y a b ha' hb', haa, hbb, h3]
    · intro j hj
      rw [swap_arr x a b ha hb, swap_arr y a b ha' hb', haa, hbb, h4 j hj]
  · have hv' : ¬ ((1 ≤ a ∧ a ≤ y.size) ∧ (1 ≤ b ∧ b ≤ y.size)) := by rw [← h1]; exact hv
    rw [swap_of_not_valid x a b hv, swap_of_not_valid y a b hv']
    exact ⟨h1, h2, h3, h4⟩

theorem minChild_agree (s : Int) (x y : MinHeap) (k : Int) (hs : x.size < s)
    (hl : 2 * k ≤ x.size) (hxy : AgreeExcept s x y) : minChild x k = minChild y k := by
  obtain ⟨h1, _, _, h4⟩ := hxy
  unfold minChild
  rw [← h1, h4 (2 * k) (by omega)]
  by_cases hr : 2 * k + 1 ≤ x.size
  · rw [h4 (2 * k + 1) (by omega)]
  · rw [if_neg (fun hc => hr hc.1), if_neg (fun hc => hr hc.1)]

theorem bubbleDownLoop_agree (s : Int) :
    ∀ (fuel : Nat) (x y : MinHeap) (k : Int) (x1 : MinHeap), x.size < s →
      AgreeExcept s x y → bubbleDownLoop fuel x k = some x1 →
      ∃ y1 : MinHeap, bubbleDownLoop fuel y k = some y1 ∧ AgreeExcept s x1 y1 := by
  intro fuel
  induction fuel with
  | zero => intro x y k x1 _ _ hrun; simp [bubbleDownLoop] at hrun
  | succ n ih =>
    intro x y k x1 hs hxy hrun
    have hsz := hxy.1
    by_cases hv : 1 ≤ k ∧ k ≤ x.size
    · have hv' : 1 ≤ k ∧ k ≤ y.size := by rw [← hsz]; exact hv
      rw [bubbleDownLoop_succ n x k hv.1 hv.2] at hrun
      rw [bubbleDownLoop_succ n y k hv'.1 hv'.2]
      by_cases hl : 2 * k ≤ x.size
      · have hm := minChild_agree s x y k hs hl hxy
        obtain ⟨_, hmsz, _⟩ := minChild_spec x k hv.1 hl
        rw [← hm, ← hsz, ← hxy.2.2.2 k (by omega), ← hxy.2.2.2 (minChild x k) (by omega)]
        split at hrun
        · rename_i hc
          rw [if_pos hc]
          exact ih _ _ _ x1 (by rw [swap_size]; exact hs)
            (agreeExcept_swap s x y k (minChild x k) hs hxy) hrun
        · rename_i hc
          rw [if_neg hc]
          simp only [Option.some.injEq] at hrun
          subst hrun
          exact ⟨y, rfl, hxy⟩
      · rw [if_neg (fun hc => hl hc.1)] at hrun
        rw [if_neg (fun hc => hl (by rw [hsz]; exact hc.1))]
        simp only [Option.some.injEq] at hrun
        subst hrun
        exact ⟨y, rfl, hxy⟩
    · have hnv : ¬ isValidIndex x k = true := by rw [isValidIndex_iff]; exact hv
      have hnv' : ¬ isValidIndex y k = true := by rw [isValidIndex_iff, ← hsz]; exact hv
      rw [bubbleDownLoop, if_neg hnv] at hrun
      rw [bubbleDownLoop, if_neg hnv']
      simp only [Option.some.injEq] at hrun
      subst hrun
      exact ⟨y, rfl, hxy⟩

theorem bubbleDown_agree (s : Int) (x y x1 : MinHeap) (hs : x.size < s)
    (hxy : AgreeExcept s x y) (hrun : bubbleDown x = some x1) :
    ∃ y1 : MinHeap, bubbleDown y = some y1 ∧ AgreeExcept s x1 y1 := by
  have hsz := hxy.1
  unfold bubbleDown at hrun ⊢
  by_cases hv : isValidIndex x ROOT_INDEX = true
  · have hv' : isValidIndex y ROOT_INDEX = true := by
      rw [isValidIndex_iff] at hv ⊢; rw [← hsz]; exact hv
    rw [if_pos hv] at hrun
    rw [if_pos hv', ← hsz]
    exact bubbleDownLoop_agree s _ x y _ x1 hs hxy hrun
  · have hv' : ¬ isValidIndex y ROOT_INDEX = true := by
      rw [isValidIndex_iff] at hv ⊢; rw [← hsz]; exact hv
    rw [if_neg hv] at hrun
    rw [if_neg hv']
    simp only [Option.some.injEq] at hrun
    subst hrun
    exact ⟨y, rfl, hxy⟩

/-- The heap the swap-and-shrink variant hands to `bubbleDown`. -/
theorem extractMinSwapShrink_eq (h : MinHeap) (hsz : 1 ≤ h.size) :
    extractMinSwapShrink h =
      if h.size - 1 > 0 then
        (bubbleDown
          { size := h.size - 1
            capacity := h.capacity
            arr := fun j => if j = h.size then h.arr 1 else if j = 1 then h.arr h.size
              else h.arr j
            indexMap := fun j => if j = (h.arr 1).id then NOTHING
              else if j = (h.arr h.size).id then 1 else h.indexMap j }).map
          (fun x => (h.arr 1, x))
      else
        some (h.arr 1,
          { size := h.size - 1
            capacity := h.capacity
            arr := fun j => if j = h.size then h.arr 1 else if j = 1 then h.arr h.size
              else h.arr j
            indexMap := fun j => if j = (h.arr 1).id then NOTHING
              else if j = (h.arr h.size).id then 1 else h.indexMap j }) := by
  have hone : 1 ≤ (1 : Int) ∧ (1 : Int) ≤ h.size := ⟨le_refl _, hsz⟩
  have hlast : 1 ≤ h.size ∧ h.size ≤ h.size := ⟨hsz, le_refl _⟩
  have harr : (swap h 1 h.size).arr = fun j => if j = h.size then h.arr 1
      else if j = 1 then h.arr h.size else h.arr j := by
    funext j; exact swap_arr h 1 h.size hone hlast j
  have hmap : store (swap h 1 h.size).indexMap (h.arr 1).id NOTHING =
      fun j => if j = (h.arr 1).id then NOTHING
        else if j = (h.arr h.size).id then 1 else h.indexMap j := by
    funext j
    rw [store_apply, swap_indexMap h 1 h.size hone hlast]
    by_cases h1 : j = (h.arr 1).id
    · rw [if_pos h1, if_pos h1]
    · rw [if_neg h1, if_neg h1, if_neg h1]
  simp only [extractMinSwapShrink, getMin, ROOT_INDEX, swap_size, swap_capacity, harr, hmap]

theorem agreeExcept_movedLast (h : MinHeap) :
    AgreeExcept h.size (movedLast h)
      { size := h.size - 1
        capacity := h.capacity
        arr := fun j => if j = h.size then h.arr 1 else if j = 1 then h.arr h.size
          else h.arr j
        indexMap := fun j => if j = (h.arr 1).id then NOTHING
          else if j = (h.arr h.size).id then 1 else h.indexMap j } := by
  refine ⟨rfl, rfl, ?_, ?_⟩
  · funext j
    exact movedLast_indexMap h j
  · intro j hj
    simp only [movedLast, store_apply]
    rw [if_neg hj, if_neg hj]

theorem vacated_slot_swap (s : Int) (v : HeapNode) (x : MinHeap) (a b : Int)
    (hx : x.size < s ∧ x.arr s = v) :
    (swap x a b).size < s ∧ (swap x a b).arr s = v := by
  by_cases hv : (1 ≤ a ∧ a ≤ x.size) ∧ (1 ≤ b ∧ b ≤ x.size)
  · rw [swap_size, swap_arr x a b hv.1 hv.2, if_neg (by omega), if_neg (by omega)]
    exact hx
  · rw [swap_of_not_valid x a b hv]
    exact hx

/-- C17. Move-and-clear extraction is equivalent to swap-and-shrink: on a heap
with `size ≥ 1` satisfying the invariants, `extractMin` as written and the
variant that calls `swap(heap, ROOT_INDEX, size)`, sets
`indexMap[min.id] = NOTHING`, decrements `size` and bubbles down return the
same node and leave the same size, the same capacity, the same table and the
same contents in every slot of `arr` other than the vacated slot
`arr[old size]`, which `extractMin` sets to priority 0 and id 0. -/
theorem extractMin_eq_swap_shrink (h : MinHeap) (hsz : 1 ≤ h.size) (_hinv : Invariants h) :
    ∃ (min : HeapNode) (h1 h2 : MinHeap), extractMin h = some (min, h1) ∧
      extractMinSwapShrink h = some (min, h2) ∧
      h1.size = h2.size ∧ h1.capacity = h2.capacity ∧
      (∀ i : Int, 1 ≤ i → i ≤ h1.size → h1.arr i = h2.arr i) ∧
      h1.indexMap = h2.indexMap ∧
      (∀ j : Int, j ≠ h.size → h1.arr j = h2.arr j) ∧
      h1.arr h.size = ⟨0, 0⟩ := by
  obtain ⟨h1, hrun⟩ := extractMin_isSome h
  have hs1 := (extractMin_sameNodes h h1 _ hrun).1
  have hs1' : h1.size = h.size - 1 := hs1
  have hvac0 : (movedLast h).size < h.size ∧ (movedLast h).arr h.size = ⟨0, 0⟩ := by
    refine ⟨by show h.size - 1 < h.size; omega, ?_⟩
    simp [movedLast, store_apply]
  have hfin : ∃ h2 : MinHeap, extractMinSwapShrink h = some (getMin h, h2) ∧
      AgreeExcept h.size h1 h2 ∧ h1.arr h.size = ⟨0, 0⟩ := by
    rw [extractMinSwapShrink_eq h hsz]
    rcases extractMin_snd h h1 _ hrun with ⟨hc, hb⟩ | ⟨hc, he⟩
    · obtain ⟨y1, hy1, hagree⟩ :=
        bubbleDown_agree h.size _ _ h1 hvac0.1 (agreeExcept_movedLast h) hb
      rw [if_pos hc, hy1]
      exact ⟨y1, rfl, hagree,
        (bubbleDown_preserves (fun x => x.size < h.size ∧ x.arr h.size = ⟨0, 0⟩)
          (vacated_slot_swap h.size ⟨0, 0⟩) _ h1 hb hvac0).2⟩
    · rw [if_neg hc, he]
      exact ⟨_, rfl, agreeExcept_movedLast h, hvac0.2⟩
  obtain ⟨h2, hrun2, ⟨ha1, ha2, ha3, ha4⟩, hzero⟩ := hfin
  refine ⟨getMin h, h1, h2, hrun, hrun2, ha1, ha2, ?_, ha3, ha4, hzero⟩
  intro i _ hi2
  exact ha4 i (by omega)

theorem extractMin_eq_swap_shrink_witness :
    ((extractMin heapTwo).map (fun r => r.2.arr 2) = some ⟨0, 0⟩ ∧
      (extractMinSwapShrink heapTwo).map (fun r => r.2.arr 2) = some ⟨3, 1⟩) ∧
    ∃ (min : HeapNode) (h1 h2 : MinHeap), extractMin heapTwo = some (min, h1) ∧
      extractMinSwapShrink heapTwo = some (min, h2) ∧
      h1.size = h2.size ∧ h1.capacity = h2.capacity ∧
      (∀ i : Int, 1 ≤ i → i ≤ h1.size → h1.arr i = h2.arr i) ∧
      h1.indexMap = h2.indexMap ∧
      (∀ j : Int, j ≠ heapTwo.size → h1.arr j = h2.arr j) ∧
      h1.arr heapTwo.size = ⟨0, 0⟩ :=
  ⟨by decide, extractMin_eq_swap_shrink heapTwo (by decide) (by decide)⟩

/-- C18. Bubble-up stops on ties: on a heap satisfying the invariants with
`1 ≤ size < capacity`, for an absent identifier of `[0, capacity)` and a
priority that is at least the priority of slot `(size + 1) / 2`, the parent
of the new node, `insert` calls `swap` not once: the new node ends in slot
`size + 1`, every slot of `[1, size]` is unchanged and so is every table entry
other than that of `id`. -/
theorem insert_no_swap_on_tie (h : MinHeap) (_hinv : Invariants h) (hsz : 1 ≤ h.size)
    (hlt : h.size < h.capacity) (priority id : Int) (_hid0 : 0 ≤ id)
    (_hidc : id < h.capacity) (_hnp : ¬ Present h id)
    (hge : priority ≥ (h.arr ((h.size + 1) / 2)).priority) :
    ∃ (h1 : MinHeap) (t : List Event), insertTraced h priority id = some (h1, t) ∧
      insert h priority id = some h1 ∧ swapCount t = 0 ∧
      h1.size = h.size + 1 ∧ h1.arr (h.size + 1) = ⟨priority, id⟩ ∧
      (∀ i : Int, 1 ≤ i → i ≤ h.size → h1.arr i = h.arr i) ∧
      h1.indexMap id = h.size + 1 ∧
      (∀ j : Int, j ≠ id → h1.indexMap j = h.indexMap j) := by
  have hnew : (appended h priority id).arr (h.size + 1) = ⟨priority, id⟩ := by
    simp [appended, store_apply]
  have hpar : (appended h priority id).arr ((h.size + 1) / 2) = h.arr ((h.size + 1) / 2) := by
    simp only [appended, store_apply]
    rw [if_neg (by omega)]
  have hbu : bubbleUpTraced (appended h priority id) (h.size + 1) =
      some (appended h priority id,
        [Event.readArr (h.size + 1), Event.readArr ((h.size + 1) / 2)]) := by
    unfold bubbleUpTraced
    rw [if_pos ((isValidIndex_iff (appended h priority id) (h.size + 1)).2
      ⟨by omega, le_refl _⟩)]
    obtain ⟨n, hn⟩ : ∃ n : Nat, (h.size + 1).toNat = n + 1 :=
      ⟨(h.size + 1).toNat - 1, by omega⟩
    rw [hn, bubbleUpLoopTraced_succ n (appended h priority id) (h.size + 1) (by omega)
      (le_refl _), if_pos (by omega),
      if_neg (by rw [hnew, hpar]; simp only; omega)]
  have hrun : insertTraced h priority id = some (appended h priority id,
      [Event.writeArr (h.size + 1), Event.writeArr (h.size + 1), Event.writeMap id,
        Event.readArr (h.size + 1), Event.readArr ((h.size + 1) / 2)]) := by
    rw [insertTraced_eq h priority id hlt, hbu]
    rfl
  refine ⟨_, _, hrun, ?_, rfl, rfl, hnew, ?_, ?_, ?_⟩
  · rw [← insertTraced_fst, hrun]
    rfl
  · intro i _ hi2
    simp only [appended, store_apply]
    rw [if_neg (by omega)]
  · simp [appended, store_apply]
  · intro j hj
    simp only [appended, store_apply]
    rw [if_neg hj]

theorem insert_no_swap_on_tie_witness :
    ((insertTraced heapTwo 3 2).map (fun r => (swapCount r.2, r.1.arr 3, r.1.arr 1)) =
      some (0, ⟨3, 2⟩, ⟨3, 1⟩)) ∧
    ∃ (h1 : MinHeap) (t : List Event), insertTraced heapTwo 3 2 = some (h1, t) ∧
      insert heapTwo 3 2 = some h1 ∧ swapCount t = 0 ∧
      h1.size = heapTwo.size + 1 ∧ h1.arr (heapTwo.size + 1) = ⟨3, 2⟩ ∧
      (∀ i : Int, 1 ≤ i → i ≤ heapTwo.size → h1.arr i = heapTwo.arr i) ∧
      h1.indexMap 2 = heapTwo.size + 1 ∧
      (∀ j : Int, j ≠ 2 → h1.indexMap j = heapTwo.indexMap j) :=
  ⟨by decide,
    insert_no_swap_on_tie heapTwo (by decide) (by decide) (by decide) 3 2 (by decide)
      (by decide) (by decide) (by decide)⟩

/-- C19. In-bounds access under the preconditions: on a heap satisfying the
four invariants, with `arr` and `indexMap` of `capacity + 1` slots each
(indices `0, ..., capacity`), every read and write of `arr` and `indexMap`
made by `insert` (identifier in `[0, capacity)` and absent), by `extractMin`
(size at least 1), by `decreasePriority` (identifier in `[0, capacity)`) and
by `getPriority` and `indexOf` (identifier present) uses an index of
`[0, capacity]`.  In particular `bubbleUp` reads and writes only occupied
slots, so never `arr[NOTHING]`, and `bubbleDown` reads and writes only
occupied slots, so never a child slot beyond `size`. -/
theorem accesses_in_bounds (h : MinHeap) (hinv : Invariants h) :
    (∀ priority id : Int, 0 ≤ id → id < h.capacity → ¬ Present h id →
      ∃ r : MinHeap × List Event, insertTraced h priority id = some r ∧
        insert h priority id = some r.1 ∧ (∀ e ∈ r.2, e.InBounds h.capacity) ∧
        Event.readArr NOTHING ∉ r.2) ∧
    (1 ≤ h.size →
      ∃ r : (HeapNode × MinHeap) × List Event, extractMinTraced h = some r ∧
        extractMin h = some r.1 ∧ (∀ e ∈ r.2, e.InBounds h.capacity) ∧
        ∀ i : Int, Event.readArr i ∈ r.2 → 1 ≤ i ∧ i ≤ h.size) ∧
    (∀ id newPriority : Int, 0 ≤ id → id < h.capacity →
      ∃ r : (Bool × MinHeap) × List Event, decreasePriorityTraced h id newPriority = some r ∧
        decreasePriority h id newPriority = some r.1 ∧
        (∀ e ∈ r.2, e.InBounds h.capacity) ∧ Event.readArr NOTHING ∉ r.2) ∧
    (∀ id : Int, Present h id →
      (getPriorityTraced h id).1 = getPriority h id ∧
      (indexOfTraced h id).1 = indexOf h id ∧
      (∀ e ∈ (getPriorityTraced h id).2, e.InBounds h.capacity) ∧
      (∀ e ∈ (indexOfTraced h id).2, e.InBounds h.capacity)) ∧
    (∀ nodeIndex : Int, ∃ r : MinHeap × List Event, bubbleUpTraced h nodeIndex = some r ∧
      bubbleUp h nodeIndex = some r.1 ∧ (∀ e ∈ r.2, e.Within h.size h.capacity) ∧
      Event.readArr NOTHING ∉ r.2) ∧
    (∃ r : MinHeap × List Event, bubbleDownTraced h = some r ∧
      bubbleDown h = some r.1 ∧ (∀ e ∈ r.2, e.Within h.size h.capacity) ∧
      ∀ i : Int, Event.readArr i ∈ r.2 → 1 ≤ i ∧ i ≤ h.size) := by
  obtain ⟨_, hic, _, hb⟩ := hinv
  have hcap := hb.2.1
  refine ⟨?_, ?_, ?_, ?_, ?_, ?_⟩
  · intro p id hid0 hidc hnp
    obtain ⟨r, hrun, hfst⟩ := insertTraced_isSome h p id
    have hw := insertTraced_within h p id r hb hid0 hidc hrun
    exact ⟨r, hrun, hfst, insertTraced_inBounds h p id r hb hid0 hidc hrun,
      not_readArr_NOTHING_of_within _ _ _ hw⟩
  · intro hsz
    obtain ⟨r, hrun, hfst⟩ := extractMinTraced_isSome h
    have hw := extractMinTraced_within h r hb hsz hrun
    exact ⟨r, hrun, hfst, fun e he => inBounds_of_within _ _ hcap e (hw e he),
      fun i hi => hw _ hi⟩
  · intro id np hid0 hidc
    obtain ⟨r, hrun, hfst⟩ := decreasePriorityTraced_isSome h id np
    have hw := decreasePriorityTraced_within h id np r hb hid0 hidc hrun
    exact ⟨r, hrun, hfst, fun e he => inBounds_of_within _ _ hcap e (hw e he),
      not_readArr_NOTHING_of_within _ _ _ hw⟩
  · intro id hpres
    obtain ⟨h1, h2⟩ := lookups_within h id hic hb hpres
    exact ⟨rfl, rfl, fun e he => inBounds_of_within _ _ hcap e (h1 e he),
      fun e he => inBounds_of_within _ _ hcap e (h2 e he)⟩
  · intro k
    obtain ⟨r, hrun, hfst⟩ := bubbleUpTraced_isSome h k
    have hw := bubbleUpTraced_within h k r hb hrun
    exact ⟨r, hrun, hfst, hw, not_readArr_NOTHING_of_within _ _ _ hw⟩
  · obtain ⟨r, hrun, hfst⟩ := bubbleDownTraced_isSome h
    have hw := bubbleDownTraced_within h r hb hrun
    exact ⟨r, hrun, hfst, hw, fun i hi => hw _ hi⟩

theorem accesses_in_bounds_witness :
    ((extractMinTraced heapTwo).map Prod.snd =
        some [Event.readArr 1, Event.readArr 2, Event.writeArr 1, Event.readArr 1,
          Event.writeMap 0, Event.writeMap 1, Event.writeArr 2, Event.writeArr 2] ∧
      (insertTraced heapTwo 1 3).map Prod.snd =
        some [Event.writeArr 3, Event.writeArr 3, Event.writeMap 3, Event.readArr 3,
          Event.readArr 1, Event.swapCall 3 1, Event.readArr 3, Event.readArr 1,
          Event.readArr 3, Event.readArr 1, Event.writeArr 3, Event.writeArr 1,
          Event.writeMap 3, Event.writeMap 1]) ∧
    ((∀ priority id : Int, 0 ≤ id → id < heapTwo.capacity → ¬ Present heapTwo id →
      ∃ r : MinHeap × List Event, insertTraced heapTwo priority id = some r ∧
        insert heapTwo priority id = some r.1 ∧
        (∀ e ∈ r.2, e.InBounds heapTwo.capacity) ∧ Event.readArr NOTHING ∉ r.2) ∧
    (1 ≤ heapTwo.size →
      ∃ r : (HeapNode × MinHeap) × List Event, extractMinTraced heapTwo = some r ∧
        extractMin heapTwo = some r.1 ∧ (∀ e ∈ r.2, e.InBounds heapTwo.capacity) ∧
        ∀ i : Int, Event.readArr i ∈ r.2 → 1 ≤ i ∧ i ≤ heapTwo.size) ∧
    (∀ id newPriority : Int, 0 ≤ id → id < heapTwo.capacity →
      ∃ r : (Bool × MinHeap) × List Event,
        decreasePriorityTraced heapTwo id newPriority = some r ∧
        decreasePriority heapTwo id newPriority = some r.1 ∧
        (∀ e ∈ r.2, e.InBounds heapTwo.capacity) ∧ Event.readArr NOTHING ∉ r.2) ∧
    (∀ id : Int, Present heapTwo id →
      (getPriorityTraced heapTwo id).1 = getPriority heapTwo id ∧
      (indexOfTraced heapTwo id).1 = indexOf heapTwo id ∧
      (∀ e ∈ (getPriorityTraced heapTwo id).2, e.InBounds heapTwo.capacity) ∧
      (∀ e ∈ (indexOfTraced heapTwo id).2, e.InBounds heapTwo.capacity)) ∧
    (∀ nodeIndex : Int, ∃ r : MinHeap × List Event,
      bubbleUpTraced heapTwo nodeIndex = some r ∧
      bubbleUp heapTwo nodeIndex = some r.1 ∧
      (∀ e ∈ r.2, e.Within heapTwo.size heapTwo.capacity) ∧
      Event.readArr NOTHING ∉ r.2) ∧
    (∃ r : MinHeap × List Event, bubbleDownTraced heapTwo = some r ∧
      bubbleDown heapTwo = some r.1 ∧
      (∀ e ∈ r.2, e.Within heapTwo.size heapTwo.capacity) ∧
      ∀ i : Int, Event.readArr i ∈ r.2 → 1 ≤ i ∧ i ≤ heapTwo.size)) :=
  ⟨by decide, accesses_in_bounds heapTwo (by decide)⟩

/-! ## Inserting an identifier that is already stored -/

/-- A `swap` of two occupied slots moves the node of slot `i` to the slot the
transposition of the two slot numbers sends `i` to. -/
theorem swap_arr_transposed (h : MinHeap) (a b : Int) (ha : 1 ≤ a ∧ a ≤ h.size)
    (hb : 1 ≤ b ∧ b ≤ h.size) (i : Int) :
    (swap h a b).arr (Equiv.swap a b i) = h.arr i := by
  rw [swap_arr h a b ha hb, Equiv.swap_apply_def]
  by_cases hia : i = a
  · rw [if_pos hia, if_pos rfl, hia]
  · rw [if_neg hia]
    by_cases hib : i = b
    · rw [if_pos hib, hib]
      by_cases hab : a = b
      · rw [if_pos hab, hab]
      · rw [if_neg hab, if_pos rfl]
    · rw [if_neg hib, if_neg hib, if_neg hia]

theorem two_slots_swap (id : Int) (h : MinHeap) (a b : Int)
    (hP : ∃ i j : Int, 1 ≤ i ∧ i ≤ h.size ∧ 1 ≤ j ∧ j ≤ h.size ∧ i ≠ j ∧
      (h.arr i).id = id ∧ (h.arr j).id = id) :
    ∃ i j : Int, 1 ≤ i ∧ i ≤ (swap h a b).size ∧ 1 ≤ j ∧ j ≤ (swap h a b).size ∧ i ≠ j ∧
      ((swap h a b).arr i).id = id ∧ ((swap h a b).arr j).id = id := by
  by_cases hv : (1 ≤ a ∧ a ≤ h.size) ∧ (1 ≤ b ∧ b ≤ h.size)
  · obtain ⟨ha, hb⟩ := hv
    obtain ⟨i, j, hi1, hi2, hj1, hj2, hij, hi, hj⟩ := hP
    have hrange : ∀ x : Int, 1 ≤ x → x ≤ h.size →
        1 ≤ Equiv.swap a b x ∧ Equiv.swap a b x ≤ h.size := by
      intro x hx1 hx2
      rw [Equiv.swap_apply_def]
      split_ifs <;> omega
    refine ⟨Equiv.swap a b i, Equiv.swap a b j, (hrange i hi1 hi2).1, ?_,
      (hrange j hj1 hj2).1, ?_, ?_, ?_, ?_⟩
    · rw [swap_size]; exact (hrange i hi1 hi2).2
    · rw [swap_size]; exact (hrange j hj1 hj2).2
    · exact fun he => hij ((Equiv.swap a b).injective he)
    · rw [swap_arr_transposed h a b ha hb]; exact hi
    · rw [swap_arr_transposed h a b ha hb]; exact hj
  · rw [swap_of_not_valid h a b hv]
    exact hP

/-- C20. `insert` does not check for a duplicate identifier: on a heap
satisfying the invariants with `size < capacity`, `insert` of an identifier
that is already present is not rejected; it raises the size by one and leaves
two occupied slots of `[1, size]` holding that identifier, so identifier
uniqueness and index consistency fail in the resulting state. -/
theorem insert_duplicate_id (h : MinHeap) (hinv : Invariants h)
    (hlt : h.size < h.capacity) (priority id : Int) (hpres : Present h id) :
    ∃ h1 : MinHeap, insert h priority id = some h1 ∧ h1.size = h.size + 1 ∧
      (∃ i j : Int, 1 ≤ i ∧ i ≤ h1.size ∧ 1 ≤ j ∧ j ≤ h1.size ∧ i ≠ j ∧
        (h1.arr i).id = id ∧ (h1.arr j).id = id) ∧
      ¬ UniqueIds h1 ∧ ¬ IndexConsistent h1 := by
  obtain ⟨_, _, _, hsz, _⟩ := hinv
  obtain ⟨h1, hrun⟩ := insert_isSome h priority id
  have hbu := hrun
  rw [insert_eq h priority id hlt] at hbu
  obtain ⟨hs, _, _⟩ := bubbleUp_sameNodes _ _ h1 hbu
  obtain ⟨q, hq1, hq2, hqid⟩ := hpres
  have hstart : ∃ i j : Int, 1 ≤ i ∧ i ≤ (appended h priority id).size ∧ 1 ≤ j ∧
      j ≤ (appended h priority id).size ∧ i ≠ j ∧
      ((appended h priority id).arr i).id = id ∧
      ((appended h priority id).arr j).id = id := by
    refine ⟨q, h.size + 1, hq1, ?_, by omega, le_refl _, by omega, ?_, ?_⟩
    · show q ≤ h.size + 1
      omega
    · simp only [appended, store_apply]
      rw [if_neg (by omega)]
      exact hqid
    · simp [appended, store_apply]
  have htwo := bubbleUp_preserves
    (fun x => ∃ i j : Int, 1 ≤ i ∧ i ≤ x.size ∧ 1 ≤ j ∧ j ≤ x.size ∧ i ≠ j ∧
      (x.arr i).id = id ∧ (x.arr j).id = id)
    (two_slots_swap id) _ _ h1 hbu hstart
  have hnu : ¬ UniqueIds h1 := by
    intro hu
    obtain ⟨i, j, hi1, hi2, hj1, hj2, hij, hi, hj⟩ := htwo
    exact hij (hu i j hi1 hi2 hj1 hj2 (by rw [hi, hj]))
  exact ⟨h1, hrun, hs, htwo, hnu, fun hic => hnu (uniqueIds_of_indexConsistent h1 hic)⟩

theorem insert_duplicate_id_witness :
    (insert heapTwo 9 0).map (fun h1 => (h1.size, h1.arr 2, h1.arr 3, h1.indexMap 0)) =
      some (3, ⟨5, 0⟩, ⟨9, 0⟩, 3) ∧
    ∃ h1 : MinHeap, insert heapTwo 9 0 = some h1 ∧ h1.size = heapTwo.size + 1 ∧
      (∃ i j : Int, 1 ≤ i ∧ i ≤ h1.size ∧ 1 ≤ j ∧ j ≤ h1.size ∧ i ≠ j ∧
        (h1.arr i).id = 0 ∧ (h1.arr j).id = 0) ∧
      ¬ UniqueIds h1 ∧ ¬ IndexConsistent h1 :=
  ⟨by decide, insert_duplicate_id heapTwo (by decide) (by decide) 9 0 (by decide)⟩

end IndexedMinHeap
